import Mathlib

/-!
# Verification of `InternalTx.Run` (pkg/tasks/evmtask/internaltx.go)

The task replays every message of the parent tipset in its own goroutine
(`errgroup.Group`), filters the immediate sub-calls through a shared `sync.Map`,
builds one `evmmodel.InternalTX` per new sub-call and hands the batch to the store.

The embedding is a small-step machine.  Every goroutine is a `UnitState`; the shared
variables (`sm`, `internalTxs`, the error kept by the errgroup) live in `Group`; a
schedule, a list of goroutine indices, decides which goroutine performs its next atomic
action.  The atomic actions of a goroutine are: the call of `StateReplay`, the call of
`EthGetTransactionHashByCid`, one `sm.LoadOrStore`, lines 83-104 (local to the
goroutine), the append to `internalTxs` under the lock, and the hand-over of a returned
error to the errgroup.  `Run` is total: after the schedule is consumed the goroutines
that are still running are driven to their end, which is what `grp.Wait()` waits for;
a schedule under which every goroutine ends is left as it is (`finish_of_done`).

The collaborators (node RPC, `ethtypes` conversions, `storage.Storage`) are the fields
of `Env`, functions of their arguments.  Every call is recorded with its outcome in the
log of the run (`Outcome.log`), in the order in which the calls were made.
-/

namespace Evmtask

/-! ## Data model -/

/-- Error values; `errors.Wrap err msg` is the constructor `wrap`. -/
inductive Err where
  | base (msg : String)
  | wrap (inner : Err) (msg : String)
  deriving DecidableEq, Repr

/-- Content identifier, represented by its string form (`Cid.String()`). -/
abbrev Cid := String

/-- Filecoin address. -/
abbrev Address := String

/-- Tipset key (`types.TipSetKey`): the block cids of the tipset. -/
abbrev TipSetKey := List Cid

/-- The part of `types.TipSet` that `Run` reads: `Height()`, `Parents()`, `Key()`. -/
structure TipSet where
  Height : Int
  Parents : TipSetKey
  Key : TipSetKey
  deriving DecidableEq, Repr

/-- Value of type `ethtypes.EthHash`; `hex` is what `String()` prints. -/
structure EthHash where
  hex : String
  deriving DecidableEq, Repr

/-- Value of type `ethtypes.EthAddress`; `hex` is what `String()` prints. -/
structure EthAddress where
  hex : String
  deriving DecidableEq, Repr

/-- Method `String()` of `ethtypes.EthHash`. -/
def EthHash.String (h : EthHash) : String := h.hex

/-- Method `String()` of `ethtypes.EthAddress`. -/
def EthAddress.String (a : EthAddress) : String := a.hex

/-- A chain message (`types.Message`), the `Msg` of an execution trace.
`Value` is a big integer, `Method` is an `abi.MethodNum` (unsigned 64 bit). -/
structure Message where
  From : Address
  To : Address
  Nonce : Nat
  Value : Int
  Method : Nat
  deriving DecidableEq, Repr

/-- Element of the result of `ChainGetMessagesInTipset` (`api.Message`);
`Run` reads only its `Cid`. -/
structure ApiMessage where
  Cid : Cid
  deriving DecidableEq, Repr

/-- Execution trace (`types.ExecutionTrace`): a message and the traces of the calls
it made, nested to any depth. -/
inductive ExecutionTrace where
  | mk (Msg : Message) (Subcalls : List ExecutionTrace)

/-- Field `Msg` of an execution trace. -/
def ExecutionTrace.Msg : ExecutionTrace → Message
  | .mk m _ => m

/-- Field `Subcalls` of an execution trace. -/
def ExecutionTrace.Subcalls : ExecutionTrace → List ExecutionTrace
  | .mk _ s => s

/-- Result of `StateReplay` (`api.InvocResult`); `Run` reads `ExecutionTrace`. -/
structure InvocResult where
  ExecutionTrace : ExecutionTrace

/-- The record `evmmodel.InternalTX` (field `Typ` is the source's `Type`). -/
structure InternalTX where
  Height : Int
  Version : Int
  Hash : String
  ParentHash : String
  From : String
  To : String
  Typ : Nat
  Value : String
  deriving DecidableEq, Repr

/-- The collaborators of `Run`: the node RPC, the `ethtypes` conversions, the
method `Cid()` of a message and the two methods of `storage.Storage` that `Run` calls.
Each is a function of its arguments. -/
structure Env where
  ChainGetTipSet : TipSetKey → Except Err TipSet
  ChainGetMessagesInTipset : TipSetKey → Except Err (List ApiMessage)
  StateReplay : Cid → Except Err InvocResult
  EthGetTransactionHashByCid : Cid → Except Err EthHash
  MessageCid : Message → Cid
  EthAddressFromFilecoinAddress : Address → Except Err EthAddress
  EthHashFromCid : Cid → Except Err EthHash
  Existed : Int → Int → Except Err Bool
  DelOldVersionAndWriteMany : Int → Int → List InternalTX → Option Err

/-- One call made during a run, with its outcome (`none` is a nil error).
`loadOrStore` is the `sm.LoadOrStore` of goroutine `unit` for sub-message `sub`. -/
inductive Event where
  | chainGetTipSet (key : TipSetKey) (err : Option Err)
  | existed (height version : Int) (res : Except Err Bool)
  | chainGetMessagesInTipset (key : TipSetKey) (err : Option Err)
  | stateReplay (c : Cid) (err : Option Err)
  | ethGetTransactionHashByCid (c : Cid) (err : Option Err)
  | loadOrStore (unit : Nat) (sub : Message) (loaded : Bool)
  | ethAddressFromFilecoinAddress (a : Address) (err : Option Err)
  | ethHashFromCid (c : Cid) (err : Option Err)
  | delOldVersionAndWriteMany (height version : Int) (txs : List InternalTX) (err : Option Err)

/-- The error `Run` returns when the call of this event failed: the collaborator's
error wrapped with the operation name (`none` when the call succeeded). -/
def Event.failure : Event → Option Err
  | .chainGetTipSet _ (some e) => some (.wrap e "ChainGetTipSet failed")
  | .existed _ _ (.error e) => some (.wrap e "storage.Existed failed")
  | .chainGetMessagesInTipset _ (some e) => some (.wrap e "ChainGetMessagesInTipset failed")
  | .stateReplay _ (some e) => some (.wrap e "StateReplay failed")
  | .ethGetTransactionHashByCid _ (some e) => some (.wrap e "EthGetTransactionHashByCid failed")
  | .ethAddressFromFilecoinAddress _ (some e) => some (.wrap e "EthAddressFromFilecoinAddress failed")
  | .ethHashFromCid _ (some e) => some (.wrap e "EthHashFromCid failed")
  | .delOldVersionAndWriteMany _ _ _ (some e) => some (.wrap e "storage.WriteMany failed")
  | _ => none

/-! ## The body of one goroutine -/

/-- Lines 83-104: translate `From` and `To`, hash the sub-message's cid and build
the record.  Returns the calls made and the record or the wrapped error. -/
def buildTx (env : Env) (height version : Int) (parentHash : EthHash) (subMessage : Message) :
    List Event × Except Err InternalTX :=
  match env.EthAddressFromFilecoinAddress subMessage.From with
  | .error e =>
    ([.ethAddressFromFilecoinAddress subMessage.From (some e)],
      .error (.wrap e "EthAddressFromFilecoinAddress failed"))
  | .ok frm =>
    match env.EthAddressFromFilecoinAddress subMessage.To with
    | .error e =>
      ([.ethAddressFromFilecoinAddress subMessage.From none,
        .ethAddressFromFilecoinAddress subMessage.To (some e)],
        .error (.wrap e "EthAddressFromFilecoinAddress failed"))
    | .ok toAddr =>
      match env.EthHashFromCid (env.MessageCid subMessage) with
      | .error e =>
        ([.ethAddressFromFilecoinAddress subMessage.From none,
          .ethAddressFromFilecoinAddress subMessage.To none,
          .ethHashFromCid (env.MessageCid subMessage) (some e)],
          .error (.wrap e "EthHashFromCid failed"))
      | .ok hash =>
        ([.ethAddressFromFilecoinAddress subMessage.From none,
          .ethAddressFromFilecoinAddress subMessage.To none,
          .ethHashFromCid (env.MessageCid subMessage) none],
          .ok {
            Height := height
            Version := version
            Hash := hash.String
            ParentHash := parentHash.String
            From := frm.String
            To := toAddr.String
            Typ := subMessage.Method
            Value := toString subMessage.Value })

/-- Control point of one goroutine started by `grp.Go` (lines 66-111). -/
inductive UnitState where
  /-- Before `StateReplay` of the message with cid `c` (line 67). -/
  | start (c : Cid)
  /-- After `StateReplay`, before `EthGetTransactionHashByCid` (line 71). -/
  | replayed (c : Cid) (subcalls : List ExecutionTrace)
  /-- At the head of the loop of line 75, `rest` still to be visited. -/
  | loop (parentHash : EthHash) (rest : List ExecutionTrace)
  /-- After a `LoadOrStore` that stored the key (line 78), before line 83. -/
  | stored (parentHash : EthHash) (sub : Message) (rest : List ExecutionTrace)
  /-- Record built (line 104), before `lock.Lock()` and the append (line 106). -/
  | built (parentHash : EthHash) (tx : InternalTX) (rest : List ExecutionTrace)
  /-- The function returned error `e`; the errgroup has not recorded it yet. -/
  | failed (e : Err)
  /-- The goroutine is over. -/
  | done

/-- The variables shared by the goroutines: the keys of `sm`, `internalTxs`, the
first error kept by the errgroup, the calls made so far, and every goroutine's
control point. -/
structure Group where
  sm : List String
  internalTxs : List InternalTX
  err : Option Err
  log : List Event
  units : List UnitState

/-- One atomic action of goroutine `i`.  A goroutine that is over (or an index
without goroutine) leaves the state as it is. -/
def step (env : Env) (height version : Int) (i : Nat) (g : Group) : Group :=
  match g.units[i]? with
  | none => g
  | some (.start c) =>
    match env.StateReplay c with
    | .error e =>
      { g with
        log := g.log ++ [.stateReplay c (some e)]
        units := g.units.set i (.failed (.wrap e "StateReplay failed")) }
    | .ok invocs =>
      { g with
        log := g.log ++ [.stateReplay c none]
        units := g.units.set i (.replayed c invocs.ExecutionTrace.Subcalls) }
  | some (.replayed c subcalls) =>
    match env.EthGetTransactionHashByCid c with
    | .error e =>
      { g with
        log := g.log ++ [.ethGetTransactionHashByCid c (some e)]
        units := g.units.set i (.failed (.wrap e "EthGetTransactionHashByCid failed")) }
    | .ok parentHash =>
      { g with
        log := g.log ++ [.ethGetTransactionHashByCid c none]
        units := g.units.set i (.loop parentHash subcalls) }
  | some (.loop _ []) =>
    { g with units := g.units.set i .done }
  | some (.loop parentHash (subCall :: rest)) =>
    if env.MessageCid subCall.Msg ∈ g.sm then
      { g with
        log := g.log ++ [.loadOrStore i subCall.Msg true]
        units := g.units.set i (.loop parentHash rest) }
    else
      { g with
        sm := g.sm ++ [env.MessageCid subCall.Msg]
        log := g.log ++ [.loadOrStore i subCall.Msg false]
        units := g.units.set i (.stored parentHash subCall.Msg rest) }
  | some (.stored parentHash sub rest) =>
    match buildTx env height version parentHash sub with
    | (evs, .error e) =>
      { g with
        log := g.log ++ evs
        units := g.units.set i (.failed e) }
    | (evs, .ok tx) =>
      { g with
        log := g.log ++ evs
        units := g.units.set i (.built parentHash tx rest) }
  | some (.built parentHash tx rest) =>
    { g with
      internalTxs := g.internalTxs ++ [tx]
      units := g.units.set i (.loop parentHash rest) }
  | some (.failed e) =>
    { g with
      err := match g.err with
        | some e0 => some e0
        | none => some e
      units := g.units.set i .done }
  | some .done => g

/-- Upper bound on the number of actions a goroutine still has to perform. -/
def remaining (env : Env) : UnitState → Nat
  | .start c =>
    match env.StateReplay c with
    | .error _ => 2
    | .ok invocs => 3 + 3 * invocs.ExecutionTrace.Subcalls.length
  | .replayed _ subcalls => 2 + 3 * subcalls.length
  | .loop _ rest => 1 + 3 * rest.length
  | .stored _ _ rest => 3 + 3 * rest.length
  | .built _ _ rest => 2 + 3 * rest.length
  | .failed _ => 1
  | .done => 0

/-- Run the goroutines as the schedule says. -/
def runSched (env : Env) (height version : Int) (sched : List Nat) (g : Group) : Group :=
  sched.foldl (fun g i => step env height version i g) g

/-- Let goroutine `i` run until it is over. -/
def drain (env : Env) (height version : Int) (g : Group) (i : Nat) : Group :=
  match g.units[i]? with
  | none => g
  | some u => (step env height version i)^[remaining env u] g

/-- Let every goroutine that is still running run until it is over, in index order. -/
def finish (env : Env) (height version : Int) (g : Group) : Group :=
  (List.range g.units.length).foldl (drain env height version) g

/-- State at `grp.Wait()` returning (line 114): the schedule followed by the end of
every goroutine. -/
def wait (env : Env) (height version : Int) (sched : List Nat) (g : Group) : Group :=
  finish env height version (runSched env height version sched g)

/-- State after the loop of lines 64-112 started one goroutine per message. -/
def spawn (log : List Event) (messages : List ApiMessage) : Group :=
  { sm := []
    internalTxs := []
    err := none
    log := log
    units := messages.map (fun message => .start message.Cid) }

/-! ## `Run` -/

/-- What a run leaves behind: the error returned (`none` is nil), the calls made in
order, and the value of `internalTxs` when `Run` returns. -/
structure Outcome where
  ret : Option Err
  log : List Event
  internalTxs : List InternalTX

/-- Lines 114-126: the result of `grp.Wait()`, then the write of the batch. -/
def persist (env : Env) (height version : Int) (g : Group) : Outcome :=
  match g.err with
  | some e => ⟨some e, g.log, g.internalTxs⟩
  | none =>
    if g.internalTxs.length > 0 then
      match env.DelOldVersionAndWriteMany height version g.internalTxs with
      | some e =>
        ⟨some (.wrap e "storage.WriteMany failed"),
          g.log ++ [.delOldVersionAndWriteMany height version g.internalTxs (some e)],
          g.internalTxs⟩
      | none =>
        ⟨none,
          g.log ++ [.delOldVersionAndWriteMany height version g.internalTxs none],
          g.internalTxs⟩
    else ⟨none, g.log, g.internalTxs⟩

/-- Lines 52-126: fetch the messages of the parent tipset, replay them
concurrently under schedule `sched`, and persist. -/
def extract (env : Env) (version : Int) (parentTs : TipSet) (sched : List Nat)
    (log : List Event) : Outcome :=
  match env.ChainGetMessagesInTipset parentTs.Key with
  | .error e =>
    ⟨some (.wrap e "ChainGetMessagesInTipset failed"),
      log ++ [.chainGetMessagesInTipset parentTs.Key (some e)], []⟩
  | .ok messages =>
    persist env parentTs.Height version
      (wait env parentTs.Height version sched
        (spawn (log ++ [.chainGetMessagesInTipset parentTs.Key none]) messages))

/-- The method `InternalTx.Run`.  `sched` is the interleaving of the goroutines. -/
def Run (env : Env) (version : Int) (tipSet : TipSet) (force : Bool) (sched : List Nat) :
    Outcome :=
  if tipSet.Height = 0 then ⟨none, [], []⟩
  else
    match env.ChainGetTipSet tipSet.Parents with
    | .error e =>
      ⟨some (.wrap e "ChainGetTipSet failed"), [.chainGetTipSet tipSet.Parents (some e)], []⟩
    | .ok parentTs =>
      if force then
        extract env version parentTs sched [.chainGetTipSet tipSet.Parents none]
      else
        match env.Existed parentTs.Height version with
        | .error e =>
          ⟨some (.wrap e "storage.Existed failed"),
            [.chainGetTipSet tipSet.Parents none,
              .existed parentTs.Height version (.error e)], []⟩
        | .ok true =>
          ⟨none,
            [.chainGetTipSet tipSet.Parents none, .existed parentTs.Height version (.ok true)], []⟩
        | .ok false =>
          extract env version parentTs sched
            [.chainGetTipSet tipSet.Parents none, .existed parentTs.Height version (.ok false)]

/-! ## The scenario of the specification

Tipset at height 100, parent at height 99 with messages `A` and `B`; `A` replays to
sub-calls `s1, s2` and `B` to `s2, s3`. -/

/-- Sub-message number `n` of the scenario. -/
def exSub (n : Nat) : Message :=
  { From := "f1", To := "f2", Nonce := n, Value := 10 * n, Method := 2 }

/-- Trace of a call without sub-calls. -/
def exLeaf (n : Nat) : ExecutionTrace := .mk (exSub n) []

/-- The collaborators of the scenario. -/
def exEnv : Env where
  ChainGetTipSet := fun _ => .ok { Height := 99, Parents := [], Key := ["p"] }
  ChainGetMessagesInTipset := fun _ => .ok [⟨"A"⟩, ⟨"B"⟩]
  StateReplay := fun c =>
    if c = "A" then .ok ⟨.mk (exSub 0) [exLeaf 1, exLeaf 2]⟩
    else .ok ⟨.mk (exSub 0) [exLeaf 2, exLeaf 3]⟩
  EthGetTransactionHashByCid := fun c => .ok ⟨"0x" ++ c⟩
  MessageCid := fun m => "s" ++ toString m.Nonce
  EthAddressFromFilecoinAddress := fun a => .ok ⟨"0x" ++ a⟩
  EthHashFromCid := fun c => .ok ⟨"0x" ++ c⟩
  Existed := fun _ _ => .ok true
  DelOldVersionAndWriteMany := fun _ _ _ => none

/-- The tipset at height 100 of the scenario. -/
def exTipSet : TipSet := { Height := 100, Parents := ["p"], Key := ["t"] }

/-! ## Reading the log of a run -/

/-- The event is a call of `storage.Existed`. -/
def Event.isExisted : Event → Bool
  | .existed _ _ _ => true
  | _ => false

/-- The event is a call of `storage.DelOldVersionAndWriteMany`. -/
def Event.isWrite : Event → Bool
  | .delOldVersionAndWriteMany _ _ _ _ => true
  | _ => false

/-- The event is a call of `ChainGetTipSet`. -/
def Event.isGetTipSet : Event → Bool
  | .chainGetTipSet _ _ => true
  | _ => false

/-- The event is a call of `ChainGetMessagesInTipset`. -/
def Event.isGetMessages : Event → Bool
  | .chainGetMessagesInTipset _ _ => true
  | _ => false

/-- The event is a call of `StateReplay`. -/
def Event.isReplay : Event → Bool
  | .stateReplay _ _ => true
  | _ => false

/-- The event is a call of `EthAddressFromFilecoinAddress` that failed. -/
def Event.isTranslateFailure : Event → Bool
  | .ethAddressFromFilecoinAddress _ (some _) => true
  | _ => false

/-- The event is a call of `StateReplay` that failed. -/
def Event.isReplayFailure : Event → Bool
  | .stateReplay _ (some _) => true
  | _ => false

/-- The event is one of the calls of lines 83-94 (address translation, hash). -/
def Event.isBuild : Event → Bool
  | .ethAddressFromFilecoinAddress _ _ => true
  | .ethHashFromCid _ _ => true
  | _ => false

/-- The event is made inside a goroutine (lines 66-111). -/
def Event.isUnit : Event → Bool
  | .stateReplay _ _ => true
  | .ethGetTransactionHashByCid _ _ => true
  | .loadOrStore _ _ _ => true
  | .ethAddressFromFilecoinAddress _ _ => true
  | .ethHashFromCid _ _ => true
  | _ => false

/-- The `sm.LoadOrStore` calls of the log in order: goroutine, sub-message, `loaded`. -/
def observations : List Event → List (Nat × Message × Bool)
  | [] => []
  | .loadOrStore i sub loaded :: l => (i, sub, loaded) :: observations l
  | _ :: l => observations l

/-- The `sm.LoadOrStore` calls of the log that stored their key (`loaded = false`). -/
def winners (log : List Event) : List (Nat × Message) :=
  (observations log).filterMap (fun o => if o.2.2 then none else some (o.1, o.2.1))

/-- The link between failed calls and the error kept by the errgroup. -/
structure ErrInv (g : Group) : Prop where
  /-- A failed call leaves a goroutine that returned an error or a recorded error. -/
  caught : (∃ ev ∈ g.log, ev.failure ≠ none) →
    (∃ (j : Nat) (e : Err), g.units[j]? = some (UnitState.failed e)) ∨ g.err ≠ none
  /-- The recorded error is the wrapped error of a failed call. -/
  recorded : ∀ e, g.err = some e → ∃ ev ∈ g.log, ev.isUnit = true ∧ ev.failure = some e
  /-- The error a goroutine returned is the wrapped error of a failed call. -/
  returned : ∀ (j : Nat) (e : Err), g.units[j]? = some (UnitState.failed e) →
    ∃ ev ∈ g.log, ev.isUnit = true ∧ ev.failure = some e

/-- The calls made before the goroutines start, on the path that reaches line 57:
the parent lookup, the `Existed` query unless `force`, and the message fetch. -/
def preamble (tipSet parentTs : TipSet) (version : Int) (force : Bool) : List Event :=
  (if force then [.chainGetTipSet tipSet.Parents none]
    else [.chainGetTipSet tipSet.Parents none, .existed parentTs.Height version (.ok false)]) ++
    [.chainGetMessagesInTipset parentTs.Key none]

/-- Collaborators under which message `A` has a sub-call whose `From` address has no
Ethereum form and the replay of message `B` fails; `Existed` answers false. -/
def failEnv : Env where
  ChainGetTipSet := fun _ => .ok { Height := 99, Parents := [], Key := ["p"] }
  ChainGetMessagesInTipset := fun _ => .ok [⟨"A"⟩, ⟨"B"⟩]
  StateReplay := fun c =>
    if c = "A" then
      .ok ⟨.mk (exSub 0) [.mk { From := "bad", To := "f2", Nonce := 1, Value := 5, Method := 0 } []]⟩
    else .error (.base "replay unavailable")
  EthGetTransactionHashByCid := fun c => .ok ⟨"0x" ++ c⟩
  MessageCid := fun m => "s" ++ toString m.Nonce
  EthAddressFromFilecoinAddress := fun a =>
    if a = "bad" then .error (.base "no mapping") else .ok ⟨"0x" ++ a⟩
  EthHashFromCid := fun c => .ok ⟨"0x" ++ c⟩
  Existed := fun _ _ => .ok false
  DelOldVersionAndWriteMany := fun _ _ _ => none

/-! ## What the replay traces hold -/

/-- The immediate sub-calls of the replay trace of the message with cid `c`
(`invocs.ExecutionTrace.Subcalls`; empty when the replay fails). -/
def subcallsOf (env : Env) (c : Cid) : List ExecutionTrace :=
  match env.StateReplay c with
  | .ok invocs => invocs.ExecutionTrace.Subcalls
  | .error _ => []

/-- The identifiers (`Cid().String()`) of the immediate sub-calls of all the messages,
with repetitions: its length is the total number of sub-calls. -/
def subcallIds (env : Env) (messages : List ApiMessage) : List Cid :=
  messages.flatMap (fun m => (subcallsOf env m.Cid).map (fun t => env.MessageCid t.Msg))

/-- The control point `u` belongs to the goroutine of the message with cid `c`: the
values it holds come from the replay of that message. -/
def UnitOK (env : Env) (height version : Int) (c : Cid) : UnitState → Prop
  | .start c0 => c0 = c
  | .replayed c0 subcalls => c0 = c ∧ ∀ t ∈ subcalls, t ∈ subcallsOf env c
  | .loop parentHash rest =>
    env.EthGetTransactionHashByCid c = .ok parentHash ∧ ∀ t ∈ rest, t ∈ subcallsOf env c
  | .stored parentHash sub rest =>
    env.EthGetTransactionHashByCid c = .ok parentHash ∧
      (∃ t ∈ subcallsOf env c, t.Msg = sub) ∧ ∀ t ∈ rest, t ∈ subcallsOf env c
  | .built parentHash tx rest =>
    env.EthGetTransactionHashByCid c = .ok parentHash ∧
      (∃ t ∈ subcallsOf env c, ∃ evs,
        buildTx env height version parentHash t.Msg = (evs, .ok tx)) ∧
      ∀ t ∈ rest, t ∈ subcallsOf env c
  | .failed _ => True
  | .done => True

/-- The record was built from an immediate sub-call of the replay trace of one of the
messages, with that message's transaction hash as parent hash. -/
def Built (env : Env) (height version : Int) (messages : List ApiMessage)
    (tx : InternalTX) : Prop :=
  ∃ m ∈ messages, ∃ parentHash, env.EthGetTransactionHashByCid m.Cid = .ok parentHash ∧
    ∃ t ∈ subcallsOf env m.Cid, ∃ evs,
      buildTx env height version parentHash t.Msg = (evs, .ok tx)

/-- Goroutine `i` runs the body for message `i`, and every record comes from a trace. -/
structure TraceInv (env : Env) (height version : Int) (messages : List ApiMessage)
    (g : Group) : Prop where
  /-- Goroutine `i` holds values of the replay of message `i`. -/
  wf : ∀ (i : Nat) (u : UnitState), g.units[i]? = some u →
    ∃ m, messages[i]? = some m ∧ UnitOK env height version m.Cid u
  /-- Every record of `internalTxs` was built from a sub-call of a trace. -/
  prov : ∀ tx ∈ g.internalTxs, Built env height version messages tx

/-- The `sync.Map` and the `LoadOrStore` calls of the log agree: the first call for a
key stores it, every later call for that key finds it. -/
structure ObsInv (env : Env) (messages : List ApiMessage) (g : Group) : Prop where
  /-- The keys of `sm` are the keys of the calls that stored, in order. -/
  keys : g.sm = (winners g.log).map (fun w => env.MessageCid w.2)
  /-- No key is stored twice. -/
  nodup : g.sm.Nodup
  /-- A key is in `sm` exactly when some call was made for it. -/
  seen : ∀ k, k ∈ g.sm ↔ ∃ o ∈ observations g.log, env.MessageCid o.2.1 = k
  /-- A call returns `loaded = true` exactly when an earlier call had the same key. -/
  first : ∀ pre o post, observations g.log = pre ++ o :: post →
    (o.2.2 = true ↔ ∃ o' ∈ pre, env.MessageCid o'.2.1 = env.MessageCid o.2.1)
  /-- Every call of goroutine `i` is for a sub-call of the trace of message `i`, whose
  transaction hash was obtained. -/
  owner : ∀ o ∈ observations g.log, ∃ m, messages[o.1]? = some m ∧
    (∃ parentHash, env.EthGetTransactionHashByCid m.Cid = .ok parentHash) ∧
    ∃ t ∈ subcallsOf env m.Cid, t.Msg = o.2.1

/-- The record a goroutine holds between the `LoadOrStore` that stored the key and
the append to `internalTxs` (none when lines 83-94 fail). -/
def inflight (env : Env) (height version : Int) : UnitState → List InternalTX
  | .stored parentHash sub _ =>
    match (buildTx env height version parentHash sub).2 with
    | .ok tx => [tx]
    | .error _ => []
  | .built _ tx _ => [tx]
  | _ => []

/-- The record goroutine `w.1` builds for sub-message `w.2`: lines 83-104 with the
transaction hash of message `w.1` as parent hash (none when a call fails). -/
def recordOf (env : Env) (height version : Int) (messages : List ApiMessage)
    (w : Nat × Message) : Option InternalTX :=
  match messages[w.1]? with
  | none => none
  | some m =>
    match env.EthGetTransactionHashByCid m.Cid with
    | .error _ => none
    | .ok parentHash =>
      match (buildTx env height version parentHash w.2).2 with
      | .ok tx => some tx
      | .error _ => none

/-- The sub-calls a goroutine has still to visit. -/
def todo (env : Env) : UnitState → List ExecutionTrace
  | .start c => subcallsOf env c
  | .replayed _ subcalls => subcalls
  | .loop _ rest => rest
  | .stored _ _ rest => rest
  | .built _ _ rest => rest
  | .failed _ => []
  | .done => []

/-- The records and the `LoadOrStore` calls that stored a key correspond. -/
structure RecInv (env : Env) (height version : Int) (messages : List ApiMessage)
    (g : Group) : Prop where
  /-- The records appended or about to be appended are the records of the calls that
  stored their key, up to order. -/
  perm : (g.internalTxs ++ g.units.flatMap (inflight env height version)).Perm
    ((winners g.log).filterMap (recordOf env height version messages))
  /-- A call that stored its key has its record, unless its goroutine is still before
  line 83, or returned an error, or the errgroup holds an error. -/
  builtAll : ∀ w ∈ winners g.log,
    recordOf env height version messages w ≠ none ∨
    (∃ parentHash rest, g.units[w.1]? = some (UnitState.stored parentHash w.2 rest)) ∨
    (∃ e, g.units[w.1]? = some (UnitState.failed e)) ∨ g.err ≠ none
  /-- Every sub-call of the trace of message `i` is still to be visited by goroutine
  `i` or has its key in `sm`, unless the goroutine returned an error or the errgroup
  holds one. -/
  cover : ∀ (i : Nat) (u : UnitState) (m : ApiMessage), g.units[i]? = some u →
    messages[i]? = some m → ∀ t ∈ subcallsOf env m.Cid,
      t ∈ todo env u ∨ env.MessageCid t.Msg ∈ g.sm ∨ (∃ e, u = UnitState.failed e) ∨
        g.err ≠ none

/-- All the invariants of the group of goroutines. -/
structure AllInv (env : Env) (height version : Int) (messages : List ApiMessage)
    (g : Group) : Prop where
  /-- The values held by the goroutines come from the traces. -/
  trace : TraceInv env height version messages g
  /-- The map and the `LoadOrStore` calls agree. -/
  obs : ObsInv env messages g
  /-- The records and the calls that stored a key correspond. -/
  recs : RecInv env height version messages g

/-! ## The store -/

/-- Contents of the store: the records kept under each (height, version). -/
abbrev Store := Int → Int → List InternalTX

/-- Modelled from the spec: `VersionedStore.ReplaceVersion` (the method
`DelOldVersionAndWriteMany` of `storage.Storage`, whose code is not in this file's
source), which "must atomically delete any existing records for that (height,
version) key and write the new set". -/
def ReplaceVersion (st : Store) (height version : Int) (txs : List InternalTX) : Store :=
  fun h v => if h = height ∧ v = version then txs else st h v

/-- Modelled from the spec: the store after the calls of a log.  Every write that
returned nil replaced the contents of its key; a write that returned an error, and
every other call, leaves the store as it is. -/
def storeAfter (st : Store) : List Event → Store
  | [] => st
  | .delOldVersionAndWriteMany h v txs none :: l => storeAfter (ReplaceVersion st h v txs) l
  | _ :: l => storeAfter st l

/-- Collaborators under which the parent tipset holds no message. -/
def emptyEnv : Env where
  ChainGetTipSet := fun _ => .ok { Height := 99, Parents := [], Key := ["p"] }
  ChainGetMessagesInTipset := fun _ => .ok []
  StateReplay := fun _ => .error (.base "unknown message")
  EthGetTransactionHashByCid := fun c => .ok ⟨"0x" ++ c⟩
  MessageCid := fun m => "s" ++ toString m.Nonce
  EthAddressFromFilecoinAddress := fun a => .ok ⟨"0x" ++ a⟩
  EthHashFromCid := fun c => .ok ⟨"0x" ++ c⟩
  Existed := fun _ _ => .ok false
  DelOldVersionAndWriteMany := fun _ _ _ => none

/-- A record left by an earlier run at height 99, version 7. -/
def oldRecord : InternalTX :=
  { Height := 99, Version := 7, Hash := "0xs9", ParentHash := "0xZ", From := "0xf1",
    To := "0xf2", Typ := 2, Value := "90" }

/-- A store that holds `oldRecord` under (99, 7) and nothing else. -/
def oldStore : Store := fun h v => if h = 99 ∧ v = 7 then [oldRecord] else []

/-! ## Sequential processing orders -/

/-- The schedule that lets the goroutines run one after the other, in the order
`order`: each goroutine performs all its actions before the next one starts. -/
def seqSchedule (env : Env) (messages : List ApiMessage) (order : List Nat) : List Nat :=
  order.flatMap (fun i =>
    match messages[i]? with
    | none => []
    | some m => List.replicate (remaining env (.start m.Cid)) i)

/-- In the log, every `LoadOrStore` that stored its key was made by the first goroutine
of the order `P` whose trace holds a sub-call with that key. -/
def FirstIn (env : Env) (messages : List ApiMessage) (P : List Nat) (log : List Event) :
    Prop :=
  ∀ w ∈ winners log, ∃ A B, P = A ++ w.1 :: B ∧
    ∀ i ∈ A, ∀ m, messages[i]? = some m → ∀ t ∈ subcallsOf env m.Cid,
      env.MessageCid t.Msg ≠ env.MessageCid w.2

/-- State of a sequential run while goroutine `c` runs, the goroutines of `P` having
run before it. -/
structure MidInv (env : Env) (height version : Int) (messages : List ApiMessage)
    (P : List Nat) (c : Nat) (g : Group) : Prop where
  /-- The invariants of every run. -/
  all : AllInv env height version messages g
  /-- One goroutine per message. -/
  len : g.units.length = messages.length
  /-- A goroutine other than `c` is over or has not started. -/
  others : ∀ (j : Nat) (u : UnitState), j ≠ c → g.units[j]? = some u →
    u = UnitState.done ∨ ∃ m, messages[j]? = some m ∧ u = UnitState.start m.Cid
  /-- The goroutines of `P` are over. -/
  donePrev : ∀ j ∈ P, ∀ u, g.units[j]? = some u → u = UnitState.done
  /-- As long as no error is recorded the keys were stored in the order of `P`, `c`. -/
  first : g.err = none → FirstIn env messages (P ++ [c]) g.log

/-- State of a sequential run between two goroutines, those of `P` having run. -/
structure SeqInv (env : Env) (height version : Int) (messages : List ApiMessage)
    (P : List Nat) (g : Group) : Prop where
  /-- The invariants of every run. -/
  all : AllInv env height version messages g
  /-- One goroutine per message. -/
  len : g.units.length = messages.length
  /-- Every goroutine is over or has not started. -/
  idle : ∀ (j : Nat) (u : UnitState), g.units[j]? = some u →
    u = UnitState.done ∨ ∃ m, messages[j]? = some m ∧ u = UnitState.start m.Cid
  /-- The goroutines of `P` are over. -/
  donePrev : ∀ j ∈ P, ∀ u, g.units[j]? = some u → u = UnitState.done
  /-- As long as no error is recorded the keys were stored in the order of `P`. -/
  first : g.err = none → FirstIn env messages P g.log

/-- The messages of the parent tipset in the scenario. -/
def exMessages : List ApiMessage := [⟨"A"⟩, ⟨"B"⟩]

/-- The parent tipset of the scenario. -/
def exParent : TipSet := { Height := 99, Parents := [], Key := ["p"] }

/-- The scenario run with `force`, message `B` processed entirely before message `A`. -/
def exSeqRun : Outcome := Run exEnv 7 exTipSet true (seqSchedule exEnv exMessages [1, 0])

/-- The record of sub-call `s1` of the scenario, found in the trace of message `A`. -/
def exRecord : InternalTX :=
  { Height := 99, Version := 7, Hash := "0xs1", ParentHash := "0xA", From := "0xf1",
    To := "0xf2", Typ := 2, Value := "10" }

/-- Collaborators of the scenario under which the replay of message `B` fails and
every other call succeeds. -/
def replayFailEnv : Env where
  ChainGetTipSet := fun _ => .ok { Height := 99, Parents := [], Key := ["p"] }
  ChainGetMessagesInTipset := fun _ => .ok [⟨"A"⟩, ⟨"B"⟩]
  StateReplay := fun c =>
    if c = "A" then .ok ⟨.mk (exSub 0) [exLeaf 1, exLeaf 2]⟩
    else .error (.base "replay unavailable")
  EthGetTransactionHashByCid := fun c => .ok ⟨"0x" ++ c⟩
  MessageCid := fun m => "s" ++ toString m.Nonce
  EthAddressFromFilecoinAddress := fun a => .ok ⟨"0x" ++ a⟩
  EthHashFromCid := fun c => .ok ⟨"0x" ++ c⟩
  Existed := fun _ _ => .ok false
  DelOldVersionAndWriteMany := fun _ _ _ => none

/-! ## Case analysis of one action -/

/-- The atomic actions of goroutine `i`, one constructor per branch of `step`. -/
inductive Move (env : Env) (height version : Int) (i : Nat) (g : Group) : Group → Prop where
  | idle : (g.units[i]? = none ∨ g.units[i]? = some .done) → Move env height version i g g
  | replayErr (c : Cid) (e : Err) : g.units[i]? = some (.start c) →
      env.StateReplay c = .error e →
      Move env height version i g
        { g with
          log := g.log ++ [.stateReplay c (some e)]
          units := g.units.set i (.failed (.wrap e "StateReplay failed")) }
  | replayOk (c : Cid) (invocs : InvocResult) : g.units[i]? = some (.start c) →
      env.StateReplay c = .ok invocs →
      Move env height version i g
        { g with
          log := g.log ++ [.stateReplay c none]
          units := g.units.set i (.replayed c invocs.ExecutionTrace.Subcalls) }
  | hashErr (c : Cid) (subcalls : List ExecutionTrace) (e : Err) :
      g.units[i]? = some (.replayed c subcalls) →
      env.EthGetTransactionHashByCid c = .error e →
      Move env height version i g
        { g with
          log := g.log ++ [.ethGetTransactionHashByCid c (some e)]
          units := g.units.set i (.failed (.wrap e "EthGetTransactionHashByCid failed")) }
  | hashOk (c : Cid) (subcalls : List ExecutionTrace) (parentHash : EthHash) :
      g.units[i]? = some (.replayed c subcalls) →
      env.EthGetTransactionHashByCid c = .ok parentHash →
      Move env height version i g
        { g with
          log := g.log ++ [.ethGetTransactionHashByCid c none]
          units := g.units.set i (.loop parentHash subcalls) }
  | loopEnd (parentHash : EthHash) : g.units[i]? = some (.loop parentHash []) →
      Move env height version i g { g with units := g.units.set i .done }
  | loaded (parentHash : EthHash) (subCall : ExecutionTrace) (rest : List ExecutionTrace) :
      g.units[i]? = some (.loop parentHash (subCall :: rest)) →
      env.MessageCid subCall.Msg ∈ g.sm →
      Move env height version i g
        { g with
          log := g.log ++ [.loadOrStore i subCall.Msg true]
          units := g.units.set i (.loop parentHash rest) }
  | fresh (parentHash : EthHash) (subCall : ExecutionTrace) (rest : List ExecutionTrace) :
      g.units[i]? = some (.loop parentHash (subCall :: rest)) →
      env.MessageCid subCall.Msg ∉ g.sm →
      Move env height version i g
        { g with
          sm := g.sm ++ [env.MessageCid subCall.Msg]
          log := g.log ++ [.loadOrStore i subCall.Msg false]
          units := g.units.set i (.stored parentHash subCall.Msg rest) }
  | buildErr (parentHash : EthHash) (sub : Message) (rest : List ExecutionTrace)
      (evs : List Event) (e : Err) :
      g.units[i]? = some (.stored parentHash sub rest) →
      buildTx env height version parentHash sub = (evs, .error e) →
      Move env height version i g
        { g with
          log := g.log ++ evs
          units := g.units.set i (.failed e) }
  | buildOk (parentHash : EthHash) (sub : Message) (rest : List ExecutionTrace)
      (evs : List Event) (tx : InternalTX) :
      g.units[i]? = some (.stored parentHash sub rest) →
      buildTx env height version parentHash sub = (evs, .ok tx) →
      Move env height version i g
        { g with
          log := g.log ++ evs
          units := g.units.set i (.built parentHash tx rest) }
  | append (parentHash : EthHash) (tx : InternalTX) (rest : List ExecutionTrace) :
      g.units[i]? = some (.built parentHash tx rest) →
      Move env height version i g
        { g with
          internalTxs := g.internalTxs ++ [tx]
          units := g.units.set i (.loop parentHash rest) }
  | report (e : Err) : g.units[i]? = some (.failed e) →
      Move env height version i g
        { g with
          err := match g.err with
            | some e0 => some e0
            | none => some e
          units := g.units.set i .done }

theorem step_move (env : Env) (height version : Int) (i : Nat) (g : Group) :
    Move env height version i g (step env height version i g) := by
  unfold step
  split
  · exact .idle (Or.inl (by assumption))
  · split
    · exact .replayErr _ _ (by assumption) (by assumption)
    · exact .replayOk _ _ (by assumption) (by assumption)
  · split
    · exact .hashErr _ _ _ (by assumption) (by assumption)
    · exact .hashOk _ _ _ (by assumption) (by assumption)
  · exact .loopEnd _ (by assumption)
  · split
    · exact .loaded _ _ _ (by assumption) (by assumption)
    · exact .fresh _ _ _ (by assumption) (by assumption)
  · split
    · exact .buildErr _ _ _ _ _ (by assumption) (by assumption)
    · exact .buildOk _ _ _ _ _ (by assumption) (by assumption)
  · exact .append _ _ _ (by assumption)
  · exact .report _ (by assumption)
  · exact .idle (Or.inr (by assumption))

/-- Anything that every action preserves holds after any number of actions. -/
theorem iterate_induct (env : Env) (height version : Int) (P : Group → Prop)
    (hstep : ∀ i g, P g → P (step env height version i g)) :
    ∀ (n i : Nat) (g : Group), P g → P ((step env height version i)^[n] g) := by
  intro n
  induction n with
  | zero => intro i g h; simpa using h
  | succ n ih =>
    intro i g h
    rw [Function.iterate_succ_apply]
    exact ih i _ (hstep i g h)

/-- Anything that every action preserves holds when `grp.Wait()` returns. -/
theorem wait_induct (env : Env) (height version : Int) (P : Group → Prop)
    (hstep : ∀ i g, P g → P (step env height version i g))
    (sched : List Nat) (g : Group) (hg : P g) : P (wait env height version sched g) := by
  have hiter := iterate_induct env height version P hstep
  have hdrain : ∀ (i : Nat) (g : Group), P g → P (drain env height version g i) := by
    intro i g h
    unfold drain
    split
    · exact h
    · exact hiter _ i g h
  have hfold : ∀ (l : List Nat) (g : Group), P g →
      P (l.foldl (drain env height version) g) := by
    intro l
    induction l with
    | nil => intro g h; simpa using h
    | cons a l ih => intro g h; exact ih _ (hdrain a g h)
  have hsched : ∀ (l : List Nat) (g : Group), P g → P (runSched env height version l g) := by
    intro l
    induction l with
    | nil => intro g h; simpa [runSched] using h
    | cons a l ih => intro g h; exact ih _ (hstep a g h)
  exact hfold _ _ (hsched sched g hg)

/-! ## Every goroutine ends -/

theorem move_length {env : Env} {height version : Int} {i : Nat} {g g' : Group}
    (h : Move env height version i g g') : g'.units.length = g.units.length := by
  cases h <;> simp

theorem move_other {env : Env} {height version : Int} {i : Nat} {g g' : Group}
    (h : Move env height version i g g') (j : Nat) (hj : i ≠ j) :
    g'.units[j]? = g.units[j]? := by
  cases h <;> simp [List.getElem?_set_ne hj]

theorem lt_of_getElem?_some {α : Type} {l : List α} {i : Nat} {a : α}
    (h : l[i]? = some a) : i < l.length := by
  rcases List.getElem?_eq_some.1 h with ⟨hlt, _⟩
  exact hlt

theorem move_self {env : Env} {height version : Int} {i : Nat} {g g' : Group}
    (h : Move env height version i g g') (u : UnitState) (hu : g.units[i]? = some u) :
    ∃ u', g'.units[i]? = some u' ∧
      (remaining env u' < remaining env u ∨ (u = .done ∧ u' = .done)) := by
  have hlt := lt_of_getElem?_some hu
  cases h with
  | idle h0 =>
    rcases h0 with h0 | h0
    · rw [h0] at hu; cases hu
    · rw [h0] at hu; cases hu; exact ⟨.done, h0, Or.inr ⟨rfl, rfl⟩⟩
  | replayErr c e h1 h2 =>
    rw [h1] at hu; cases hu
    exact ⟨_, List.getElem?_set_self hlt, Or.inl (by simp [remaining, h2])⟩
  | replayOk c invocs h1 h2 =>
    rw [h1] at hu; cases hu
    exact ⟨_, List.getElem?_set_self hlt, Or.inl (by simp [remaining, h2])⟩
  | hashErr c subcalls e h1 h2 =>
    rw [h1] at hu; cases hu
    exact ⟨_, List.getElem?_set_self hlt, Or.inl (by simp only [remaining, List.length_cons]; omega)⟩
  | hashOk c subcalls parentHash h1 h2 =>
    rw [h1] at hu; cases hu
    exact ⟨_, List.getElem?_set_self hlt, Or.inl (by simp only [remaining, List.length_cons]; omega)⟩
  | loopEnd parentHash h1 =>
    rw [h1] at hu; cases hu
    exact ⟨_, List.getElem?_set_self hlt, Or.inl (by simp only [remaining, List.length_cons]; omega)⟩
  | loaded parentHash subCall rest h1 h2 =>
    rw [h1] at hu; cases hu
    exact ⟨_, List.getElem?_set_self hlt, Or.inl (by simp only [remaining, List.length_cons]; omega)⟩
  | fresh parentHash subCall rest h1 h2 =>
    rw [h1] at hu; cases hu
    exact ⟨_, List.getElem?_set_self hlt, Or.inl (by simp only [remaining, List.length_cons]; omega)⟩
  | buildErr parentHash sub rest evs e h1 h2 =>
    rw [h1] at hu; cases hu
    exact ⟨_, List.getElem?_set_self hlt, Or.inl (by simp only [remaining, List.length_cons]; omega)⟩
  | buildOk parentHash sub rest evs tx h1 h2 =>
    rw [h1] at hu; cases hu
    exact ⟨_, List.getElem?_set_self hlt, Or.inl (by simp only [remaining, List.length_cons]; omega)⟩
  | append parentHash tx rest h1 =>
    rw [h1] at hu; cases hu
    exact ⟨_, List.getElem?_set_self hlt, Or.inl (by simp only [remaining, List.length_cons]; omega)⟩
  | report e h1 =>
    rw [h1] at hu; cases hu
    exact ⟨_, List.getElem?_set_self hlt, Or.inl (by simp only [remaining, List.length_cons]; omega)⟩

theorem remaining_eq_zero {env : Env} {u : UnitState} (h : remaining env u = 0) :
    u = .done := by
  cases u <;> simp [remaining] at h ⊢
  · split at h <;> omega

/-- A goroutine that is over stays over. -/
theorem step_done (env : Env) (height version : Int) (i j : Nat) (g : Group)
    (h : g.units[j]? = some .done) : (step env height version i g).units[j]? = some .done := by
  have hm := step_move env height version i g
  by_cases hij : i = j
  · subst hij
    rcases move_self hm _ h with ⟨u', hu', hlt | ⟨_, rfl⟩⟩
    · simp [remaining] at hlt
    · exact hu'
  · rw [move_other hm j hij]; exact h

theorem iterate_step_done (env : Env) (height version : Int) (i : Nat) :
    ∀ (n : Nat) (g : Group) (u : UnitState), g.units[i]? = some u → remaining env u ≤ n →
      ((step env height version i)^[n] g).units[i]? = some .done := by
  intro n
  induction n with
  | zero =>
    intro g u hu hn
    have := remaining_eq_zero (Nat.le_zero.1 hn)
    subst this
    simpa using hu
  | succ n ih =>
    intro g u hu hn
    rw [Function.iterate_succ_apply]
    rcases move_self (step_move env height version i g) u hu with ⟨u', hu', hlt | ⟨_, rfl⟩⟩
    · exact ih _ u' hu' (by omega)
    · exact ih _ _ hu' (by simp [remaining])

theorem drain_done (env : Env) (height version : Int) (i : Nat) (g : Group)
    (hi : i < g.units.length) : (drain env height version g i).units[i]? = some .done := by
  unfold drain
  have : g.units[i]? = some g.units[i] := List.getElem?_eq_getElem hi
  rw [this]
  exact iterate_step_done env height version i _ g _ this (le_refl _)

theorem drain_keeps_done (env : Env) (height version : Int) (i j : Nat) (g : Group)
    (h : g.units[j]? = some .done) : (drain env height version g i).units[j]? = some .done := by
  unfold drain
  split
  · exact h
  · exact iterate_induct env height version (fun g => g.units[j]? = some .done)
      (fun i g hg => step_done env height version i j g hg) _ i g h

theorem drain_length (env : Env) (height version : Int) (i : Nat) (g : Group) :
    (drain env height version g i).units.length = g.units.length := by
  unfold drain
  split
  · rfl
  · exact iterate_induct env height version (fun g0 => g0.units.length = g.units.length)
      (fun i g0 hg => (move_length (step_move env height version i g0)).trans hg) _ i g rfl

theorem foldl_drain_done (env : Env) (height version : Int) (l : List Nat) :
    ∀ (g : Group),
      (l.foldl (drain env height version) g).units.length = g.units.length ∧
      ∀ j, j < g.units.length → (j ∈ l ∨ g.units[j]? = some .done) →
        (l.foldl (drain env height version) g).units[j]? = some .done := by
  induction l with
  | nil =>
    intro g
    refine ⟨rfl, ?_⟩
    intro j _ h
    rcases h with h | h
    · cases h
    · simpa using h
  | cons a l ih =>
    intro g
    have hl := drain_length env height version a g
    rcases ih (drain env height version g a) with ⟨h1, h2⟩
    refine ⟨by simpa [hl] using h1, ?_⟩
    intro j hj h
    simp only [List.foldl_cons]
    apply h2 j (by omega)
    rcases h with h | h
    · rcases List.mem_cons.1 h with rfl | h
      · exact Or.inr (drain_done env height version j g hj)
      · exact Or.inl h
    · exact Or.inr (drain_keeps_done env height version a j g h)

/-- When `grp.Wait()` returns every goroutine is over: the join is reached under
every schedule. -/
theorem wait_all_done (env : Env) (height version : Int) (sched : List Nat) (g : Group)
    (u : UnitState) (hu : u ∈ (wait env height version sched g).units) : u = .done := by
  rcases List.mem_iff_getElem?.1 hu with ⟨j, hj⟩
  have hlt := lt_of_getElem?_some hj
  unfold wait finish at hj hlt
  rcases foldl_drain_done env height version
    (List.range (runSched env height version sched g).units.length)
    (runSched env height version sched g) with ⟨h1, h2⟩
  rw [h1] at hlt
  have := h2 j hlt (Or.inl (List.mem_range.2 hlt))
  rw [this] at hj
  cases hj
  rfl

/-! ## The log and the error of the group -/

theorem buildTx_events (env : Env) (height version : Int) (parentHash : EthHash)
    (sub : Message) :
    ∀ ev ∈ (buildTx env height version parentHash sub).1, ev.isBuild = true := by
  unfold buildTx
  split
  · simp [Event.isBuild]
  · split
    · simp [Event.isBuild]
    · split <;> simp [Event.isBuild]

theorem buildTx_error {env : Env} {height version : Int} {parentHash : EthHash}
    {sub : Message} {evs : List Event} {e : Err}
    (h : buildTx env height version parentHash sub = (evs, .error e)) :
    ∃ ev ∈ evs, ev.failure = some e := by
  unfold buildTx at h
  split at h
  · cases h; simp [Event.failure]
  · split at h
    · cases h; simp [Event.failure]
    · split at h
      · cases h; simp [Event.failure]
      · cases h

theorem buildTx_ok {env : Env} {height version : Int} {parentHash : EthHash}
    {sub : Message} {evs : List Event} {tx : InternalTX}
    (h : buildTx env height version parentHash sub = (evs, .ok tx)) :
    (∀ ev ∈ evs, ev.failure = none) ∧
    ∃ frm toAddr hash,
      env.EthAddressFromFilecoinAddress sub.From = .ok frm ∧
      env.EthAddressFromFilecoinAddress sub.To = .ok toAddr ∧
      env.EthHashFromCid (env.MessageCid sub) = .ok hash ∧
      tx = {
        Height := height
        Version := version
        Hash := hash.String
        ParentHash := parentHash.String
        From := frm.String
        To := toAddr.String
        Typ := sub.Method
        Value := toString sub.Value } := by
  unfold buildTx at h
  split at h
  · cases h
  · split at h
    · cases h
    · split at h
      · cases h
      · cases h
        exact ⟨by simp [Event.failure], _, _, _, by assumption, by assumption,
          by assumption, rfl⟩

theorem isUnit_of_isBuild {ev : Event} (h : ev.isBuild = true) : ev.isUnit = true := by
  cases ev <;> simp_all [Event.isBuild, Event.isUnit]

/-- An action only appends goroutine calls to the log. -/
theorem move_log {env : Env} {height version : Int} {i : Nat} {g g' : Group}
    (h : Move env height version i g g') :
    ∃ evs, g'.log = g.log ++ evs ∧ ∀ ev ∈ evs, ev.isUnit = true := by
  cases h with
  | idle h0 => exact ⟨[], by simp⟩
  | replayErr c e h1 h2 => exact ⟨_, rfl, by simp [Event.isUnit]⟩
  | replayOk c invocs h1 h2 => exact ⟨_, rfl, by simp [Event.isUnit]⟩
  | hashErr c subcalls e h1 h2 => exact ⟨_, rfl, by simp [Event.isUnit]⟩
  | hashOk c subcalls parentHash h1 h2 => exact ⟨_, rfl, by simp [Event.isUnit]⟩
  | loopEnd parentHash h1 => exact ⟨[], by simp⟩
  | loaded parentHash subCall rest h1 h2 => exact ⟨_, rfl, by simp [Event.isUnit]⟩
  | fresh parentHash subCall rest h1 h2 => exact ⟨_, rfl, by simp [Event.isUnit]⟩
  | buildErr parentHash sub rest evs e h1 h2 =>
    refine ⟨evs, rfl, fun ev hev => isUnit_of_isBuild ?_⟩
    have := buildTx_events env height version parentHash sub ev
    rw [h2] at this
    exact this hev
  | buildOk parentHash sub rest evs tx h1 h2 =>
    refine ⟨evs, rfl, fun ev hev => isUnit_of_isBuild ?_⟩
    have := buildTx_events env height version parentHash sub ev
    rw [h2] at this
    exact this hev
  | append parentHash tx rest h1 => exact ⟨[], by simp⟩
  | report e h1 => exact ⟨[], by simp⟩

/-- When `grp.Wait()` returns the log is the log before the goroutines started followed
by goroutine calls only. -/
theorem wait_log (env : Env) (height version : Int) (sched : List Nat) (g : Group) :
    ∃ evs, (wait env height version sched g).log = g.log ++ evs ∧
      ∀ ev ∈ evs, ev.isUnit = true := by
  refine wait_induct env height version
    (fun g' => ∃ evs, g'.log = g.log ++ evs ∧ ∀ ev ∈ evs, ev.isUnit = true) ?_ sched g
    ⟨[], by simp⟩
  intro i g' hg'
  rcases hg' with ⟨evs, h1, h2⟩
  rcases move_log (step_move env height version i g') with ⟨evs', h3, h4⟩
  refine ⟨evs ++ evs', by rw [h3, h1, List.append_assoc], ?_⟩
  intro ev hev
  rcases List.mem_append.1 hev with h | h
  · exact h2 ev h
  · exact h4 ev h


theorem failure_of_append {l evs : List Event}
    (h : ∃ ev ∈ l ++ evs, ev.failure ≠ none) (hevs : ∀ ev ∈ evs, ev.failure = none) :
    ∃ ev ∈ l, ev.failure ≠ none := by
  rcases h with ⟨ev, hmem, hf⟩
  rcases List.mem_append.1 hmem with h1 | h1
  · exact ⟨ev, h1, hf⟩
  · exact absurd (hevs ev h1) hf

theorem move_caught {env : Env} {height version : Int} {i : Nat} {g g' : Group}
    (h : Move env height version i g g') (inv : ErrInv g)
    (hev : ∃ ev ∈ g'.log, ev.failure ≠ none) :
    (∃ (j : Nat) (e : Err), g'.units[j]? = some (UnitState.failed e)) ∨ g'.err ≠ none := by
  have key : ∀ (X : UnitState), (∃ ev ∈ g.log, ev.failure ≠ none) →
      (∀ e, g.units[i]? ≠ some (UnitState.failed e)) →
      (∃ (j : Nat) (e : Err), (g.units.set i X)[j]? = some (UnitState.failed e)) ∨
        g.err ≠ none := by
    intro X h1 h2
    rcases inv.caught h1 with ⟨j, e, hj⟩ | h3
    · left
      refine ⟨j, e, ?_⟩
      have hij : i ≠ j := by
        rintro rfl
        exact h2 e hj
      rw [List.getElem?_set_ne hij]
      exact hj
    · right
      exact h3
  cases h with
  | idle h0 => exact inv.caught hev
  | replayErr c e h1 h2 =>
    exact Or.inl ⟨i, _, List.getElem?_set_self (lt_of_getElem?_some h1)⟩
  | replayOk c invocs h1 h2 =>
    exact key _ (failure_of_append hev (by simp [Event.failure])) (by simp [h1])
  | hashErr c subcalls e h1 h2 =>
    exact Or.inl ⟨i, _, List.getElem?_set_self (lt_of_getElem?_some h1)⟩
  | hashOk c subcalls parentHash h1 h2 =>
    exact key _ (failure_of_append hev (by simp [Event.failure])) (by simp [h1])
  | loopEnd parentHash h1 => exact key _ hev (by simp [h1])
  | loaded parentHash subCall rest h1 h2 =>
    exact key _ (failure_of_append hev (by simp [Event.failure])) (by simp [h1])
  | fresh parentHash subCall rest h1 h2 =>
    exact key _ (failure_of_append hev (by simp [Event.failure])) (by simp [h1])
  | buildErr parentHash sub rest evs e h1 h2 =>
    exact Or.inl ⟨i, _, List.getElem?_set_self (lt_of_getElem?_some h1)⟩
  | buildOk parentHash sub rest evs tx h1 h2 =>
    exact key _ (failure_of_append hev (buildTx_ok h2).1) (by simp [h1])
  | append parentHash tx rest h1 => exact key _ hev (by simp [h1])
  | report e h1 =>
    right
    cases hg : g.err <;> simp

theorem move_errInv {env : Env} {height version : Int} {i : Nat} {g g' : Group}
    (h : Move env height version i g g') (inv : ErrInv g) : ErrInv g' := by
  refine ⟨move_caught h inv, ?_, ?_⟩
  · -- the recorded error
    rcases move_log h with ⟨evs, hlog, _⟩
    have keep : ∀ e, g.err = some e →
        ∃ ev ∈ g'.log, ev.isUnit = true ∧ ev.failure = some e := by
      intro e he
      rcases inv.recorded e he with ⟨ev, h1, h2⟩
      exact ⟨ev, by rw [hlog]; exact List.mem_append_left _ h1, h2⟩
    intro e0 he0
    cases h with
    | report e h1 =>
      cases hg : g.err with
      | some e1 =>
        simp only [hg] at he0
        cases he0
        exact keep _ hg
      | none =>
        simp only [hg] at he0
        cases he0
        exact inv.returned i _ h1
    | _ => exact keep _ he0
  · -- the error a goroutine returned
    rcases move_log h with ⟨evs, hlog, _⟩
    have keep : ∀ (X : UnitState), (∀ e, X ≠ UnitState.failed e) → ∀ (j : Nat) (e : Err),
        (g.units.set i X)[j]? = some (UnitState.failed e) →
        ∃ ev ∈ g'.log, ev.isUnit = true ∧ ev.failure = some e := by
      intro X hX j e hj
      by_cases hij : i = j
      · subst hij
        rw [List.getElem?_set] at hj
        simp only [if_true] at hj
        split at hj
        · cases hj
          exact absurd rfl (hX e)
        · cases hj
      · rw [List.getElem?_set_ne hij] at hj
        rcases inv.returned j e hj with ⟨ev, h1, h2⟩
        exact ⟨ev, by rw [hlog]; exact List.mem_append_left _ h1, h2⟩
    have fail : ∀ (e0 : Err), (∃ ev ∈ g'.log, ev.isUnit = true ∧ ev.failure = some e0) →
        ∀ (j : Nat) (e : Err),
        (g.units.set i (UnitState.failed e0))[j]? = some (UnitState.failed e) →
        ∃ ev ∈ g'.log, ev.isUnit = true ∧ ev.failure = some e := by
      intro e0 h0 j e hj
      by_cases hij : i = j
      · subst hij
        rw [List.getElem?_set] at hj
        simp only [if_true] at hj
        split at hj
        · cases hj
          exact h0
        · cases hj
      · rw [List.getElem?_set_ne hij] at hj
        rcases inv.returned j e hj with ⟨ev, h1, h2⟩
        exact ⟨ev, by rw [hlog]; exact List.mem_append_left _ h1, h2⟩
    cases h with
    | idle h0 => exact inv.returned
    | replayErr c e h1 h2 =>
      exact fail _ ⟨_, List.mem_append_right _ (List.mem_singleton.2 rfl), rfl, rfl⟩
    | replayOk c invocs h1 h2 => exact keep _ (by simp)
    | hashErr c subcalls e h1 h2 =>
      exact fail _ ⟨_, List.mem_append_right _ (List.mem_singleton.2 rfl), rfl, rfl⟩
    | hashOk c subcalls parentHash h1 h2 => exact keep _ (by simp)
    | loopEnd parentHash h1 => exact keep _ (by simp)
    | loaded parentHash subCall rest h1 h2 => exact keep _ (by simp)
    | fresh parentHash subCall rest h1 h2 => exact keep _ (by simp)
    | buildErr parentHash sub rest evs e h1 h2 =>
      rcases buildTx_error h2 with ⟨ev, hev1, hev2⟩
      have hb := buildTx_events env height version parentHash sub ev
      rw [h2] at hb
      exact fail _ ⟨ev, List.mem_append_right _ hev1, isUnit_of_isBuild (hb hev1), hev2⟩
    | buildOk parentHash sub rest evs tx h1 h2 => exact keep _ (by simp)
    | append parentHash tx rest h1 => exact keep _ (by simp)
    | report e h1 => exact keep _ (by simp)

/-- The invariant `ErrInv` holds when `grp.Wait()` returns. -/
theorem wait_errInv (env : Env) (height version : Int) (sched : List Nat) (g : Group)
    (hg : ErrInv g) : ErrInv (wait env height version sched g) :=
  wait_induct env height version ErrInv
    (fun i g0 h0 => move_errInv (step_move env height version i g0) h0) sched g hg

/-! ## The paths through `Run` -/

theorem spawn_errInv (log : List Event) (messages : List ApiMessage)
    (hlog : ∀ ev ∈ log, ev.failure = none) : ErrInv (spawn log messages) := by
  refine ⟨?_, ?_, ?_⟩
  · rintro ⟨ev, h1, h2⟩
    exact absurd (hlog ev h1) h2
  · intro e he
    cases he
  · intro j e hj
    simp only [spawn, List.getElem?_map] at hj
    cases hm : messages[j]? <;> simp [hm] at hj

/-- The state when `grp.Wait()` returns, for the messages of the parent tipset. -/
theorem joined (env : Env) (height version : Int) (sched : List Nat) (log : List Event)
    (messages : List ApiMessage) (hlog : ∀ ev ∈ log, ev.failure = none)
    (g : Group) (hg : g = wait env height version sched (spawn log messages)) :
    (∃ evs, g.log = log ++ evs ∧ ∀ ev ∈ evs, ev.isUnit = true) ∧
    (g.err ≠ none ↔ ∃ ev ∈ g.log, ev.failure ≠ none) ∧
    (∀ e, g.err = some e → ∃ ev ∈ g.log, ev.isUnit = true ∧ ev.failure = some e) ∧
    (∀ u ∈ g.units, u = UnitState.done) := by
  subst hg
  have hinv := wait_errInv env height version sched _ (spawn_errInv log messages hlog)
  have hdone := wait_all_done env height version sched (spawn log messages)
  refine ⟨wait_log env height version sched (spawn log messages), ⟨?_, ?_⟩, hinv.recorded,
    hdone⟩
  · intro h
    cases he : (wait env height version sched (spawn log messages)).err with
    | none => exact absurd he h
    | some e =>
      rcases hinv.recorded e he with ⟨ev, h1, _, h2⟩
      exact ⟨ev, h1, by simp [h2]⟩
  · intro h
    rcases hinv.caught h with ⟨j, e, hj⟩ | h1
    · have hmem := List.mem_iff_getElem?.2 ⟨j, hj⟩
      have := hdone _ hmem
      cases this
    · exact h1

theorem run_cases (env : Env) (version : Int) (tipSet : TipSet) (force : Bool)
    (sched : List Nat) :
    (tipSet.Height = 0 ∧ Run env version tipSet force sched = ⟨none, [], []⟩) ∨
    (∃ e, Run env version tipSet force sched =
      ⟨some (.wrap e "ChainGetTipSet failed"), [.chainGetTipSet tipSet.Parents (some e)], []⟩) ∨
    (∃ (parentTs : TipSet) (e : Err), force = false ∧ Run env version tipSet force sched =
      ⟨some (.wrap e "storage.Existed failed"),
        [.chainGetTipSet tipSet.Parents none, .existed parentTs.Height version (.error e)], []⟩) ∨
    (∃ (parentTs : TipSet), force = false ∧ Run env version tipSet force sched =
      ⟨none,
        [.chainGetTipSet tipSet.Parents none, .existed parentTs.Height version (.ok true)], []⟩) ∨
    (∃ parentTs, tipSet.Height ≠ 0 ∧ env.ChainGetTipSet tipSet.Parents = .ok parentTs ∧
      force = true ∧ Run env version tipSet force sched =
        extract env version parentTs sched [.chainGetTipSet tipSet.Parents none]) ∨
    (∃ parentTs, tipSet.Height ≠ 0 ∧ env.ChainGetTipSet tipSet.Parents = .ok parentTs ∧
      force = false ∧ env.Existed parentTs.Height version = .ok false ∧
      Run env version tipSet force sched =
        extract env version parentTs sched
          [.chainGetTipSet tipSet.Parents none, .existed parentTs.Height version (.ok false)]) := by
  unfold Run
  by_cases h0 : tipSet.Height = 0
  · left
    simp [h0]
  · right
    simp only [h0, if_false]
    cases hp : env.ChainGetTipSet tipSet.Parents with
    | error e => left; exact ⟨e, rfl⟩
    | ok parentTs =>
      right
      cases force with
      | true => right; right; left; exact ⟨parentTs, h0, rfl, rfl, rfl⟩
      | false =>
        cases he : env.Existed parentTs.Height version with
        | error e => left; exact ⟨parentTs, e, rfl, by simp [he]⟩
        | ok b =>
          cases b with
          | true => right; left; exact ⟨parentTs, rfl, by simp [he]⟩
          | false => right; right; right; exact ⟨parentTs, h0, rfl, rfl, he, by simp [he]⟩

theorem extract_cases (env : Env) (version : Int) (parentTs : TipSet) (sched : List Nat)
    (log : List Event) :
    (∃ e, extract env version parentTs sched log =
      ⟨some (.wrap e "ChainGetMessagesInTipset failed"),
        log ++ [.chainGetMessagesInTipset parentTs.Key (some e)], []⟩) ∨
    (∃ messages, env.ChainGetMessagesInTipset parentTs.Key = .ok messages ∧
      extract env version parentTs sched log =
        persist env parentTs.Height version
          (wait env parentTs.Height version sched
            (spawn (log ++ [.chainGetMessagesInTipset parentTs.Key none]) messages))) := by
  unfold extract
  cases hm : env.ChainGetMessagesInTipset parentTs.Key with
  | error e => left; exact ⟨e, rfl⟩
  | ok messages => right; exact ⟨messages, rfl, rfl⟩

theorem persist_cases (env : Env) (height version : Int) (g : Group) :
    (∃ e, g.err = some e ∧ persist env height version g = ⟨some e, g.log, g.internalTxs⟩) ∨
    (g.err = none ∧ g.internalTxs = [] ∧
      persist env height version g = ⟨none, g.log, g.internalTxs⟩) ∨
    (g.err = none ∧ g.internalTxs ≠ [] ∧
      persist env height version g =
        ⟨(env.DelOldVersionAndWriteMany height version g.internalTxs).map
            (fun e => .wrap e "storage.WriteMany failed"),
          g.log ++ [.delOldVersionAndWriteMany height version g.internalTxs
            (env.DelOldVersionAndWriteMany height version g.internalTxs)],
          g.internalTxs⟩) := by
  unfold persist
  cases he : g.err with
  | some e => left; exact ⟨e, rfl, rfl⟩
  | none =>
    right
    by_cases hl : g.internalTxs.length > 0
    · right
      have hne : g.internalTxs ≠ [] := by
        intro h
        rw [h] at hl
        simp at hl
      refine ⟨rfl, hne, ?_⟩
      simp only [hl, if_true]
      cases hw : env.DelOldVersionAndWriteMany height version g.internalTxs <;> simp
    · left
      have hnil : g.internalTxs = [] := by
        cases hh : g.internalTxs with
        | nil => rfl
        | cons a l => rw [hh] at hl; simp at hl
      refine ⟨rfl, hnil, ?_⟩
      simp [hl]

theorem isUnit_facts {ev : Event} (h : ev.isUnit = true) :
    ev.isWrite = false ∧ ev.isExisted = false ∧ ev.isGetTipSet = false ∧
      ev.isGetMessages = false := by
  cases ev <;> simp_all [Event.isUnit, Event.isWrite, Event.isExisted, Event.isGetTipSet,
    Event.isGetMessages]

theorem isUnit_of_isReplayFailure {ev : Event} (h : ev.isReplayFailure = true) :
    ev.isUnit = true ∧ ev.failure ≠ none := by
  cases ev with
  | stateReplay c err => cases err <;> simp_all [Event.isReplayFailure, Event.isUnit, Event.failure]
  | _ => simp [Event.isReplayFailure] at h

theorem isUnit_of_isTranslateFailure {ev : Event} (h : ev.isTranslateFailure = true) :
    ev.isUnit = true ∧ ev.failure ≠ none := by
  cases ev with
  | ethAddressFromFilecoinAddress a err =>
    cases err <;> simp_all [Event.isTranslateFailure, Event.isUnit, Event.failure]
  | _ => simp [Event.isTranslateFailure] at h

/-- The calls `extract` adds to the log: the message fetch, goroutine calls, and at
most one write at the end. -/
theorem extract_log (env : Env) (version : Int) (parentTs : TipSet) (sched : List Nat)
    (log : List Event) :
    ∃ evs, (extract env version parentTs sched log).log = log ++ evs ∧
      ∀ ev ∈ evs, ev.isExisted = false ∧ ev.isGetTipSet = false := by
  rcases extract_cases env version parentTs sched log with ⟨e, h⟩ | ⟨messages, _, h⟩
  · rw [h]
    exact ⟨_, rfl, by simp [Event.isExisted, Event.isGetTipSet]⟩
  · rw [h]
    rcases wait_log env parentTs.Height version sched
      (spawn (log ++ [.chainGetMessagesInTipset parentTs.Key none]) messages) with ⟨evs, h1, h2⟩
    have h1' : (wait env parentTs.Height version sched
        (spawn (log ++ [.chainGetMessagesInTipset parentTs.Key none]) messages)).log =
        log ++ (Event.chainGetMessagesInTipset parentTs.Key none :: evs) := by
      rw [h1]
      simp [spawn]
    generalize wait env parentTs.Height version sched
      (spawn (log ++ [.chainGetMessagesInTipset parentTs.Key none]) messages) = g at *
    have hu : ∀ ev ∈ Event.chainGetMessagesInTipset parentTs.Key none :: evs,
        ev.isExisted = false ∧ ev.isGetTipSet = false := by
      intro ev hev
      rcases List.mem_cons.1 hev with rfl | hev
      · simp [Event.isExisted, Event.isGetTipSet]
      · exact ⟨(isUnit_facts (h2 ev hev)).2.1, (isUnit_facts (h2 ev hev)).2.2.1⟩
    rcases persist_cases env parentTs.Height version g with
      ⟨e, _, hp⟩ | ⟨_, _, hp⟩ | ⟨_, _, hp⟩
    · rw [hp]
      exact ⟨_, h1', hu⟩
    · rw [hp]
      exact ⟨_, h1', hu⟩
    · rw [hp]
      refine ⟨(Event.chainGetMessagesInTipset parentTs.Key none :: evs) ++
        [.delOldVersionAndWriteMany parentTs.Height version g.internalTxs
          (env.DelOldVersionAndWriteMany parentTs.Height version g.internalTxs)], ?_, ?_⟩
      · simp only [h1', List.append_assoc]
      · intro ev hev
        rcases List.mem_append.1 hev with hev | hev
        · exact hu ev hev
        · rw [List.mem_singleton.1 hev]
          simp [Event.isExisted, Event.isGetTipSet]

/-- A failed goroutine call makes `extract` return the error the errgroup kept, which is
the wrapped error of a failed goroutine call, without any write. -/
theorem extract_unit_failure (env : Env) (version : Int) (parentTs : TipSet)
    (sched : List Nat) (log : List Event)
    (hlog : ∀ ev ∈ log, ev.failure = none ∧ ev.isWrite = false)
    (h : ∃ ev ∈ (extract env version parentTs sched log).log,
      ev.isUnit = true ∧ ev.failure ≠ none) :
    (extract env version parentTs sched log).ret ≠ none ∧
    (∃ ev ∈ (extract env version parentTs sched log).log,
      ev.isUnit = true ∧ ev.failure = (extract env version parentTs sched log).ret) ∧
    ∀ ev ∈ (extract env version parentTs sched log).log, ev.isWrite = false := by
  rcases extract_cases env version parentTs sched log with ⟨e, he⟩ | ⟨messages, _, he⟩
  · rw [he] at h
    rcases h with ⟨ev, hmem, hu, hf⟩
    rcases List.mem_append.1 hmem with hmem | hmem
    · exact absurd (hlog ev hmem).1 hf
    · rw [List.mem_singleton.1 hmem] at hu
      simp [Event.isUnit] at hu
  · rw [he] at h ⊢
    have hlog' : ∀ ev ∈ log ++ [Event.chainGetMessagesInTipset parentTs.Key none],
        ev.failure = none := by
      intro ev hev
      rcases List.mem_append.1 hev with hev | hev
      · exact (hlog ev hev).1
      · rw [List.mem_singleton.1 hev]; rfl
    rcases joined env parentTs.Height version sched _ messages hlog' _ rfl with
      ⟨⟨evs, hl1, hl2⟩, hiff, hrec, _⟩
    generalize wait env parentTs.Height version sched
      (spawn (log ++ [.chainGetMessagesInTipset parentTs.Key none]) messages) = g at *
    have hnw : ∀ ev ∈ g.log, ev.isWrite = false := by
      intro ev hev
      rw [hl1] at hev
      rcases List.mem_append.1 hev with hev | hev
      · rcases List.mem_append.1 hev with hev | hev
        · exact (hlog ev hev).2
        · rw [List.mem_singleton.1 hev]; rfl
      · exact (isUnit_facts (hl2 ev hev)).1
    rcases persist_cases env parentTs.Height version g with
      ⟨e, hge, hp⟩ | ⟨hge, _, hp⟩ | ⟨hge, _, hp⟩
    · rw [hp]
      refine ⟨by simp, ?_, hnw⟩
      rcases hrec e hge with ⟨ev, h1, h2, h3⟩
      exact ⟨ev, h1, h2, h3⟩
    · rw [hp] at h
      rcases h with ⟨ev, hmem, _, hf⟩
      exact absurd hge (hiff.2 ⟨ev, hmem, hf⟩)
    · rw [hp] at h
      rcases h with ⟨ev, hmem, hu, hf⟩
      rcases List.mem_append.1 hmem with hmem | hmem
      · exact absurd hge (hiff.2 ⟨ev, hmem, hf⟩)
      · rw [List.mem_singleton.1 hmem] at hu
        simp [Event.isUnit] at hu

/-- A failed goroutine call makes `Run` return the error the errgroup kept, which is
the wrapped error of a failed goroutine call, without any write. -/
theorem run_unit_failure (env : Env) (version : Int) (tipSet : TipSet) (force : Bool)
    (sched : List Nat)
    (h : ∃ ev ∈ (Run env version tipSet force sched).log,
      ev.isUnit = true ∧ ev.failure ≠ none) :
    (Run env version tipSet force sched).ret ≠ none ∧
    (∃ ev ∈ (Run env version tipSet force sched).log,
      ev.isUnit = true ∧ ev.failure = (Run env version tipSet force sched).ret) ∧
    ∀ ev ∈ (Run env version tipSet force sched).log, ev.isWrite = false := by
  rcases run_cases env version tipSet force sched with
    ⟨_, hr⟩ | ⟨e, hr⟩ | ⟨p, e, _, hr⟩ | ⟨p, _, hr⟩ | ⟨p, _, _, _, hr⟩ | ⟨p, _, _, _, _, hr⟩
  · rw [hr] at h; simp at h
  · rw [hr] at h; simp [Event.isUnit] at h
  · rw [hr] at h; simp [Event.isUnit] at h
  · rw [hr] at h; simp [Event.isUnit] at h
  · rw [hr] at h ⊢
    exact extract_unit_failure env version p sched _
      (by simp [Event.failure, Event.isWrite]) h
  · rw [hr] at h ⊢
    exact extract_unit_failure env version p sched _
      (by simp [Event.failure, Event.isWrite]) h

/-- On the path that reaches the goroutines, `Run` is the join of the goroutines
followed by the write. -/
theorem run_reach (env : Env) (version : Int) (tipSet parentTs : TipSet) (force : Bool)
    (sched : List Nat) (messages : List ApiMessage)
    (h0 : tipSet.Height ≠ 0) (hp : env.ChainGetTipSet tipSet.Parents = .ok parentTs)
    (hs : force = true ∨ env.Existed parentTs.Height version = .ok false)
    (hm : env.ChainGetMessagesInTipset parentTs.Key = .ok messages) :
    Run env version tipSet force sched =
      persist env parentTs.Height version
        (wait env parentTs.Height version sched
          (spawn (preamble tipSet parentTs version force) messages)) := by
  unfold Run
  simp only [h0, if_false, hp]
  cases force with
  | true => simp [extract, hm, preamble]
  | false =>
    rcases hs with hs | hs
    · cases hs
    · simp [extract, hm, preamble, hs]

theorem preamble_facts (tipSet parentTs : TipSet) (version : Int) (force : Bool) :
    ∀ ev ∈ preamble tipSet parentTs version force,
      ev.failure = none ∧ ev.isUnit = false ∧ ev.isWrite = false := by
  intro ev hev
  unfold preamble at hev
  cases force <;> simp at hev <;> rcases hev with rfl | rfl | rfl <;>
    simp [Event.failure, Event.isUnit, Event.isWrite]

/-! ## Where the records come from -/

theorem get_set_cases {α : Type} {l : List α} {i j : Nat} {a u : α}
    (h : (l.set i a)[j]? = some u) :
    (j = i ∧ u = a ∧ i < l.length) ∨ (i ≠ j ∧ l[j]? = some u) := by
  by_cases hij : i = j
  · subst hij
    rw [List.getElem?_set] at h
    simp only [if_true] at h
    split at h
    · cases h
      exact Or.inl ⟨rfl, rfl, by assumption⟩
    · cases h
  · rw [List.getElem?_set_ne hij] at h
    exact Or.inr ⟨hij, h⟩

theorem move_traceInv {env : Env} {height version : Int} {messages : List ApiMessage}
    {i : Nat} {g g' : Group}
    (h : Move env height version i g g') (inv : TraceInv env height version messages g) :
    TraceInv env height version messages g' := by
  have upd : ∀ (u0 X : UnitState), g.units[i]? = some u0 →
      (∀ c, UnitOK env height version c u0 → UnitOK env height version c X) →
      ∀ (j : Nat) (u : UnitState), (g.units.set i X)[j]? = some u →
        ∃ m, messages[j]? = some m ∧ UnitOK env height version m.Cid u := by
    intro u0 X h0 hX j u hj
    rcases get_set_cases hj with ⟨rfl, rfl, _⟩ | ⟨_, hj'⟩
    · rcases inv.wf _ u0 h0 with ⟨m, hm, hok⟩
      exact ⟨m, hm, hX _ hok⟩
    · exact inv.wf j u hj'
  cases h with
  | idle h0 => exact inv
  | replayErr c e h1 h2 =>
    exact ⟨upd _ _ h1 (fun _ _ => trivial), inv.prov⟩
  | replayOk c invocs h1 h2 =>
    refine ⟨upd _ _ h1 ?_, inv.prov⟩
    intro c0 hc
    simp only [UnitOK] at hc ⊢
    subst hc
    exact ⟨rfl, fun t ht => by simpa [subcallsOf, h2] using ht⟩
  | hashErr c subcalls e h1 h2 =>
    exact ⟨upd _ _ h1 (fun _ _ => trivial), inv.prov⟩
  | hashOk c subcalls parentHash h1 h2 =>
    refine ⟨upd _ _ h1 ?_, inv.prov⟩
    intro c0 hc
    simp only [UnitOK] at hc ⊢
    rcases hc with ⟨rfl, hc⟩
    exact ⟨h2, hc⟩
  | loopEnd parentHash h1 =>
    exact ⟨upd _ _ h1 (fun _ _ => trivial), inv.prov⟩
  | loaded parentHash subCall rest h1 h2 =>
    refine ⟨upd _ _ h1 ?_, inv.prov⟩
    intro c0 hc
    simp only [UnitOK] at hc ⊢
    exact ⟨hc.1, fun t ht => hc.2 t (List.mem_cons_of_mem _ ht)⟩
  | fresh parentHash subCall rest h1 h2 =>
    refine ⟨upd _ _ h1 ?_, inv.prov⟩
    intro c0 hc
    simp only [UnitOK] at hc ⊢
    exact ⟨hc.1, ⟨subCall, hc.2 _ (List.mem_cons_self _ _), rfl⟩,
      fun t ht => hc.2 t (List.mem_cons_of_mem _ ht)⟩
  | buildErr parentHash sub rest evs e h1 h2 =>
    exact ⟨upd _ _ h1 (fun _ _ => trivial), inv.prov⟩
  | buildOk parentHash sub rest evs tx h1 h2 =>
    refine ⟨upd _ _ h1 ?_, inv.prov⟩
    intro c0 hc
    simp only [UnitOK] at hc ⊢
    rcases hc with ⟨hc1, ⟨t, ht, rfl⟩, hc3⟩
    exact ⟨hc1, ⟨t, ht, evs, h2⟩, hc3⟩
  | append parentHash tx rest h1 =>
    refine ⟨upd _ _ h1 ?_, ?_⟩
    · intro c0 hc
      simp only [UnitOK] at hc ⊢
      exact ⟨hc.1, hc.2.2⟩
    · intro tx0 htx0
      rcases List.mem_append.1 htx0 with htx0 | htx0
      · exact inv.prov tx0 htx0
      · rw [List.mem_singleton.1 htx0]
        rcases inv.wf i _ h1 with ⟨m, hm, hok⟩
        simp only [UnitOK] at hok
        rcases hok with ⟨hph, ⟨t, ht, evs, hb⟩, _⟩
        exact ⟨m, List.mem_iff_getElem?.2 ⟨_, hm⟩, parentHash, hph, t, ht, evs, hb⟩
  | report e h1 =>
    exact ⟨upd _ _ h1 (fun _ _ => trivial), inv.prov⟩

theorem spawn_traceInv (env : Env) (height version : Int) (log : List Event)
    (messages : List ApiMessage) : TraceInv env height version messages (spawn log messages) := by
  refine ⟨?_, ?_⟩
  · intro i u hu
    simp only [spawn, List.getElem?_map] at hu
    cases hm : messages[i]? with
    | none => simp [hm] at hu
    | some m =>
      simp only [hm, Option.map_some', Option.some.injEq] at hu
      subst hu
      exact ⟨m, rfl, rfl⟩
  · intro tx htx
    simp [spawn] at htx

theorem wait_traceInv (env : Env) (height version : Int) (sched : List Nat)
    (log : List Event) (messages : List ApiMessage) :
    TraceInv env height version messages
      (wait env height version sched (spawn log messages)) :=
  wait_induct env height version (TraceInv env height version messages)
    (fun i g0 h0 => move_traceInv (step_move env height version i g0) h0) sched _
    (spawn_traceInv env height version log messages)

theorem persist_internalTxs (env : Env) (height version : Int) (g : Group) :
    (persist env height version g).internalTxs = g.internalTxs := by
  rcases persist_cases env height version g with ⟨e, _, h⟩ | ⟨_, _, h⟩ | ⟨_, _, h⟩ <;> rw [h]

theorem mem_subcallsOf {env : Env} {c : Cid} {t : ExecutionTrace}
    (h : t ∈ subcallsOf env c) :
    ∃ invocs, env.StateReplay c = .ok invocs ∧ t ∈ invocs.ExecutionTrace.Subcalls := by
  unfold subcallsOf at h
  split at h
  · exact ⟨_, by assumption, h⟩
  · simp at h

/-- Every record `extract` leaves in `internalTxs` was built from a sub-call of a trace. -/
theorem extract_built (env : Env) (version : Int) (parentTs : TipSet) (sched : List Nat)
    (log : List Event) :
    ∀ tx ∈ (extract env version parentTs sched log).internalTxs,
      ∃ messages, env.ChainGetMessagesInTipset parentTs.Key = .ok messages ∧
        Built env parentTs.Height version messages tx := by
  intro tx htx
  rcases extract_cases env version parentTs sched log with ⟨e, h⟩ | ⟨messages, hm, h⟩
  · rw [h] at htx
    simp at htx
  · rw [h, persist_internalTxs] at htx
    exact ⟨messages, hm, (wait_traceInv env parentTs.Height version sched _ messages).prov tx htx⟩

/-! ## The shared map -/

theorem observations_append (l1 l2 : List Event) :
    observations (l1 ++ l2) = observations l1 ++ observations l2 := by
  induction l1 with
  | nil => rfl
  | cons a l ih => cases a <;> simp [observations, ih]

theorem observations_of_isBuild (evs : List Event) (h : ∀ ev ∈ evs, ev.isBuild = true) :
    observations evs = [] := by
  induction evs with
  | nil => rfl
  | cons a l ih =>
    have ha := h a (List.mem_cons_self _ _)
    have hl := ih (fun ev hev => h ev (List.mem_cons_of_mem _ hev))
    cases a <;> simp_all [observations, Event.isBuild]

/-- What an action does to the map and to the list of `LoadOrStore` calls. -/
theorem move_obs {env : Env} {height version : Int} {i : Nat} {g g' : Group}
    (h : Move env height version i g g') :
    (g'.sm = g.sm ∧ observations g'.log = observations g.log) ∨
    (∃ parentHash t rest, g.units[i]? = some (.loop parentHash (t :: rest)) ∧
      env.MessageCid t.Msg ∈ g.sm ∧ g'.sm = g.sm ∧
      observations g'.log = observations g.log ++ [(i, t.Msg, true)]) ∨
    (∃ parentHash t rest, g.units[i]? = some (.loop parentHash (t :: rest)) ∧
      env.MessageCid t.Msg ∉ g.sm ∧ g'.sm = g.sm ++ [env.MessageCid t.Msg] ∧
      observations g'.log = observations g.log ++ [(i, t.Msg, false)]) := by
  cases h with
  | idle h0 => exact Or.inl ⟨rfl, rfl⟩
  | replayErr c e h1 h2 => exact Or.inl ⟨rfl, by simp [observations_append, observations]⟩
  | replayOk c invocs h1 h2 => exact Or.inl ⟨rfl, by simp [observations_append, observations]⟩
  | hashErr c subcalls e h1 h2 =>
    exact Or.inl ⟨rfl, by simp [observations_append, observations]⟩
  | hashOk c subcalls parentHash h1 h2 =>
    exact Or.inl ⟨rfl, by simp [observations_append, observations]⟩
  | loopEnd parentHash h1 => exact Or.inl ⟨rfl, rfl⟩
  | loaded parentHash subCall rest h1 h2 =>
    exact Or.inr (Or.inl ⟨parentHash, subCall, rest, h1, h2, rfl,
      by simp [observations_append, observations]⟩)
  | fresh parentHash subCall rest h1 h2 =>
    exact Or.inr (Or.inr ⟨parentHash, subCall, rest, h1, h2, rfl,
      by simp [observations_append, observations]⟩)
  | buildErr parentHash sub rest evs e h1 h2 =>
    refine Or.inl ⟨rfl, ?_⟩
    have hb := buildTx_events env height version parentHash sub
    rw [h2] at hb
    simp [observations_append, observations_of_isBuild evs hb]
  | buildOk parentHash sub rest evs tx h1 h2 =>
    refine Or.inl ⟨rfl, ?_⟩
    have hb := buildTx_events env height version parentHash sub
    rw [h2] at hb
    simp [observations_append, observations_of_isBuild evs hb]
  | append parentHash tx rest h1 => exact Or.inl ⟨rfl, rfl⟩
  | report e h1 => exact Or.inl ⟨rfl, rfl⟩

theorem split_snoc {α : Type} {l : List α} {a : α} {pre : List α} {o : α} {post : List α}
    (h : l ++ [a] = pre ++ o :: post) :
    (post = [] ∧ pre = l ∧ o = a) ∨ ∃ post', post = post' ++ [a] ∧ l = pre ++ o :: post' := by
  rcases List.eq_nil_or_concat post with rfl | ⟨post', b, rfl⟩
  · left
    have := List.append_inj' h rfl
    simp at this
    exact ⟨rfl, this.1.symm, this.2.symm⟩
  · right
    have h' : l ++ [a] = (pre ++ o :: post') ++ [b] := by simpa using h
    have := List.append_inj' h' rfl
    simp at this
    exact ⟨post', by rw [this.2, List.concat_eq_append], this.1⟩

theorem winners_snoc (log : List Event) (obs : List (Nat × Message × Bool))
    (o : Nat × Message × Bool) (h : observations log = obs ++ [o]) :
    winners log = (obs.filterMap (fun o => if o.2.2 then none else some (o.1, o.2.1))) ++
      (if o.2.2 then [] else [(o.1, o.2.1)]) := by
  unfold winners
  rw [h, List.filterMap_append]
  rcases o with ⟨i, sub, loaded⟩
  cases loaded <;> simp

theorem move_obsInv {env : Env} {height version : Int} {messages : List ApiMessage}
    {i : Nat} {g g' : Group}
    (h : Move env height version i g g') (tinv : TraceInv env height version messages g)
    (inv : ObsInv env messages g) : ObsInv env messages g' := by
  have own : ∀ parentHash t rest, g.units[i]? = some (.loop parentHash (t :: rest)) →
      ∃ m, messages[i]? = some m ∧
        (∃ parentHash, env.EthGetTransactionHashByCid m.Cid = .ok parentHash) ∧
        ∃ t0 ∈ subcallsOf env m.Cid, t0.Msg = t.Msg := by
    intro parentHash t rest hu
    rcases tinv.wf i _ hu with ⟨m, hm, hok⟩
    simp only [UnitOK] at hok
    exact ⟨m, hm, ⟨parentHash, hok.1⟩, t, hok.2 t (List.mem_cons_self _ _), rfl⟩
  rcases move_obs h with ⟨hsm, hobs⟩ | ⟨parentHash, t, rest, hu, hin, hsm, hobs⟩ |
    ⟨parentHash, t, rest, hu, hnin, hsm, hobs⟩
  · refine ⟨?_, ?_, ?_, ?_, ?_⟩
    · rw [hsm, inv.keys]
      unfold winners
      rw [hobs]
    · rw [hsm]; exact inv.nodup
    · rw [hsm, hobs]; exact inv.seen
    · rw [hobs]; exact inv.first
    · rw [hobs]; exact inv.owner
  · refine ⟨?_, ?_, ?_, ?_, ?_⟩
    · rw [hsm, inv.keys, winners_snoc g'.log _ _ hobs]
      simp [winners]
    · rw [hsm]; exact inv.nodup
    · intro k
      rw [hsm, hobs]
      constructor
      · intro hk
        rcases (inv.seen k).1 hk with ⟨o, ho, hko⟩
        exact ⟨o, List.mem_append_left _ ho, hko⟩
      · rintro ⟨o, ho, hko⟩
        rcases List.mem_append.1 ho with ho | ho
        · exact (inv.seen k).2 ⟨o, ho, hko⟩
        · rw [List.mem_singleton.1 ho] at hko
          rw [← hko]
          exact hin
    · intro pre o post hsplit
      rw [hobs] at hsplit
      rcases split_snoc hsplit with ⟨_, rfl, rfl⟩ | ⟨post', _, hold⟩
      · simp only [true_iff]
        exact (inv.seen _).1 hin
      · exact inv.first pre o post' hold
    · intro o ho
      rw [hobs] at ho
      rcases List.mem_append.1 ho with ho | ho
      · exact inv.owner o ho
      · rw [List.mem_singleton.1 ho]
        exact own parentHash t rest hu
  · refine ⟨?_, ?_, ?_, ?_, ?_⟩
    · rw [hsm, inv.keys, winners_snoc g'.log _ _ hobs]
      simp [winners]
    · rw [hsm]
      exact List.Nodup.append inv.nodup (List.nodup_singleton _)
        (by
          intro k hk1 hk2
          rw [List.mem_singleton.1 hk2] at hk1
          exact hnin hk1)
    · intro k
      rw [hsm, hobs]
      constructor
      · intro hk
        rcases List.mem_append.1 hk with hk | hk
        · rcases (inv.seen k).1 hk with ⟨o, ho, hko⟩
          exact ⟨o, List.mem_append_left _ ho, hko⟩
        · exact ⟨_, List.mem_append_right _ (List.mem_singleton.2 rfl),
            (List.mem_singleton.1 hk).symm⟩
      · rintro ⟨o, ho, hko⟩
        rcases List.mem_append.1 ho with ho | ho
        · exact List.mem_append_left _ ((inv.seen k).2 ⟨o, ho, hko⟩)
        · rw [List.mem_singleton.1 ho] at hko
          rw [← hko]
          exact List.mem_append_right _ (List.mem_singleton.2 rfl)
    · intro pre o post hsplit
      rw [hobs] at hsplit
      rcases split_snoc hsplit with ⟨_, rfl, rfl⟩ | ⟨post', _, hold⟩
      · simp only [Bool.false_eq_true, false_iff]
        intro hex
        exact hnin ((inv.seen _).2 hex)
      · exact inv.first pre o post' hold
    · intro o ho
      rw [hobs] at ho
      rcases List.mem_append.1 ho with ho | ho
      · exact inv.owner o ho
      · rw [List.mem_singleton.1 ho]
        exact own parentHash t rest hu

theorem observations_preamble (tipSet parentTs : TipSet) (version : Int) (force : Bool) :
    observations (preamble tipSet parentTs version force) = [] := by
  unfold preamble
  cases force <;> simp [observations]

theorem spawn_obsInv (env : Env) (messages : List ApiMessage) (log : List Event)
    (hlog : observations log = []) : ObsInv env messages (spawn log messages) := by
  refine ⟨?_, ?_, ?_, ?_, ?_⟩
  · simp [spawn, winners, hlog]
  · simp [spawn]
  · intro k
    simp [spawn, hlog]
  · intro pre o post hsplit
    simp [spawn, hlog] at hsplit
  · intro o ho
    simp [spawn, hlog] at ho

/-! ## The records -/

theorem perm_flatMap_set {α β : Type} (f : α → List β) :
    ∀ (l : List α) (i : Nat) (u u' : α), l[i]? = some u →
      (f u ++ (l.set i u').flatMap f).Perm (f u' ++ l.flatMap f) := by
  intro l
  induction l with
  | nil => intro i u u' h; simp at h
  | cons a l ih =>
    intro i u u' h
    cases i with
    | zero =>
      simp only [List.getElem?_cons_zero, Option.some.injEq] at h
      subst h
      simp only [List.set_cons_zero, List.flatMap_cons]
      exact List.perm_append_comm_assoc _ _ _
    | succ i =>
      simp only [List.getElem?_cons_succ] at h
      simp only [List.set_cons_succ, List.flatMap_cons]
      exact ((List.perm_append_comm_assoc _ _ _).trans
        (List.Perm.append_left _ (ih i u u' h))).trans (List.perm_append_comm_assoc _ _ _)

/-- Bookkeeping of one action of goroutine `i` on the records. -/
theorem perm_update {α β : Type} [DecidableEq β] (f : α → List β) (l : List α) (i : Nat)
    (u u' : α) (txs txs' R X : List β) (h : l[i]? = some u)
    (hp : (txs ++ l.flatMap f).Perm R) (hstep : txs' ++ f u' = txs ++ f u ++ X) :
    (txs' ++ (l.set i u').flatMap f).Perm (R ++ X) := by
  rw [List.perm_iff_count]
  intro a
  have h1 := List.perm_iff_count.1 (perm_flatMap_set f l i u u' h) a
  have h2 := List.perm_iff_count.1 hp a
  have h3 := congrArg (List.count a) hstep
  simp only [List.count_append] at h1 h2 h3 ⊢
  omega

theorem winners_append (l1 l2 : List Event) :
    winners (l1 ++ l2) = winners l1 ++ winners l2 := by
  simp [winners, observations_append, List.filterMap_append]

theorem winners_of_isBuild (evs : List Event) (h : ∀ ev ∈ evs, ev.isBuild = true) :
    winners evs = [] := by
  simp [winners, observations_of_isBuild evs h]

theorem winners_single_stored (i : Nat) (sub : Message) :
    winners [.loadOrStore i sub false] = [(i, sub)] := rfl

theorem winners_single_loaded (i : Nat) (sub : Message) :
    winners [.loadOrStore i sub true] = [] := rfl

theorem winners_single_replay (c : Cid) (err : Option Err) :
    winners [.stateReplay c err] = [] := rfl

theorem winners_single_hash (c : Cid) (err : Option Err) :
    winners [.ethGetTransactionHashByCid c err] = [] := rfl

theorem move_perm {env : Env} {height version : Int} {messages : List ApiMessage}
    {i : Nat} {g g' : Group}
    (h : Move env height version i g g') (tinv : TraceInv env height version messages g)
    (inv : RecInv env height version messages g) :
    (g'.internalTxs ++ g'.units.flatMap (inflight env height version)).Perm
      ((winners g'.log).filterMap (recordOf env height version messages)) := by
  have base : ∀ (u u' : UnitState) (txs' X : List InternalTX), g.units[i]? = some u →
      txs' ++ inflight env height version u' =
        g.internalTxs ++ inflight env height version u ++ X →
      (txs' ++ (g.units.set i u').flatMap (inflight env height version)).Perm
        ((winners g.log).filterMap (recordOf env height version messages) ++ X) :=
    fun u u' txs' X hu hstep =>
      perm_update (inflight env height version) g.units i u u' g.internalTxs txs' _ X hu
        inv.perm hstep
  cases h with
  | idle h0 => exact inv.perm
  | replayErr c e h1 h2 =>
    have := base _ (.failed (.wrap e "StateReplay failed")) g.internalTxs [] h1
      (by simp [inflight])
    simpa only [winners_append, winners_single_replay, winners_single_hash,
      winners_single_loaded, winners_single_stored, List.filterMap_append,
      List.filterMap_nil, List.append_nil] using this
  | replayOk c invocs h1 h2 =>
    have := base _ (.replayed c invocs.ExecutionTrace.Subcalls) g.internalTxs [] h1
      (by simp [inflight])
    simpa only [winners_append, winners_single_replay, winners_single_hash,
      winners_single_loaded, winners_single_stored, List.filterMap_append,
      List.filterMap_nil, List.append_nil] using this
  | hashErr c subcalls e h1 h2 =>
    have := base _ (.failed (.wrap e "EthGetTransactionHashByCid failed")) g.internalTxs [] h1
      (by simp [inflight])
    simpa only [winners_append, winners_single_replay, winners_single_hash,
      winners_single_loaded, winners_single_stored, List.filterMap_append,
      List.filterMap_nil, List.append_nil] using this
  | hashOk c subcalls parentHash h1 h2 =>
    have := base _ (.loop parentHash subcalls) g.internalTxs [] h1 (by simp [inflight])
    simpa only [winners_append, winners_single_replay, winners_single_hash,
      winners_single_loaded, winners_single_stored, List.filterMap_append,
      List.filterMap_nil, List.append_nil] using this
  | loopEnd parentHash h1 =>
    have := base _ .done g.internalTxs [] h1 (by simp [inflight])
    simpa only [List.append_nil] using this
  | loaded parentHash subCall rest h1 h2 =>
    have := base _ (.loop parentHash rest) g.internalTxs [] h1 (by simp [inflight])
    simpa only [winners_append, winners_single_replay, winners_single_hash,
      winners_single_loaded, winners_single_stored, List.filterMap_append,
      List.filterMap_nil, List.append_nil] using this
  | fresh parentHash subCall rest h1 h2 =>
    rcases tinv.wf i _ h1 with ⟨m, hm, hok⟩
    simp only [UnitOK] at hok
    have := base _ (.stored parentHash subCall.Msg rest) g.internalTxs
      (inflight env height version (.stored parentHash subCall.Msg rest)) h1
      (by simp [inflight])
    have hrec : List.filterMap (recordOf env height version messages) [(i, subCall.Msg)] =
        inflight env height version (.stored parentHash subCall.Msg rest) := by
      simp only [List.filterMap_cons, List.filterMap_nil, recordOf, hm, hok.1, inflight]
      cases (buildTx env height version parentHash subCall.Msg).2 <;> rfl
    rw [← hrec] at this
    simpa only [winners_append, winners_single_replay, winners_single_hash,
      winners_single_loaded, winners_single_stored, List.filterMap_append,
      List.filterMap_nil, List.append_nil] using this
  | buildErr parentHash sub rest evs e h1 h2 =>
    have hb := buildTx_events env height version parentHash sub
    rw [h2] at hb
    have := base _ (.failed e) g.internalTxs [] h1 (by simp [inflight, h2])
    simpa only [winners_append, winners_of_isBuild evs hb, List.filterMap_append,
      List.filterMap_nil, List.append_nil] using this
  | buildOk parentHash sub rest evs tx h1 h2 =>
    have hb := buildTx_events env height version parentHash sub
    rw [h2] at hb
    have := base _ (.built parentHash tx rest) g.internalTxs [] h1 (by simp [inflight, h2])
    simpa only [winners_append, winners_of_isBuild evs hb, List.filterMap_append,
      List.filterMap_nil, List.append_nil] using this
  | append parentHash tx rest h1 =>
    have := base _ (.loop parentHash rest) (g.internalTxs ++ [tx]) [] h1 (by simp [inflight])
    simpa only [List.append_nil] using this
  | report e h1 =>
    have := base _ .done g.internalTxs [] h1 (by simp [inflight])
    simpa only [List.append_nil] using this

theorem move_builtAll {env : Env} {height version : Int} {messages : List ApiMessage}
    {i : Nat} {g g' : Group}
    (h : Move env height version i g g') (tinv : TraceInv env height version messages g)
    (inv : RecInv env height version messages g) :
    ∀ w ∈ winners g'.log,
      recordOf env height version messages w ≠ none ∨
      (∃ parentHash rest, g'.units[w.1]? = some (UnitState.stored parentHash w.2 rest)) ∨
      (∃ e, g'.units[w.1]? = some (UnitState.failed e)) ∨ g'.err ≠ none := by
  have keep : ∀ (u X : UnitState), g.units[i]? = some u →
      (∀ parentHash sub rest, u ≠ UnitState.stored parentHash sub rest) →
      (∀ e, u ≠ UnitState.failed e) →
      ∀ w ∈ winners g.log,
        recordOf env height version messages w ≠ none ∨
        (∃ parentHash rest,
          (g.units.set i X)[w.1]? = some (UnitState.stored parentHash w.2 rest)) ∨
        (∃ e, (g.units.set i X)[w.1]? = some (UnitState.failed e)) ∨ g.err ≠ none := by
    intro u X hu hns hnf w hw
    rcases inv.builtAll w hw with a | ⟨ph, rest, hb⟩ | ⟨e, hc⟩ | d
    · exact Or.inl a
    · by_cases hiw : i = w.1
      · rw [← hiw, hu] at hb
        cases hb
        exact absurd rfl (hns _ _ _)
      · exact Or.inr (Or.inl ⟨ph, rest, by rw [List.getElem?_set_ne hiw]; exact hb⟩)
    · by_cases hiw : i = w.1
      · rw [← hiw, hu] at hc
        cases hc
        exact absurd rfl (hnf _)
      · exact Or.inr (Or.inr (Or.inl ⟨e, by rw [List.getElem?_set_ne hiw]; exact hc⟩))
    · exact Or.inr (Or.inr (Or.inr d))
  cases h with
  | idle h0 => exact inv.builtAll
  | replayErr c e h1 h2 =>
    simp only [winners_append, winners_single_replay, List.append_nil]
    exact keep _ _ h1 (by simp) (by simp)
  | replayOk c invocs h1 h2 =>
    simp only [winners_append, winners_single_replay, List.append_nil]
    exact keep _ _ h1 (by simp) (by simp)
  | hashErr c subcalls e h1 h2 =>
    simp only [winners_append, winners_single_hash, List.append_nil]
    exact keep _ _ h1 (by simp) (by simp)
  | hashOk c subcalls parentHash h1 h2 =>
    simp only [winners_append, winners_single_hash, List.append_nil]
    exact keep _ _ h1 (by simp) (by simp)
  | loopEnd parentHash h1 => exact keep _ _ h1 (by simp) (by simp)
  | loaded parentHash subCall rest h1 h2 =>
    simp only [winners_append, winners_single_loaded, List.append_nil]
    exact keep _ _ h1 (by simp) (by simp)
  | fresh parentHash subCall rest h1 h2 =>
    simp only [winners_append, winners_single_stored]
    intro w hw
    rcases List.mem_append.1 hw with hw | hw
    · exact keep _ _ h1 (by simp) (by simp) w hw
    · rw [List.mem_singleton.1 hw]
      exact Or.inr (Or.inl ⟨parentHash, rest,
        List.getElem?_set_self (lt_of_getElem?_some h1)⟩)
  | buildErr parentHash sub rest evs e h1 h2 =>
    have hb := buildTx_events env height version parentHash sub
    rw [h2] at hb
    simp only [winners_append, winners_of_isBuild evs hb, List.append_nil]
    intro w hw
    by_cases hiw : i = w.1
    · exact Or.inr (Or.inr (Or.inl ⟨e, by
        rw [← hiw]
        exact List.getElem?_set_self (lt_of_getElem?_some h1)⟩))
    · rcases inv.builtAll w hw with a | ⟨ph, rest0, hb0⟩ | ⟨e0, hc⟩ | d
      · exact Or.inl a
      · exact Or.inr (Or.inl ⟨ph, rest0, by rw [List.getElem?_set_ne hiw]; exact hb0⟩)
      · exact Or.inr (Or.inr (Or.inl ⟨e0, by rw [List.getElem?_set_ne hiw]; exact hc⟩))
      · exact Or.inr (Or.inr (Or.inr d))
  | buildOk parentHash sub rest evs tx h1 h2 =>
    have hb := buildTx_events env height version parentHash sub
    rw [h2] at hb
    simp only [winners_append, winners_of_isBuild evs hb, List.append_nil]
    intro w hw
    rcases inv.builtAll w hw with a | ⟨ph, rest0, hb0⟩ | ⟨e0, hc⟩ | d
    · exact Or.inl a
    · by_cases hiw : i = w.1
      · left
        rw [← hiw, h1] at hb0
        cases hb0
        rcases tinv.wf i _ h1 with ⟨m, hm, hok⟩
        simp only [UnitOK] at hok
        simp [recordOf, ← hiw, hm, hok.1, h2]
      · exact Or.inr (Or.inl ⟨ph, rest0, by rw [List.getElem?_set_ne hiw]; exact hb0⟩)
    · by_cases hiw : i = w.1
      · rw [← hiw, h1] at hc
        cases hc
      · exact Or.inr (Or.inr (Or.inl ⟨e0, by rw [List.getElem?_set_ne hiw]; exact hc⟩))
    · exact Or.inr (Or.inr (Or.inr d))
  | append parentHash tx rest h1 => exact keep _ _ h1 (by simp) (by simp)
  | report e h1 =>
    intro w _
    refine Or.inr (Or.inr (Or.inr ?_))
    cases hg : g.err <;> simp

theorem move_cover {env : Env} {height version : Int} {messages : List ApiMessage}
    {i : Nat} {g g' : Group}
    (h : Move env height version i g g')
    (inv : RecInv env height version messages g) :
    ∀ (j : Nat) (u : UnitState) (m : ApiMessage), g'.units[j]? = some u →
      messages[j]? = some m → ∀ t ∈ subcallsOf env m.Cid,
        t ∈ todo env u ∨ env.MessageCid t.Msg ∈ g'.sm ∨ (∃ e, u = UnitState.failed e) ∨
          g'.err ≠ none := by
  have upd : ∀ (u0 X : UnitState) (sm' : List String) (err' : Option Err),
      g.units[i]? = some u0 → (∀ k ∈ g.sm, k ∈ sm') → (g.err ≠ none → err' ≠ none) →
      (∀ t, (t ∈ todo env u0 ∨ ∃ e, u0 = UnitState.failed e) →
        t ∈ todo env X ∨ env.MessageCid t.Msg ∈ sm' ∨ (∃ e, X = UnitState.failed e) ∨
          err' ≠ none) →
      ∀ (j : Nat) (u : UnitState) (m : ApiMessage), (g.units.set i X)[j]? = some u →
        messages[j]? = some m → ∀ t ∈ subcallsOf env m.Cid,
          t ∈ todo env u ∨ env.MessageCid t.Msg ∈ sm' ∨ (∃ e, u = UnitState.failed e) ∨
            err' ≠ none := by
    intro u0 X sm' err' hu hsm herr htr j u m hj hm t ht
    rcases get_set_cases hj with ⟨rfl, rfl, _⟩ | ⟨_, hj'⟩
    · rcases inv.cover _ u0 m hu hm t ht with a | b | c | d
      · exact htr t (Or.inl a)
      · exact Or.inr (Or.inl (hsm _ b))
      · exact htr t (Or.inr c)
      · exact Or.inr (Or.inr (Or.inr (herr d)))
    · rcases inv.cover j u m hj' hm t ht with a | b | c | d
      · exact Or.inl a
      · exact Or.inr (Or.inl (hsm _ b))
      · exact Or.inr (Or.inr (Or.inl c))
      · exact Or.inr (Or.inr (Or.inr (herr d)))
  cases h with
  | idle h0 => exact inv.cover
  | replayErr c e h1 h2 =>
    exact upd _ _ _ _ h1 (fun _ hk => hk) id (fun _ _ => Or.inr (Or.inr (Or.inl ⟨_, rfl⟩)))
  | replayOk c invocs h1 h2 =>
    refine upd _ _ _ _ h1 (fun _ hk => hk) id ?_
    intro t ht
    rcases ht with ht | ⟨e, he⟩
    · left
      simpa [todo, subcallsOf, h2] using ht
    · cases he
  | hashErr c subcalls e h1 h2 =>
    exact upd _ _ _ _ h1 (fun _ hk => hk) id (fun _ _ => Or.inr (Or.inr (Or.inl ⟨_, rfl⟩)))
  | hashOk c subcalls parentHash h1 h2 =>
    refine upd _ _ _ _ h1 (fun _ hk => hk) id ?_
    intro t ht
    rcases ht with ht | ⟨e, he⟩
    · exact Or.inl ht
    · cases he
  | loopEnd parentHash h1 =>
    refine upd _ _ _ _ h1 (fun _ hk => hk) id ?_
    intro t ht
    rcases ht with ht | ⟨e, he⟩
    · simp [todo] at ht
    · cases he
  | loaded parentHash subCall rest h1 h2 =>
    refine upd _ _ _ _ h1 (fun _ hk => hk) id ?_
    intro t ht
    rcases ht with ht | ⟨e, he⟩
    · simp only [todo, List.mem_cons] at ht
      rcases ht with rfl | ht
      · exact Or.inr (Or.inl h2)
      · exact Or.inl ht
    · cases he
  | fresh parentHash subCall rest h1 h2 =>
    refine upd _ _ _ _ h1 (fun _ hk => List.mem_append_left _ hk) id ?_
    intro t ht
    rcases ht with ht | ⟨e, he⟩
    · simp only [todo, List.mem_cons] at ht
      rcases ht with rfl | ht
      · exact Or.inr (Or.inl (List.mem_append_right _ (List.mem_singleton.2 rfl)))
      · exact Or.inl ht
    · cases he
  | buildErr parentHash sub rest evs e h1 h2 =>
    exact upd _ _ _ _ h1 (fun _ hk => hk) id (fun _ _ => Or.inr (Or.inr (Or.inl ⟨_, rfl⟩)))
  | buildOk parentHash sub rest evs tx h1 h2 =>
    refine upd _ _ _ _ h1 (fun _ hk => hk) id ?_
    intro t ht
    rcases ht with ht | ⟨e, he⟩
    · exact Or.inl ht
    · cases he
  | append parentHash tx rest h1 =>
    refine upd _ _ _ _ h1 (fun _ hk => hk) id ?_
    intro t ht
    rcases ht with ht | ⟨e, he⟩
    · exact Or.inl ht
    · cases he
  | report e h1 =>
    have herr : (match g.err with
        | some e0 => some e0
        | none => some e) ≠ none := by
      cases hg : g.err <;> simp
    exact upd _ _ _ _ h1 (fun _ hk => hk) (fun _ => herr)
      (fun _ _ => Or.inr (Or.inr (Or.inr herr)))

theorem move_recInv {env : Env} {height version : Int} {messages : List ApiMessage}
    {i : Nat} {g g' : Group}
    (h : Move env height version i g g') (tinv : TraceInv env height version messages g)
    (inv : RecInv env height version messages g) :
    RecInv env height version messages g' :=
  ⟨move_perm h tinv inv, move_builtAll h tinv inv, move_cover h inv⟩

theorem spawn_recInv (env : Env) (height version : Int) (messages : List ApiMessage)
    (log : List Event) (hlog : observations log = []) :
    RecInv env height version messages (spawn log messages) := by
  refine ⟨?_, ?_, ?_⟩
  · have hin : ∀ l : List ApiMessage,
        (l.map (fun message => UnitState.start message.Cid)).flatMap
          (inflight env height version) = [] := by
      intro l
      induction l with
      | nil => rfl
      | cons a l ih => simp [List.flatMap_cons, inflight, ih]
    simp [spawn, winners, hlog, hin]
  · intro w hw
    simp [spawn, winners, hlog] at hw
  · intro i u m hu hm t ht
    simp only [spawn, List.getElem?_map, hm, Option.map_some', Option.some.injEq] at hu
    subst hu
    exact Or.inl ht

theorem wait_allInv (env : Env) (height version : Int) (sched : List Nat)
    (log : List Event) (messages : List ApiMessage) (hlog : observations log = []) :
    AllInv env height version messages
      (wait env height version sched (spawn log messages)) :=
  wait_induct env height version (AllInv env height version messages)
    (fun i g0 h0 =>
      have hm := step_move env height version i g0
      ⟨move_traceInv hm h0.trace, move_obsInv hm h0.trace h0.obs,
        move_recInv hm h0.trace h0.recs⟩) sched _
    ⟨spawn_traceInv env height version log messages, spawn_obsInv env messages log hlog,
      spawn_recInv env height version messages log hlog⟩

/-! ## After the join -/

theorem wait_units_length (env : Env) (height version : Int) (sched : List Nat) (g : Group) :
    (wait env height version sched g).units.length = g.units.length :=
  wait_induct env height version (fun g0 => g0.units.length = g.units.length)
    (fun i g0 hg => (move_length (step_move env height version i g0)).trans hg) sched g rfl

theorem flatMap_inflight_done (env : Env) (height version : Int) (units : List UnitState)
    (h : ∀ u ∈ units, u = UnitState.done) :
    units.flatMap (inflight env height version) = [] := by
  induction units with
  | nil => rfl
  | cons a l ih =>
    have ha := h a (List.mem_cons_self _ _)
    subst ha
    simp [List.flatMap_cons, inflight, ih (fun u hu => h u (List.mem_cons_of_mem _ hu))]

theorem length_filterMap_of_ne_none {α β : Type} (f : α → Option β) (l : List α)
    (h : ∀ a ∈ l, f a ≠ none) : (l.filterMap f).length = l.length := by
  induction l with
  | nil => rfl
  | cons a l ih =>
    have ha := h a (List.mem_cons_self _ _)
    cases hf : f a with
    | none => exact absurd hf ha
    | some b =>
      simp [List.filterMap_cons, hf, ih (fun x hx => h x (List.mem_cons_of_mem _ hx))]

theorem length_eq_dedup_of_same_elements {l1 l2 : List String} (hnd : l1.Nodup)
    (h12 : ∀ k ∈ l1, k ∈ l2) (h21 : ∀ k ∈ l2, k ∈ l1) : l1.length = l2.dedup.length := by
  rw [← List.card_toFinset, ← List.toFinset_card_of_nodup hnd]
  congr 1
  ext k
  simp only [List.mem_toFinset]
  exact ⟨h12 k, h21 k⟩

/-- The state at the join when the errgroup holds no error: one record per call that
stored its key, and the keys stored are the identifiers of the traces. -/
theorem joined_clean (env : Env) (height version : Int) (sched : List Nat)
    (log : List Event) (messages : List ApiMessage) (hlog : observations log = [])
    (g : Group) (hg : g = wait env height version sched (spawn log messages))
    (herr : g.err = none) :
    g.internalTxs.Perm ((winners g.log).filterMap (recordOf env height version messages)) ∧
    (∀ w ∈ winners g.log, recordOf env height version messages w ≠ none) ∧
    ((winners g.log).map (fun w => env.MessageCid w.2)).Nodup ∧
    (∀ k, k ∈ subcallIds env messages ↔
      k ∈ (winners g.log).map (fun w => env.MessageCid w.2)) ∧
    g.internalTxs.length = (subcallIds env messages).dedup.length := by
  subst hg
  have inv := wait_allInv env height version sched log messages hlog
  have hdone := wait_all_done env height version sched (spawn log messages)
  have hlen : (wait env height version sched (spawn log messages)).units.length =
      messages.length := by
    rw [wait_units_length]
    simp [spawn]
  generalize wait env height version sched (spawn log messages) = g at *
  have hperm : g.internalTxs.Perm
      ((winners g.log).filterMap (recordOf env height version messages)) := by
    have := inv.recs.perm
    rwa [flatMap_inflight_done env height version g.units hdone, List.append_nil] at this
  have hall : ∀ w ∈ winners g.log, recordOf env height version messages w ≠ none := by
    intro w hw
    rcases inv.recs.builtAll w hw with a | ⟨ph, rest, hb⟩ | ⟨e, hc⟩ | d
    · exact a
    · have := hdone _ (List.mem_iff_getElem?.2 ⟨_, hb⟩)
      cases this
    · have := hdone _ (List.mem_iff_getElem?.2 ⟨_, hc⟩)
      cases this
    · exact absurd herr d
  have hnd : ((winners g.log).map (fun w => env.MessageCid w.2)).Nodup := by
    rw [← inv.obs.keys]
    exact inv.obs.nodup
  have hkeys : ∀ k, k ∈ subcallIds env messages ↔
      k ∈ (winners g.log).map (fun w => env.MessageCid w.2) := by
    intro k
    rw [← inv.obs.keys]
    constructor
    · intro hk
      simp only [subcallIds, List.mem_flatMap, List.mem_map] at hk
      rcases hk with ⟨m, hm, t, ht, rfl⟩
      rcases List.mem_iff_getElem?.1 hm with ⟨i, hi⟩
      have hi' : i < g.units.length := by
        rw [hlen]
        exact lt_of_getElem?_some hi
      have hu : g.units[i]? = some g.units[i] := List.getElem?_eq_getElem hi'
      have hd := hdone _ (List.mem_iff_getElem?.2 ⟨_, hu⟩)
      rw [hd] at hu
      rcases inv.recs.cover i _ m hu hi t ht with a | b | ⟨e, c⟩ | d
      · simp [todo] at a
      · exact b
      · cases c
      · exact absurd herr d
    · intro hk
      rcases (inv.obs.seen k).1 hk with ⟨o, ho, rfl⟩
      rcases inv.obs.owner o ho with ⟨m, hm, _, t, ht, hto⟩
      simp only [subcallIds, List.mem_flatMap, List.mem_map]
      exact ⟨m, List.mem_iff_getElem?.2 ⟨_, hm⟩, t, ht, by rw [hto]⟩
  refine ⟨hperm, hall, hnd, hkeys, ?_⟩
  rw [hperm.length_eq, length_filterMap_of_ne_none _ _ hall,
    ← List.length_map (winners g.log) (fun w => env.MessageCid w.2)]
  exact length_eq_dedup_of_same_elements hnd (fun k hk => (hkeys k).2 hk)
    (fun k hk => (hkeys k).1 hk)

/-- Every message is still to be replayed, or its replay succeeded, or its failed
replay is in the log. -/
theorem move_replayed {env : Env} {height version : Int} {messages : List ApiMessage}
    {i : Nat} {g g' : Group} (h : Move env height version i g g')
    (inv : ∀ (j : Nat) (m : ApiMessage), messages[j]? = some m →
      g.units[j]? = some (UnitState.start m.Cid) ∨
      (∃ invocs, env.StateReplay m.Cid = .ok invocs) ∨
      ∃ e, env.StateReplay m.Cid = .error e ∧ Event.stateReplay m.Cid (some e) ∈ g.log) :
    ∀ (j : Nat) (m : ApiMessage), messages[j]? = some m →
      g'.units[j]? = some (UnitState.start m.Cid) ∨
      (∃ invocs, env.StateReplay m.Cid = .ok invocs) ∨
      ∃ e, env.StateReplay m.Cid = .error e ∧ Event.stateReplay m.Cid (some e) ∈ g'.log := by
  intro j m hm
  rcases move_log h with ⟨evs, hlog, _⟩
  rcases inv j m hm with a | b | ⟨e, he, hev⟩
  · by_cases hij : i = j
    · subst hij
      cases h with
      | idle h0 => exact Or.inl a
      | replayErr c e h1 h2 =>
        rw [h1] at a
        cases a
        exact Or.inr (Or.inr ⟨e, h2, List.mem_append_right _ (List.mem_singleton.2 rfl)⟩)
      | replayOk c invocs h1 h2 =>
        rw [h1] at a
        cases a
        exact Or.inr (Or.inl ⟨invocs, h2⟩)
      | hashErr c subcalls e h1 h2 => rw [h1] at a; cases a
      | hashOk c subcalls parentHash h1 h2 => rw [h1] at a; cases a
      | loopEnd parentHash h1 => rw [h1] at a; cases a
      | loaded parentHash subCall rest h1 h2 => rw [h1] at a; cases a
      | fresh parentHash subCall rest h1 h2 => rw [h1] at a; cases a
      | buildErr parentHash sub rest evs e h1 h2 => rw [h1] at a; cases a
      | buildOk parentHash sub rest evs tx h1 h2 => rw [h1] at a; cases a
      | append parentHash tx rest h1 => rw [h1] at a; cases a
      | report e h1 => rw [h1] at a; cases a
    · exact Or.inl (by rw [move_other h j hij]; exact a)
  · exact Or.inr (Or.inl b)
  · exact Or.inr (Or.inr ⟨e, he, by rw [hlog]; exact List.mem_append_left _ hev⟩)

/-- At the join every message was replayed: with success, or its failed replay is in
the log. -/
theorem joined_replays (env : Env) (height version : Int) (sched : List Nat)
    (log : List Event) (messages : List ApiMessage) :
    ∀ m ∈ messages, (∃ invocs, env.StateReplay m.Cid = .ok invocs) ∨
      ∃ e, env.StateReplay m.Cid = .error e ∧
        Event.stateReplay m.Cid (some e) ∈
          (wait env height version sched (spawn log messages)).log := by
  intro m hm
  rcases List.mem_iff_getElem?.1 hm with ⟨j, hj⟩
  have inv := wait_induct env height version
    (fun g => ∀ (j : Nat) (m : ApiMessage), messages[j]? = some m →
      g.units[j]? = some (UnitState.start m.Cid) ∨
      (∃ invocs, env.StateReplay m.Cid = .ok invocs) ∨
      ∃ e, env.StateReplay m.Cid = .error e ∧ Event.stateReplay m.Cid (some e) ∈ g.log)
    (fun i g0 h0 => move_replayed (step_move env height version i g0) h0) sched
    (spawn log messages)
    (by
      intro j m hm
      left
      simp [spawn, List.getElem?_map, hm])
  have hdone := wait_all_done env height version sched (spawn log messages)
  rcases inv j m hj with a | b | c
  · have := hdone _ (List.mem_iff_getElem?.2 ⟨_, a⟩)
    cases this
  · exact Or.inl b
  · exact Or.inr c

/-- At a join without error every message was replayed with success. -/
theorem joined_replayed (env : Env) (height version : Int) (sched : List Nat)
    (log : List Event) (messages : List ApiMessage) (hlog : ∀ ev ∈ log, ev.failure = none)
    (herr : (wait env height version sched (spawn log messages)).err = none) :
    ∀ m ∈ messages, ∃ invocs, env.StateReplay m.Cid = .ok invocs := by
  intro m hm
  rcases joined env height version sched log messages hlog _ rfl with ⟨_, hiff, _, _⟩
  rcases joined_replays env height version sched log messages m hm with b | ⟨e, _, hev⟩
  · exact b
  · exact absurd herr (hiff.2 ⟨_, hev, by simp [Event.failure]⟩)

/-- On a run that reaches the goroutines the failed replay of a message is in the log. -/
theorem replay_error_logged (env : Env) (version : Int) (tipSet parentTs : TipSet)
    (force : Bool) (sched : List Nat) (messages : List ApiMessage)
    (h0 : tipSet.Height ≠ 0) (hp : env.ChainGetTipSet tipSet.Parents = .ok parentTs)
    (hs : force = true ∨ env.Existed parentTs.Height version = .ok false)
    (hm : env.ChainGetMessagesInTipset parentTs.Key = .ok messages)
    (m : ApiMessage) (hmem : m ∈ messages) (e : Err)
    (hrep : env.StateReplay m.Cid = .error e) :
    Event.stateReplay m.Cid (some e) ∈ (Run env version tipSet force sched).log := by
  rw [run_reach env version tipSet parentTs force sched messages h0 hp hs hm]
  rcases joined_replays env parentTs.Height version sched
    (preamble tipSet parentTs version force) messages m hmem with ⟨invocs, hok⟩ | ⟨e0, he0, hev⟩
  · rw [hrep] at hok
    cases hok
  · rw [hrep] at he0
    cases he0
    rcases persist_cases env parentTs.Height version
      (wait env parentTs.Height version sched
        (spawn (preamble tipSet parentTs version force) messages)) with
      ⟨e1, _, hpe⟩ | ⟨_, _, hpe⟩ | ⟨_, _, hpe⟩
    · rw [hpe]; exact hev
    · rw [hpe]; exact hev
    · rw [hpe]; exact List.mem_append_left _ hev

/-! ## The store after a run -/

theorem storeAfter_append (l1 l2 : List Event) :
    ∀ st : Store, storeAfter st (l1 ++ l2) = storeAfter (storeAfter st l1) l2 := by
  induction l1 with
  | nil => intro st; rfl
  | cons a l ih =>
    intro st
    cases a with
    | delOldVersionAndWriteMany h v txs err =>
      cases err with
      | none => simp only [List.cons_append, storeAfter]; exact ih _
      | some e => simp only [List.cons_append, storeAfter]; exact ih _
    | _ => simp only [List.cons_append, storeAfter]; exact ih _

theorem storeAfter_no_write (l : List Event) (h : ∀ ev ∈ l, ev.isWrite = false) :
    ∀ st : Store, storeAfter st l = st := by
  induction l with
  | nil => intro st; rfl
  | cons a l ih =>
    intro st
    have ha := h a (List.mem_cons_self _ _)
    have hl := ih (fun ev hev => h ev (List.mem_cons_of_mem _ hev))
    cases a with
    | delOldVersionAndWriteMany h v txs err => simp [Event.isWrite] at ha
    | _ => simp only [storeAfter]; exact hl st

/-! ## Sequential runs -/

theorem move_err_mono {env : Env} {height version : Int} {i : Nat} {g g' : Group}
    (h : Move env height version i g g') (he : g'.err = none) : g.err = none := by
  cases h with
  | report e h1 =>
    cases hg : g.err with
    | none => rfl
    | some e0 => simp [hg] at he
  | _ => exact he

theorem move_winners {env : Env} {height version : Int} {i : Nat} {g g' : Group}
    (h : Move env height version i g g') :
    winners g'.log = winners g.log ∨
    ∃ parentHash t rest, g.units[i]? = some (.loop parentHash (t :: rest)) ∧
      env.MessageCid t.Msg ∉ g.sm ∧ winners g'.log = winners g.log ++ [(i, t.Msg)] := by
  rcases move_obs h with ⟨_, hobs⟩ | ⟨parentHash, t, rest, hu, _, _, hobs⟩ |
    ⟨parentHash, t, rest, hu, hnin, _, hobs⟩
  · left
    unfold winners
    rw [hobs]
  · left
    rw [winners_snoc g'.log _ _ hobs]
    simp [winners]
  · right
    refine ⟨parentHash, t, rest, hu, hnin, ?_⟩
    rw [winners_snoc g'.log _ _ hobs]
    simp [winners]

theorem step_midInv {env : Env} {height version : Int} {messages : List ApiMessage}
    {P : List Nat} {c : Nat} {g : Group}
    (inv : MidInv env height version messages P c g) :
    MidInv env height version messages P c (step env height version c g) := by
  have hm := step_move env height version c g
  refine ⟨⟨move_traceInv hm inv.all.trace, move_obsInv hm inv.all.trace inv.all.obs,
    move_recInv hm inv.all.trace inv.all.recs⟩, (move_length hm).trans inv.len, ?_, ?_, ?_⟩
  · intro j u hj hu
    rw [move_other hm j (Ne.symm hj)] at hu
    exact inv.others j u hj hu
  · intro j hj u hu
    have hex : ∃ u0, g.units[j]? = some u0 := by
      have hlt := lt_of_getElem?_some hu
      rw [move_length hm] at hlt
      exact ⟨_, List.getElem?_eq_getElem hlt⟩
    rcases hex with ⟨u0, hu0⟩
    have := inv.donePrev j hj u0 hu0
    subst this
    rw [step_done env height version c j g hu0] at hu
    cases hu
    rfl
  · intro herr
    have herr0 := move_err_mono hm herr
    have hold := inv.first herr0
    rcases move_winners hm with hw | ⟨parentHash, t, rest, hu, hnin, hw⟩
    · intro w hwin
      rw [hw] at hwin
      exact hold w hwin
    · intro w hwin
      rw [hw] at hwin
      rcases List.mem_append.1 hwin with hwin | hwin
      · exact hold w hwin
      · rw [List.mem_singleton.1 hwin]
        refine ⟨P, [], rfl, ?_⟩
        intro i hi m hmi t0 ht0 hkey
        have hlt : i < g.units.length := by
          rw [inv.len]
          exact lt_of_getElem?_some hmi
        have hui : g.units[i]? = some g.units[i] := List.getElem?_eq_getElem hlt
        have hd := inv.donePrev i hi _ hui
        rw [hd] at hui
        rcases inv.all.recs.cover i _ m hui hmi t0 ht0 with a | b | ⟨e, c0⟩ | d
        · simp [todo] at a
        · rw [hkey] at b
          exact hnin b
        · cases c0
        · exact d herr0

theorem iterate_midInv {env : Env} {height version : Int} {messages : List ApiMessage}
    {P : List Nat} {c : Nat} :
    ∀ (k : Nat) (g : Group), MidInv env height version messages P c g →
      MidInv env height version messages P c ((step env height version c)^[k] g) := by
  intro k
  induction k with
  | zero => intro g h; simpa using h
  | succ k ih =>
    intro g h
    rw [Function.iterate_succ_apply]
    exact ih _ (step_midInv h)

theorem firstIn_extend {env : Env} {messages : List ApiMessage} {P : List Nat} (c : Nat)
    {log : List Event} (h : FirstIn env messages P log) :
    FirstIn env messages (P ++ [c]) log := by
  intro w hw
  rcases h w hw with ⟨A, B, hP, hA⟩
  exact ⟨A, B ++ [c], by rw [hP]; simp, hA⟩

/-- One goroutine of a sequential run: after enough actions of goroutine `c` the
sequential invariant holds with `c` added to the goroutines that have run. -/
theorem block_seqInv {env : Env} {height version : Int} {messages : List ApiMessage}
    {P : List Nat} (c k : Nat) {g : Group}
    (inv : SeqInv env height version messages P g)
    (hk : ∀ u, g.units[c]? = some u → remaining env u ≤ k) :
    SeqInv env height version messages (P ++ [c])
      ((step env height version c)^[k] g) := by
  have mid : MidInv env height version messages P c g :=
    ⟨inv.all, inv.len, fun j u _ hu => inv.idle j u hu, inv.donePrev,
      fun herr => firstIn_extend c (inv.first herr)⟩
  have mid' := iterate_midInv k g mid
  have hc : ∀ u, ((step env height version c)^[k] g).units[c]? = some u →
      u = UnitState.done := by
    intro u hu
    have hlt := lt_of_getElem?_some hu
    rw [mid'.len, ← inv.len] at hlt
    have hu0 : g.units[c]? = some g.units[c] := List.getElem?_eq_getElem hlt
    rw [iterate_step_done env height version c k g _ hu0 (hk _ hu0)] at hu
    cases hu
    rfl
  refine ⟨mid'.all, mid'.len, ?_, ?_, mid'.first⟩
  · intro j u hu
    by_cases hj : j = c
    · subst hj
      exact Or.inl (hc u hu)
    · exact mid'.others j u hj hu
  · intro j hj u hu
    rcases List.mem_append.1 hj with hj | hj
    · exact mid'.donePrev j hj u hu
    · rw [List.mem_singleton.1 hj] at hu
      exact hc u hu

theorem runSched_append (env : Env) (height version : Int) (l1 l2 : List Nat) (g : Group) :
    runSched env height version (l1 ++ l2) g =
      runSched env height version l2 (runSched env height version l1 g) := by
  simp [runSched, List.foldl_append]

theorem runSched_replicate (env : Env) (height version : Int) (i : Nat) :
    ∀ (k : Nat) (g : Group),
      runSched env height version (List.replicate k i) g =
        (step env height version i)^[k] g := by
  intro k
  induction k with
  | zero => intro g; rfl
  | succ k ih =>
    intro g
    rw [Function.iterate_succ_apply, ← ih]
    rfl

theorem seqSchedule_seqInv {env : Env} {height version : Int} {messages : List ApiMessage} :
    ∀ (order P : List Nat) (g : Group), SeqInv env height version messages P g →
      SeqInv env height version messages (P ++ order)
        (runSched env height version (seqSchedule env messages order) g) := by
  intro order
  induction order with
  | nil =>
    intro P g inv
    simpa [seqSchedule, runSched] using inv
  | cons c rest ih =>
    intro P g inv
    have hsplit : seqSchedule env messages (c :: rest) =
        (match messages[c]? with
          | none => []
          | some m => List.replicate (remaining env (.start m.Cid)) c) ++
        seqSchedule env messages rest := by
      simp [seqSchedule, List.flatMap_cons]
    rw [hsplit, runSched_append]
    have hP : P ++ c :: rest = (P ++ [c]) ++ rest := by simp
    rw [hP]
    apply ih
    cases hm : messages[c]? with
    | none =>
      have := block_seqInv c 0 inv (by
        intro u hu
        have hlt := lt_of_getElem?_some hu
        rw [inv.len] at hlt
        rw [List.getElem?_eq_getElem hlt] at hm
        cases hm)
      simpa [runSched] using this
    | some m =>
      simp only
      rw [runSched_replicate]
      apply block_seqInv c _ inv
      intro u hu
      rcases inv.idle c u hu with rfl | ⟨m0, hm0, rfl⟩
      · simp [remaining]
      · rw [hm] at hm0
        cases hm0
        exact le_refl _

theorem foldl_drain_seqInv {env : Env} {height version : Int} {messages : List ApiMessage} :
    ∀ (l P : List Nat) (g : Group), SeqInv env height version messages P g →
      SeqInv env height version messages (P ++ l) (l.foldl (drain env height version) g) := by
  intro l
  induction l with
  | nil =>
    intro P g inv
    simpa using inv
  | cons c rest ih =>
    intro P g inv
    have hP : P ++ c :: rest = (P ++ [c]) ++ rest := by simp
    rw [hP, List.foldl_cons]
    apply ih
    unfold drain
    cases hu : g.units[c]? with
    | none =>
      have := block_seqInv c 0 inv (by
        intro u hu0
        rw [hu] at hu0
        cases hu0)
      simpa using this
    | some u =>
      simp only
      apply block_seqInv c _ inv
      intro u0 hu0
      rw [hu] at hu0
      cases hu0
      exact le_refl _

theorem spawn_seqInv (env : Env) (height version : Int) (messages : List ApiMessage)
    (log : List Event) (hlog : observations log = []) :
    SeqInv env height version messages [] (spawn log messages) := by
  refine ⟨⟨spawn_traceInv env height version log messages, spawn_obsInv env messages log hlog,
    spawn_recInv env height version messages log hlog⟩, by simp [spawn], ?_, ?_, ?_⟩
  · intro j u hu
    right
    simp only [spawn, List.getElem?_map] at hu
    cases hm : messages[j]? with
    | none => simp [hm] at hu
    | some m =>
      simp only [hm, Option.map_some', Option.some.injEq] at hu
      exact ⟨m, rfl, hu.symm⟩
  · intro j hj
    cases hj
  · intro _ w hw
    simp [spawn, winners, hlog] at hw

/-- A sequential run: at the join, every key was stored by the first goroutine, in
the order `order` followed by the index order, whose trace holds that key. -/
theorem wait_sequential (env : Env) (height version : Int) (messages : List ApiMessage)
    (log : List Event) (hlog : observations log = []) (order : List Nat)
    (herr : (wait env height version (seqSchedule env messages order)
      (spawn log messages)).err = none) :
    FirstIn env messages (order ++ List.range messages.length)
      (wait env height version (seqSchedule env messages order) (spawn log messages)).log := by
  have h1 := seqSchedule_seqInv order [] _ (spawn_seqInv env height version messages log hlog)
  have h2 := foldl_drain_seqInv
    (List.range (runSched env height version (seqSchedule env messages order)
      (spawn log messages)).units.length) _ _ h1
  have hlen := h1.len
  simp only [List.nil_append] at h2 hlen
  rw [hlen] at h2
  unfold wait finish at herr ⊢
  rw [hlen] at herr ⊢
  exact h2.first herr

theorem mem_winners {log : List Event} {w : Nat × Message} (h : w ∈ winners log) :
    (w.1, w.2, false) ∈ observations log := by
  unfold winners at h
  rcases List.mem_filterMap.1 h with ⟨o, ho, hw⟩
  rcases o with ⟨i, sub, loaded⟩
  cases loaded with
  | true => simp at hw
  | false =>
    simp at hw
    rw [← hw]
    exact ho

/-- The `LoadOrStore` calls in the log of a run that returns nil are those made before
the join. -/
theorem persist_observations (env : Env) (height version : Int) (g : Group) :
    observations (persist env height version g).log = observations g.log := by
  rcases persist_cases env height version g with ⟨e, _, h⟩ | ⟨_, _, h⟩ | ⟨_, _, h⟩
  · rw [h]
  · rw [h]
  · rw [h]
    simp [observations_append, observations]

theorem persist_err (env : Env) (height version : Int) (g : Group)
    (h : (persist env height version g).ret = none) : g.err = none := by
  rcases persist_cases env height version g with ⟨e, _, hp⟩ | ⟨he, _, _⟩ | ⟨he, _, _⟩
  · rw [hp] at h
    simp at h
  · exact he
  · exact he

/-- A schedule that already lets every goroutine reach its end is not extended by the
join: `wait` adds actions only for goroutines that are still running. -/
theorem finish_of_done (env : Env) (height version : Int) (g : Group)
    (h : ∀ u ∈ g.units, u = UnitState.done) : finish env height version g = g := by
  unfold finish
  have key : ∀ (l : List Nat), l.foldl (drain env height version) g = g := by
    intro l
    induction l with
    | nil => rfl
    | cons c rest ih =>
      have hd : drain env height version g c = g := by
        unfold drain
        cases hu : g.units[c]? with
        | none => rfl
        | some u =>
          have := h u (List.mem_iff_getElem?.2 ⟨c, hu⟩)
          subst this
          rfl
      rw [List.foldl_cons, hd]
      exact ih
  exact key _

/-- A sub-call of a trace whose `From` or `To` has no Ethereum form makes the run fail,
provided sub-calls of the traces with the same identifier have the same addresses. -/
theorem untranslatable_aborts (env : Env) (version : Int) (tipSet parentTs : TipSet)
    (force : Bool) (sched : List Nat) (messages : List ApiMessage) (m : ApiMessage)
    (invocs : InvocResult) (t : ExecutionTrace)
    (h0 : tipSet.Height ≠ 0) (hp : env.ChainGetTipSet tipSet.Parents = .ok parentTs)
    (hs : force = true ∨ env.Existed parentTs.Height version = .ok false)
    (hm : env.ChainGetMessagesInTipset parentTs.Key = .ok messages)
    (hmem : m ∈ messages) (hrep : env.StateReplay m.Cid = .ok invocs)
    (ht : t ∈ invocs.ExecutionTrace.Subcalls)
    (hinj : ∀ m1 ∈ messages, ∀ t1 ∈ subcallsOf env m1.Cid,
      ∀ m2 ∈ messages, ∀ t2 ∈ subcallsOf env m2.Cid,
        env.MessageCid t1.Msg = env.MessageCid t2.Msg →
        t1.Msg.From = t2.Msg.From ∧ t1.Msg.To = t2.Msg.To)
    (hbad : (∃ e, env.EthAddressFromFilecoinAddress t.Msg.From = .error e) ∨
      ∃ e, env.EthAddressFromFilecoinAddress t.Msg.To = .error e) :
    (Run env version tipSet force sched).ret ≠ none ∧
    ∀ ev ∈ (Run env version tipSet force sched).log, ev.isWrite = false := by
  have hrun := run_reach env version tipSet parentTs force sched messages h0 hp hs hm
  rw [hrun]
  have hpre := preamble_facts tipSet parentTs version force
  have hobs0 := observations_preamble tipSet parentTs version force
  rcases joined env parentTs.Height version sched _ messages (fun ev h => (hpre ev h).1) _ rfl
    with ⟨⟨evs, hl1, hl2⟩, _, _, _⟩
  have hclean := joined_clean env parentTs.Height version sched _ messages hobs0 _ rfl
  have hinv := wait_allInv env parentTs.Height version sched _ messages hobs0
  generalize wait env parentTs.Height version sched
    (spawn (preamble tipSet parentTs version force) messages) = g at *
  have hnw : ∀ ev ∈ g.log, ev.isWrite = false := by
    intro ev hev
    rw [hl1] at hev
    rcases List.mem_append.1 hev with hev | hev
    · exact (hpre ev hev).2.2
    · exact (isUnit_facts (hl2 ev hev)).1
  have herr : g.err ≠ none := by
    intro herr
    rcases hclean herr with ⟨_, hall, _, hkeys, _⟩
    have htm : t ∈ subcallsOf env m.Cid := by simpa [subcallsOf, hrep] using ht
    have hk : env.MessageCid t.Msg ∈ subcallIds env messages := by
      simp only [subcallIds, List.mem_flatMap, List.mem_map]
      exact ⟨m, hmem, t, htm, rfl⟩
    rcases List.mem_map.1 ((hkeys _).1 hk) with ⟨w, hw, hwk⟩
    have hsome := hall w hw
    rcases hinv.obs.owner _ (mem_winners hw) with ⟨mw, hmw0, _, tw, htw, htw2⟩
    simp only at hmw0 htw2
    rw [← htw2] at hwk
    rcases hinj mw (List.mem_iff_getElem?.2 ⟨_, hmw0⟩) tw htw m hmem t htm hwk with
      ⟨hfrom, hto⟩
    rw [htw2] at hfrom hto
    unfold recordOf at hsome
    cases hmw : messages[w.1]? with
    | none => simp [hmw] at hsome
    | some m0 =>
      cases hph : env.EthGetTransactionHashByCid m0.Cid with
      | error e => simp [hmw, hph] at hsome
      | ok parentHash =>
        cases hb : buildTx env parentTs.Height version parentHash w.2 with
        | mk evs0 res =>
          cases res with
          | error e => simp [hmw, hph, hb] at hsome
          | ok tx =>
            rcases buildTx_ok hb with ⟨_, frm, toAddr, _, h1, h2, _, _⟩
            rw [hfrom] at h1
            rw [hto] at h2
            rcases hbad with ⟨e, he⟩ | ⟨e, he⟩
            · rw [he] at h1
              cases h1
            · rw [he] at h2
              cases h2
  rcases persist_cases env parentTs.Height version g with
    ⟨e, hge, hpe⟩ | ⟨hge, _, _⟩ | ⟨hge, _, _⟩
  · rw [hpe]
    exact ⟨by simp, hnw⟩
  · exact absurd hge herr
  · exact absurd hge herr

/-! ## The first error handed to the errgroup -/

/-- Anything that every action preserves holds after a schedule. -/
theorem runSched_induct (env : Env) (height version : Int) (P : Group → Prop)
    (hstep : ∀ i g, P g → P (step env height version i g)) :
    ∀ (sched : List Nat) (g : Group), P g → P (runSched env height version sched g) := by
  intro sched
  induction sched with
  | nil => intro g h; simpa [runSched] using h
  | cons a l ih => intro g h; exact ih _ (hstep a g h)

/-- The join only performs actions of the goroutines: the state at the join is the
state after the schedule followed by further actions. -/
theorem wait_eq_runSched (env : Env) (height version : Int) (sched : List Nat) (g : Group) :
    ∃ rest, wait env height version sched g =
      runSched env height version (sched ++ rest) g := by
  have hdrain : ∀ (c : Nat) (g0 : Group), ∃ s,
      drain env height version g0 c = runSched env height version s g0 := by
    intro c g0
    unfold drain
    cases g0.units[c]? with
    | none => exact ⟨[], rfl⟩
    | some u => exact ⟨List.replicate (remaining env u) c, (runSched_replicate _ _ _ _ _ _).symm⟩
  have hfold : ∀ (l : List Nat) (g0 : Group), ∃ s,
      l.foldl (drain env height version) g0 = runSched env height version s g0 := by
    intro l
    induction l with
    | nil => intro g0; exact ⟨[], rfl⟩
    | cons c l ih =>
      intro g0
      rcases hdrain c g0 with ⟨s1, h1⟩
      rcases ih (drain env height version g0 c) with ⟨s2, h2⟩
      exact ⟨s1 ++ s2, by rw [List.foldl_cons, h2, h1, runSched_append]⟩
  rcases hfold (List.range (runSched env height version sched g).units.length)
    (runSched env height version sched g) with ⟨rest, h⟩
  exact ⟨rest, by unfold wait finish; rw [h, runSched_append]⟩

/-- The error kept by the errgroup is never replaced. -/
theorem move_err_stable {env : Env} {height version : Int} {i : Nat} {g g' : Group}
    (hm : Move env height version i g g') (e : Err) (h : g.err = some e) :
    g'.err = some e := by
  cases hm with
  | report e0 h1 => simp [h]
  | _ => exact h

theorem step_err_stable (env : Env) (height version : Int) (i : Nat) (g : Group) (e : Err)
    (h : g.err = some e) : (step env height version i g).err = some e :=
  move_err_stable (step_move env height version i g) e h

theorem runSched_err_stable (env : Env) (height version : Int) (sched : List Nat)
    (g : Group) (e : Err) (h : g.err = some e) :
    (runSched env height version sched g).err = some e :=
  runSched_induct env height version (fun g0 => g0.err = some e)
    (fun i g0 h0 => step_err_stable env height version i g0 e h0) sched g h

/-- The action of a goroutine that returned an error, when the errgroup holds no error
yet, hands that error to the errgroup. -/
theorem move_report {env : Env} {height version : Int} {i : Nat} {g g' : Group}
    (hm : Move env height version i g g') (e : Err)
    (herr : g.err = none) (hu : g.units[i]? = some (UnitState.failed e)) :
    g'.err = some e := by
  cases hm with
  | idle h0 =>
    rcases h0 with h0 | h0 <;> rw [h0] at hu <;> cases hu
  | replayErr c e0 h1 h2 => rw [h1] at hu; cases hu
  | replayOk c invocs h1 h2 => rw [h1] at hu; cases hu
  | hashErr c subcalls e0 h1 h2 => rw [h1] at hu; cases hu
  | hashOk c subcalls parentHash h1 h2 => rw [h1] at hu; cases hu
  | loopEnd parentHash h1 => rw [h1] at hu; cases hu
  | loaded parentHash subCall rest h1 h2 => rw [h1] at hu; cases hu
  | fresh parentHash subCall rest h1 h2 => rw [h1] at hu; cases hu
  | buildErr parentHash sub rest evs e0 h1 h2 => rw [h1] at hu; cases hu
  | buildOk parentHash sub rest evs tx h1 h2 => rw [h1] at hu; cases hu
  | append parentHash tx rest h1 => rw [h1] at hu; cases hu
  | report e0 h1 =>
    rw [h1] at hu
    cases hu
    simp [herr]

theorem step_report (env : Env) (height version : Int) (i : Nat) (g : Group) (e : Err)
    (herr : g.err = none) (hu : g.units[i]? = some (UnitState.failed e)) :
    (step env height version i g).err = some e :=
  move_report (step_move env height version i g) e herr hu

/-- The goroutine of a message whose replay fails has not started, or returned the
replay error wrapped with "StateReplay failed", or is over. -/
theorem move_replayFailed {env : Env} {height version : Int} {messages : List ApiMessage}
    {i : Nat} {g g' : Group} (h : Move env height version i g g')
    (inv : ∀ (j : Nat) (m : ApiMessage) (e0 : Err) (u : UnitState),
      messages[j]? = some m → env.StateReplay m.Cid = .error e0 → g.units[j]? = some u →
      u = UnitState.start m.Cid ∨ u = UnitState.failed (.wrap e0 "StateReplay failed") ∨
        u = UnitState.done) :
    ∀ (j : Nat) (m : ApiMessage) (e0 : Err) (u : UnitState),
      messages[j]? = some m → env.StateReplay m.Cid = .error e0 → g'.units[j]? = some u →
      u = UnitState.start m.Cid ∨ u = UnitState.failed (.wrap e0 "StateReplay failed") ∨
        u = UnitState.done := by
  intro j m e0 u hm hrep hu
  by_cases hij : i = j
  · subst hij
    have old := fun u0 hu0 => inv i m e0 u0 hm hrep hu0
    have hlt : i < g.units.length := by
      have := lt_of_getElem?_some hu
      rwa [move_length h] at this
    cases h with
    | idle h0 => exact old u hu
    | replayErr c e h1 h2 =>
      rw [List.getElem?_set_self hlt] at hu
      cases hu
      rcases old _ h1 with a | a | a
      · cases a
        rw [hrep] at h2
        cases h2
        exact Or.inr (Or.inl rfl)
      · cases a
      · cases a
    | replayOk c invocs h1 h2 =>
      rcases old _ h1 with a | a | a
      · cases a
        rw [hrep] at h2
        cases h2
      · cases a
      · cases a
    | hashErr c subcalls e h1 h2 => rcases old _ h1 with a | a | a <;> cases a
    | hashOk c subcalls parentHash h1 h2 => rcases old _ h1 with a | a | a <;> cases a
    | loopEnd parentHash h1 => rcases old _ h1 with a | a | a <;> cases a
    | loaded parentHash subCall rest h1 h2 => rcases old _ h1 with a | a | a <;> cases a
    | fresh parentHash subCall rest h1 h2 => rcases old _ h1 with a | a | a <;> cases a
    | buildErr parentHash sub rest evs e h1 h2 => rcases old _ h1 with a | a | a <;> cases a
    | buildOk parentHash sub rest evs tx h1 h2 => rcases old _ h1 with a | a | a <;> cases a
    | append parentHash tx rest h1 => rcases old _ h1 with a | a | a <;> cases a
    | report e h1 =>
      rw [List.getElem?_set_self hlt] at hu
      cases hu
      exact Or.inr (Or.inr rfl)
  · rw [move_other h j hij] at hu
    exact inv j m e0 u hm hrep hu

theorem runSched_replayFailed (env : Env) (height version : Int) (sched : List Nat)
    (log : List Event) (messages : List ApiMessage) :
    ∀ (j : Nat) (m : ApiMessage) (e0 : Err) (u : UnitState),
      messages[j]? = some m → env.StateReplay m.Cid = .error e0 →
      (runSched env height version sched (spawn log messages)).units[j]? = some u →
      u = UnitState.start m.Cid ∨ u = UnitState.failed (.wrap e0 "StateReplay failed") ∨
        u = UnitState.done :=
  runSched_induct env height version
    (fun g => ∀ (j : Nat) (m : ApiMessage) (e0 : Err) (u : UnitState),
      messages[j]? = some m → env.StateReplay m.Cid = .error e0 → g.units[j]? = some u →
      u = UnitState.start m.Cid ∨ u = UnitState.failed (.wrap e0 "StateReplay failed") ∨
        u = UnitState.done)
    (fun i g0 h0 => move_replayFailed (step_move env height version i g0) h0) sched
    (spawn log messages)
    (by
      intro j m e0 u hm _ hu
      left
      simp only [spawn, List.getElem?_map, hm, Option.map_some', Option.some.injEq] at hu
      exact hu.symm)

/-- First error wins: on a run that reaches the goroutines, the actions performed are
the schedule followed by the actions of the join, and the first action that hands an
error to the errgroup fixes the error `Run` returns; for the goroutine of a message
whose replay fails this error is the replay error wrapped with "StateReplay failed". -/
theorem first_error_wins (env : Env) (version : Int) (tipSet parentTs : TipSet)
    (force : Bool) (sched : List Nat) (messages : List ApiMessage)
    (h0 : tipSet.Height ≠ 0) (hp : env.ChainGetTipSet tipSet.Parents = .ok parentTs)
    (hs : force = true ∨ env.Existed parentTs.Height version = .ok false)
    (hm : env.ChainGetMessagesInTipset parentTs.Key = .ok messages) :
    ∃ rest,
      (∀ u ∈ (runSched env parentTs.Height version (sched ++ rest)
        (spawn (preamble tipSet parentTs version force) messages)).units,
        u = UnitState.done) ∧
      ∀ s1 i s2 e, sched ++ rest = s1 ++ i :: s2 →
        (runSched env parentTs.Height version s1
          (spawn (preamble tipSet parentTs version force) messages)).err = none →
        (runSched env parentTs.Height version s1
          (spawn (preamble tipSet parentTs version force) messages)).units[i]? =
            some (UnitState.failed e) →
        (Run env version tipSet force sched).ret = some e ∧
        ∀ m e0, messages[i]? = some m → env.StateReplay m.Cid = .error e0 →
          e = .wrap e0 "StateReplay failed" := by
  have hrun := run_reach env version tipSet parentTs force sched messages h0 hp hs hm
  rcases wait_eq_runSched env parentTs.Height version sched
    (spawn (preamble tipSet parentTs version force) messages) with ⟨rest, hw⟩
  refine ⟨rest, ?_, ?_⟩
  · rw [← hw]
    exact wait_all_done env parentTs.Height version sched _
  · intro s1 i s2 e hsplit herr hfail
    have hfinal : (wait env parentTs.Height version sched
        (spawn (preamble tipSet parentTs version force) messages)).err = some e := by
      rw [hw, hsplit, runSched_append]
      exact runSched_err_stable env parentTs.Height version s2 _ e
        (step_report env parentTs.Height version i _ e herr hfail)
    refine ⟨?_, ?_⟩
    · rw [hrun]
      rcases persist_cases env parentTs.Height version
        (wait env parentTs.Height version sched
          (spawn (preamble tipSet parentTs version force) messages)) with
        ⟨e1, hge, hpe⟩ | ⟨hge, _, _⟩ | ⟨hge, _, _⟩
      · rw [hpe]
        rw [hfinal] at hge
        exact hge.symm
      · rw [hfinal] at hge
        cases hge
      · rw [hfinal] at hge
        cases hge
    · intro m e0 hmi hrep
      rcases runSched_replayFailed env parentTs.Height version s1 _ messages i m e0 _ hmi hrep
        hfail with a | a | a
      · cases a
      · cases a
        rfl
      · cases a

/-! ## The claims -/

/-- C5: for a tipset of height 0 `Run` returns nil and makes no collaborator call at
all (the log of calls is empty: no parent lookup, no `Existed` query, no message
fetch, no replay, no write), whatever the version, the force flag, the collaborators and
the schedule. -/
theorem genesis_is_noop (env : Env) (version : Int) (tipSet : TipSet) (force : Bool)
    (sched : List Nat) (h : tipSet.Height = 0) :
    (Run env version tipSet force sched).ret = none ∧
    (Run env version tipSet force sched).log = [] ∧
    (Run env version tipSet force sched).internalTxs = [] := by
  simp [Run, h]

theorem genesis_is_noop_witness :
    (TipSet.mk 0 [] ["g"]).Height = 0 ∧
    (Run exEnv 7 (TipSet.mk 0 [] ["g"]) false [1, 0]).ret = none ∧
    (Run exEnv 7 (TipSet.mk 0 [] ["g"]) false [1, 0]).log = [] ∧
    (Run exEnv 7 (TipSet.mk 0 [] ["g"]) false [1, 0]).internalTxs = [] :=
  ⟨rfl, genesis_is_noop exEnv 7 (TipSet.mk 0 [] ["g"]) false [1, 0] rfl⟩

/-- C6: for a tipset of non-zero height whose parent lookup succeeds, with `force`
false and `Existed` answering true for the parent height and the version, `Run` returns
nil after exactly two calls (the parent lookup and the `Existed` query): no
`ChainGetMessagesInTipset`, no `StateReplay` and no write to the store. -/
theorem existed_skips (env : Env) (version : Int) (tipSet parentTs : TipSet)
    (sched : List Nat)
    (h0 : tipSet.Height ≠ 0) (hp : env.ChainGetTipSet tipSet.Parents = .ok parentTs)
    (he : env.Existed parentTs.Height version = .ok true) :
    (Run env version tipSet false sched).ret = none ∧
    (Run env version tipSet false sched).log =
      [.chainGetTipSet tipSet.Parents none, .existed parentTs.Height version (.ok true)] ∧
    ∀ ev ∈ (Run env version tipSet false sched).log,
      ev.isGetMessages = false ∧ ev.isReplay = false ∧ ev.isWrite = false := by
  simp [Run, h0, hp, he, Event.isGetMessages, Event.isReplay, Event.isWrite]

theorem existed_skips_witness :
    exTipSet.Height ≠ 0 ∧
    exEnv.ChainGetTipSet exTipSet.Parents = .ok { Height := 99, Parents := [], Key := ["p"] } ∧
    exEnv.Existed 99 7 = .ok true ∧
    (Run exEnv 7 exTipSet false [0, 1]).ret = none ∧
    (Run exEnv 7 exTipSet false [0, 1]).log =
      [.chainGetTipSet exTipSet.Parents none, .existed 99 7 (.ok true)] ∧
    ∀ ev ∈ (Run exEnv 7 exTipSet false [0, 1]).log,
      ev.isGetMessages = false ∧ ev.isReplay = false ∧ ev.isWrite = false :=
  ⟨by decide, rfl, rfl,
    existed_skips exEnv 7 exTipSet { Height := 99, Parents := [], Key := ["p"] } [0, 1]
      (by decide) rfl rfl⟩

/-- C9: with `force` true the log of a run never contains an `Existed` query, whatever
the tipset, the collaborators, the schedule and the outcome; with `force` false, on a
tipset of non-zero height whose parent lookup succeeds, the log contains exactly one
`Existed` query, made with the parent tipset's height and the supplied version. -/
theorem existed_queries (env : Env) (version : Int) (tipSet : TipSet) (sched : List Nat) :
    (∀ ev ∈ (Run env version tipSet true sched).log, ev.isExisted = false) ∧
    ∀ parentTs, tipSet.Height ≠ 0 → env.ChainGetTipSet tipSet.Parents = .ok parentTs →
      (Run env version tipSet false sched).log.filter Event.isExisted =
        [.existed parentTs.Height version (env.Existed parentTs.Height version)] := by
  constructor
  · intro ev hev
    rcases run_cases env version tipSet true sched with
      ⟨_, hr⟩ | ⟨e, hr⟩ | ⟨p, e, hf, _⟩ | ⟨p, hf, _⟩ | ⟨p, _, _, _, hr⟩ | ⟨p, _, _, hf, _⟩
    · rw [hr] at hev; simp at hev
    · rw [hr] at hev
      simp at hev
      rw [hev]; rfl
    · cases hf
    · cases hf
    · rw [hr] at hev
      rcases extract_log env version p sched [.chainGetTipSet tipSet.Parents none] with
        ⟨evs, h1, h2⟩
      rw [h1] at hev
      rcases List.mem_append.1 hev with hev | hev
      · simp at hev
        rw [hev]; rfl
      · exact (h2 ev hev).1
    · cases hf
  · intro parentTs h0 hp
    unfold Run
    simp only [h0, if_false, hp]
    cases he : env.Existed parentTs.Height version with
    | error e => simp [Event.isExisted]
    | ok b =>
      cases b with
      | true => simp [Event.isExisted]
      | false =>
        simp only [Bool.false_eq_true, if_false]
        rcases extract_log env version parentTs sched
          [.chainGetTipSet tipSet.Parents none, .existed parentTs.Height version (.ok false)]
          with ⟨evs, h1, h2⟩
        rw [h1, List.filter_append]
        have : evs.filter Event.isExisted = [] := by
          rw [List.filter_eq_nil_iff]
          intro ev hev
          simp [(h2 ev hev).1]
        rw [this]
        simp [Event.isExisted]

/-- C3: a run in which a call of `EthAddressFromFilecoinAddress` (for the `From` or the
`To` of a sub-call) fails returns an error, and its log contains no call of
`DelOldVersionAndWriteMany`, under every schedule.  The same holds for every run that
reaches the goroutines when an immediate sub-call of the trace of some message has a
`From` or `To` without Ethereum form, given that sub-calls of the traces with the same
identifier (a hash of their content) have the same addresses. -/
theorem translation_failure_aborts (env : Env) (version : Int) (tipSet : TipSet)
    (force : Bool) (sched : List Nat) :
    ((∃ ev ∈ (Run env version tipSet force sched).log, ev.isTranslateFailure = true) →
      (Run env version tipSet force sched).ret ≠ none ∧
      ∀ ev ∈ (Run env version tipSet force sched).log, ev.isWrite = false) ∧
    (∀ parentTs messages, tipSet.Height ≠ 0 →
      env.ChainGetTipSet tipSet.Parents = .ok parentTs →
      (force = true ∨ env.Existed parentTs.Height version = .ok false) →
      env.ChainGetMessagesInTipset parentTs.Key = .ok messages →
      (∀ m1 ∈ messages, ∀ t1 ∈ subcallsOf env m1.Cid,
        ∀ m2 ∈ messages, ∀ t2 ∈ subcallsOf env m2.Cid,
          env.MessageCid t1.Msg = env.MessageCid t2.Msg →
          t1.Msg.From = t2.Msg.From ∧ t1.Msg.To = t2.Msg.To) →
      ∀ m ∈ messages, ∀ invocs, env.StateReplay m.Cid = .ok invocs →
      ∀ t ∈ invocs.ExecutionTrace.Subcalls,
        ((∃ e, env.EthAddressFromFilecoinAddress t.Msg.From = .error e) ∨
          ∃ e, env.EthAddressFromFilecoinAddress t.Msg.To = .error e) →
        (Run env version tipSet force sched).ret ≠ none ∧
        ∀ ev ∈ (Run env version tipSet force sched).log, ev.isWrite = false) := by
  constructor
  · rintro ⟨ev, hmem, hev⟩
    have := run_unit_failure env version tipSet force sched
      ⟨ev, hmem, isUnit_of_isTranslateFailure hev⟩
    exact ⟨this.1, this.2.2⟩
  · intro parentTs messages h0 hp hs hm hinj m hmem invocs hrep t ht hbad
    exact untranslatable_aborts env version tipSet parentTs force sched messages m invocs t
      h0 hp hs hm hmem hrep ht hinj hbad

theorem translation_failure_aborts_witness :
    (∃ ev ∈ (Run failEnv 7 exTipSet true [1, 0, 0]).log, ev.isTranslateFailure = true) ∧
    ((Run failEnv 7 exTipSet true [1, 0, 0]).ret ≠ none ∧
      ∀ ev ∈ (Run failEnv 7 exTipSet true [1, 0, 0]).log, ev.isWrite = false) ∧
    (∀ m1 ∈ exMessages, ∀ t1 ∈ subcallsOf failEnv m1.Cid,
      ∀ m2 ∈ exMessages, ∀ t2 ∈ subcallsOf failEnv m2.Cid,
        failEnv.MessageCid t1.Msg = failEnv.MessageCid t2.Msg →
        t1.Msg.From = t2.Msg.From ∧ t1.Msg.To = t2.Msg.To) ∧
    ((Run failEnv 7 exTipSet true [1, 0, 0]).ret ≠ none ∧
      ∀ ev ∈ (Run failEnv 7 exTipSet true [1, 0, 0]).log, ev.isWrite = false) :=
  ⟨by decide, (translation_failure_aborts failEnv 7 exTipSet true [1, 0, 0]).1 (by decide),
    by simp [exMessages, subcallsOf, failEnv, ExecutionTrace.Subcalls, ExecutionTrace.Msg],
    (translation_failure_aborts failEnv 7 exTipSet true [1, 0, 0]).2 exParent exMessages
      (by decide) rfl (Or.inl rfl) rfl (by simp [exMessages, subcallsOf, failEnv, ExecutionTrace.Subcalls, ExecutionTrace.Msg])
      ⟨"A"⟩ (by decide) _ rfl
      (.mk { From := "bad", To := "f2", Nonce := 1, Value := 5, Method := 0 } [])
      (by simp [ExecutionTrace.Subcalls])
      (Or.inl ⟨.base "no mapping", rfl⟩)⟩

theorem existed_queries_witness :
    (∀ ev ∈ (Run failEnv 7 exTipSet true [0, 1]).log, ev.isExisted = false) ∧
    (Run failEnv 7 exTipSet false [0, 1]).log.filter Event.isExisted =
      [.existed 99 7 (.ok false)] :=
  ⟨(existed_queries failEnv 7 exTipSet [0, 1]).1,
    (existed_queries failEnv 7 exTipSet [0, 1]).2 exParent (by decide) rfl⟩

/-- C4, counterexample: with `force` false, `Existed` answering false, message `A`
holding a sub-call whose address has no Ethereum form and the replay of message `B`
failing, the run contains a failed replay, yet the store was queried (`Existed`) and
the error returned is the address error of `A`, which the errgroup recorded first, not
the wrapped replay error. -/
theorem replay_failure_counterexample :
    (∃ ev ∈ (Run failEnv 7 exTipSet false []).log, ev.isReplayFailure = true) ∧
    (∃ ev ∈ (Run failEnv 7 exTipSet false []).log, ev.isExisted = true) ∧
    (Run failEnv 7 exTipSet false []).ret =
      some (.wrap (.base "no mapping") "EthAddressFromFilecoinAddress failed") := by
  decide

/-- C4, amended: a run in which a `StateReplay` fails (on a run that reaches the
goroutines the failed replay of a message is a call of the run) returns an error and
its log contains no call of `DelOldVersionAndWriteMany`.  The error returned is the
first error handed to the errgroup: the actions performed are the schedule followed by
the actions of the join, and the first action that hands over its goroutine's error,
the errgroup holding none yet, fixes the error `Run` returns.  It is the replay error
wrapped with "StateReplay failed" when that goroutine is the one of a message whose
replay fails (in particular when replays are the only calls that failed), and otherwise
the wrapped error of another failed goroutine call.  With `force` true the log holds no
`Existed` query; with `force` false it holds exactly one, as the second call of the
run, right after the parent lookup and before the message fetch and every replay. -/
theorem replay_failure_aborts (env : Env) (version : Int) (tipSet : TipSet)
    (force : Bool) (sched : List Nat) :
    (∀ parentTs messages, tipSet.Height ≠ 0 →
      env.ChainGetTipSet tipSet.Parents = .ok parentTs →
      (force = true ∨ env.Existed parentTs.Height version = .ok false) →
      env.ChainGetMessagesInTipset parentTs.Key = .ok messages →
      ∀ m ∈ messages, ∀ e, env.StateReplay m.Cid = .error e →
        Event.stateReplay m.Cid (some e) ∈ (Run env version tipSet force sched).log) ∧
    ((∃ ev ∈ (Run env version tipSet force sched).log, ev.isReplayFailure = true) →
      (Run env version tipSet force sched).ret ≠ none ∧
      (∃ ev ∈ (Run env version tipSet force sched).log,
        ev.isUnit = true ∧ ev.failure = (Run env version tipSet force sched).ret) ∧
      ((∀ ev ∈ (Run env version tipSet force sched).log,
          ev.failure ≠ none → ev.isReplayFailure = true) →
        ∃ c e, Event.stateReplay c (some e) ∈ (Run env version tipSet force sched).log ∧
          (Run env version tipSet force sched).ret = some (.wrap e "StateReplay failed")) ∧
      (∀ ev ∈ (Run env version tipSet force sched).log, ev.isWrite = false) ∧
      (force = true →
        ∀ ev ∈ (Run env version tipSet force sched).log, ev.isExisted = false) ∧
      (force = false →
        ∃ parentTs evs, env.ChainGetTipSet tipSet.Parents = .ok parentTs ∧
          (Run env version tipSet force sched).log =
            .chainGetTipSet tipSet.Parents none ::
              .existed parentTs.Height version (.ok false) :: evs ∧
          ∀ ev ∈ evs, ev.isExisted = false) ∧
      ((Run env version tipSet force sched).log.filter Event.isExisted).length =
        (if force then 0 else 1)) ∧
    (∀ parentTs messages, tipSet.Height ≠ 0 →
      env.ChainGetTipSet tipSet.Parents = .ok parentTs →
      (force = true ∨ env.Existed parentTs.Height version = .ok false) →
      env.ChainGetMessagesInTipset parentTs.Key = .ok messages →
      ∃ rest,
        (∀ u ∈ (runSched env parentTs.Height version (sched ++ rest)
          (spawn (preamble tipSet parentTs version force) messages)).units,
          u = UnitState.done) ∧
        ∀ s1 i s2 e, sched ++ rest = s1 ++ i :: s2 →
          (runSched env parentTs.Height version s1
            (spawn (preamble tipSet parentTs version force) messages)).err = none →
          (runSched env parentTs.Height version s1
            (spawn (preamble tipSet parentTs version force) messages)).units[i]? =
              some (UnitState.failed e) →
          (Run env version tipSet force sched).ret = some e ∧
          ∀ m e0, messages[i]? = some m → env.StateReplay m.Cid = .error e0 →
            e = .wrap e0 "StateReplay failed") := by
  refine ⟨fun parentTs messages h0 hp hs hm m hmem e hrep =>
    replay_error_logged env version tipSet parentTs force sched messages h0 hp hs hm m hmem e
      hrep, ?_, fun parentTs messages h0 hp hs hm =>
    first_error_wins env version tipSet parentTs force sched messages h0 hp hs hm⟩
  rintro ⟨ev, hmem, hev⟩
  have hu : ∃ ev ∈ (Run env version tipSet force sched).log,
      ev.isUnit = true ∧ ev.failure ≠ none := ⟨ev, hmem, isUnit_of_isReplayFailure hev⟩
  rcases run_unit_failure env version tipSet force sched hu with ⟨h1, ⟨ev1, hm1, hu1, hf1⟩, h3⟩
  have hshape : (force = true →
        ∀ ev ∈ (Run env version tipSet force sched).log, ev.isExisted = false) ∧
      (force = false →
        ∃ parentTs evs, env.ChainGetTipSet tipSet.Parents = .ok parentTs ∧
          (Run env version tipSet force sched).log =
            .chainGetTipSet tipSet.Parents none ::
              .existed parentTs.Height version (.ok false) :: evs ∧
          ∀ ev ∈ evs, ev.isExisted = false) ∧
      ((Run env version tipSet force sched).log.filter Event.isExisted).length =
        (if force then 0 else 1) := by
    rcases run_cases env version tipSet force sched with
      ⟨_, hr⟩ | ⟨e, hr⟩ | ⟨p, e, _, hr⟩ | ⟨p, _, hr⟩ | ⟨p, _, hp, hf, hr⟩ |
      ⟨p, _, hp, hf, _, hr⟩
    · rw [hr] at hu; simp at hu
    · rw [hr] at hu; simp [Event.isUnit] at hu
    · rw [hr] at hu; simp [Event.isUnit] at hu
    · rw [hr] at hu; simp [Event.isUnit] at hu
    · rcases extract_log env version p sched [.chainGetTipSet tipSet.Parents none] with
        ⟨evs, h4, h5⟩
      have hfil : evs.filter Event.isExisted = [] := by
        rw [List.filter_eq_nil_iff]
        intro ev hev
        simp [(h5 ev hev).1]
      refine ⟨?_, ?_, ?_⟩
      · intro _ ev hev
        rw [hr, h4] at hev
        rcases List.mem_append.1 hev with hev | hev
        · rw [List.mem_singleton.1 hev]; rfl
        · exact (h5 ev hev).1
      · intro hff
        rw [hf] at hff
        cases hff
      · rw [hr, h4, List.filter_append, hfil, hf]
        simp [Event.isExisted]
    · rcases extract_log env version p sched
        [.chainGetTipSet tipSet.Parents none, .existed p.Height version (.ok false)] with
        ⟨evs, h4, h5⟩
      have hfil : evs.filter Event.isExisted = [] := by
        rw [List.filter_eq_nil_iff]
        intro ev hev
        simp [(h5 ev hev).1]
      refine ⟨?_, ?_, ?_⟩
      · intro hff
        rw [hf] at hff
        cases hff
      · intro _
        exact ⟨p, evs, hp, by rw [hr, h4]; rfl, fun ev hev => (h5 ev hev).1⟩
      · rw [hr, h4, List.filter_append, hfil, hf]
        simp [Event.isExisted]
  refine ⟨h1, ⟨ev1, hm1, hu1, hf1⟩, ?_, h3, hshape⟩
  intro hall
  have hne : ev1.failure ≠ none := by rw [hf1]; exact h1
  have hr := hall ev1 hm1 hne
  cases ev1 with
  | stateReplay c err =>
    cases err with
    | none => simp [Event.isReplayFailure] at hr
    | some e => exact ⟨c, e, hm1, by rw [← hf1]; rfl⟩
  | _ => simp [Event.isReplayFailure] at hr

theorem replay_failure_aborts_witness :
    Event.stateReplay "B" (some (.base "replay unavailable")) ∈
      (Run replayFailEnv 7 exTipSet false [0, 1, 0]).log ∧
    (∃ ev ∈ (Run replayFailEnv 7 exTipSet false [0, 1, 0]).log, ev.isReplayFailure = true) ∧
    (∀ ev ∈ (Run replayFailEnv 7 exTipSet false [0, 1, 0]).log,
      ev.failure ≠ none → ev.isReplayFailure = true) ∧
    (Run replayFailEnv 7 exTipSet false [0, 1, 0]).ret ≠ none ∧
    (∃ c e, Event.stateReplay c (some e) ∈ (Run replayFailEnv 7 exTipSet false [0, 1, 0]).log ∧
      (Run replayFailEnv 7 exTipSet false [0, 1, 0]).ret =
        some (.wrap e "StateReplay failed")) ∧
    (∀ ev ∈ (Run replayFailEnv 7 exTipSet false [0, 1, 0]).log, ev.isWrite = false) ∧
    (∃ parentTs evs, replayFailEnv.ChainGetTipSet exTipSet.Parents = .ok parentTs ∧
      (Run replayFailEnv 7 exTipSet false [0, 1, 0]).log =
        .chainGetTipSet exTipSet.Parents none ::
          .existed parentTs.Height 7 (.ok false) :: evs ∧
      ∀ ev ∈ evs, ev.isExisted = false) ∧
    (Run failEnv 7 exTipSet false [1, 1]).ret =
      some (.wrap (.base "replay unavailable") "StateReplay failed") ∧
    (Run failEnv 7 exTipSet false [0, 0, 0, 0, 0]).ret =
      some (.wrap (.base "no mapping") "EthAddressFromFilecoinAddress failed") := by
  have hB := (replay_failure_aborts replayFailEnv 7 exTipSet false [0, 1, 0]).2.1 (by decide)
  refine ⟨(replay_failure_aborts replayFailEnv 7 exTipSet false [0, 1, 0]).1 exParent
      exMessages (by decide) rfl (Or.inr rfl) rfl ⟨"B"⟩ (by decide)
      (.base "replay unavailable") rfl,
    by decide, by decide, hB.1, hB.2.2.1 (by decide), hB.2.2.2.1, hB.2.2.2.2.2.1 rfl, ?_, ?_⟩
  · rcases (replay_failure_aborts failEnv 7 exTipSet false [1, 1]).2.2 exParent exMessages
      (by decide) rfl (Or.inr rfl) rfl with ⟨rest, _, hfirst⟩
    exact (hfirst [1] 1 rest (.wrap (.base "replay unavailable") "StateReplay failed") rfl
      (by decide) rfl).1
  · rcases (replay_failure_aborts failEnv 7 exTipSet false [0, 0, 0, 0, 0]).2.2 exParent
      exMessages (by decide) rfl (Or.inr rfl) rfl with ⟨rest, _, hfirst⟩
    exact (hfirst [0, 0, 0, 0] 0 rest
      (.wrap (.base "no mapping") "EthAddressFromFilecoinAddress failed") rfl
      (by decide) rfl).1

/-- C7: on a run that reaches the goroutines (non-zero height, parent found, no
idempotent skip, messages fetched) and in which no goroutine call fails,
`DelOldVersionAndWriteMany` is called if and only if at least one record was produced;
when it is called it is called exactly once, with the parent tipset's height, the
supplied version and exactly the records produced; when no record was produced `Run`
returns nil and the log holds no write. -/
theorem write_iff_records (env : Env) (version : Int) (tipSet parentTs : TipSet)
    (force : Bool) (sched : List Nat) (messages : List ApiMessage)
    (h0 : tipSet.Height ≠ 0) (hp : env.ChainGetTipSet tipSet.Parents = .ok parentTs)
    (hs : force = true ∨ env.Existed parentTs.Height version = .ok false)
    (hm : env.ChainGetMessagesInTipset parentTs.Key = .ok messages)
    (hok : ∀ ev ∈ (Run env version tipSet force sched).log,
      ev.isUnit = true → ev.failure = none) :
    ((∃ ev ∈ (Run env version tipSet force sched).log, ev.isWrite = true) ↔
      (Run env version tipSet force sched).internalTxs ≠ []) ∧
    ((Run env version tipSet force sched).internalTxs ≠ [] →
      (Run env version tipSet force sched).log.filter Event.isWrite =
        [.delOldVersionAndWriteMany parentTs.Height version
          (Run env version tipSet force sched).internalTxs
          (env.DelOldVersionAndWriteMany parentTs.Height version
            (Run env version tipSet force sched).internalTxs)]) ∧
    ((Run env version tipSet force sched).internalTxs = [] →
      (Run env version tipSet force sched).ret = none ∧
      (Run env version tipSet force sched).log.filter Event.isWrite = []) := by
  have hrun := run_reach env version tipSet parentTs force sched messages h0 hp hs hm
  rw [hrun] at hok ⊢
  have hpre := preamble_facts tipSet parentTs version force
  rcases joined env parentTs.Height version sched _ messages (fun ev h => (hpre ev h).1) _ rfl
    with ⟨⟨evs, hl1, hl2⟩, hiff, _, _⟩
  generalize wait env parentTs.Height version sched
    (spawn (preamble tipSet parentTs version force) messages) = g at *
  have hnw : ∀ ev ∈ g.log, ev.isWrite = false := by
    intro ev hev
    rw [hl1] at hev
    rcases List.mem_append.1 hev with hev | hev
    · exact (hpre ev hev).2.2
    · exact (isUnit_facts (hl2 ev hev)).1
  have hfil : g.log.filter Event.isWrite = [] := by
    rw [List.filter_eq_nil_iff]
    intro ev hev
    simp [hnw ev hev]
  rcases persist_cases env parentTs.Height version g with
    ⟨e, hge, hpe⟩ | ⟨hge, hnil, hpe⟩ | ⟨hge, hne, hpe⟩
  · exfalso
    rw [hpe] at hok
    have : g.err ≠ none := by simp [hge]
    rcases hiff.1 this with ⟨ev, hev, hf⟩
    rw [hl1] at hev
    rcases List.mem_append.1 hev with hev1 | hev1
    · exact hf (hpre ev hev1).1
    · exact hf (hok ev (by simp [hl1, hev1]) (hl2 ev hev1))
  · rw [hpe]
    refine ⟨⟨?_, fun h => absurd hnil h⟩, fun h => absurd hnil h, fun _ => ⟨rfl, hfil⟩⟩
    rintro ⟨ev, hev, hw⟩
    rw [hnw ev hev] at hw
    cases hw
  · rw [hpe]
    simp only [List.filter_append, hfil]
    refine ⟨⟨fun _ => hne, fun _ => ⟨_, List.mem_append_right _ (List.mem_singleton.2 rfl), rfl⟩⟩,
      fun _ => by simp [Event.isWrite], fun h => absurd h hne⟩

theorem write_iff_records_witness :
    exTipSet.Height ≠ 0 ∧
    ((∃ ev ∈ (Run exEnv 7 exTipSet true [1, 0, 1]).log, ev.isWrite = true) ↔
      (Run exEnv 7 exTipSet true [1, 0, 1]).internalTxs ≠ []) ∧
    ((Run exEnv 7 exTipSet true [1, 0, 1]).internalTxs ≠ [] →
      (Run exEnv 7 exTipSet true [1, 0, 1]).log.filter Event.isWrite =
        [.delOldVersionAndWriteMany 99 7
          (Run exEnv 7 exTipSet true [1, 0, 1]).internalTxs
          (exEnv.DelOldVersionAndWriteMany 99 7
            (Run exEnv 7 exTipSet true [1, 0, 1]).internalTxs)]) ∧
    ((Run exEnv 7 exTipSet true [1, 0, 1]).internalTxs = [] →
      (Run exEnv 7 exTipSet true [1, 0, 1]).ret = none ∧
      (Run exEnv 7 exTipSet true [1, 0, 1]).log.filter Event.isWrite = []) :=
  ⟨by decide,
    write_iff_records exEnv 7 exTipSet { Height := 99, Parents := [], Key := ["p"] } true
      [1, 0, 1] [⟨"A"⟩, ⟨"B"⟩] (by decide) rfl (Or.inl rfl) rfl (by decide)⟩

/-- C8: every record in `internalTxs` when `Run` returns was built from an immediate
sub-call `sub` of the replay trace of a message `m` of the parent tipset: its `Height` is
the parent tipset's height, its `Version` the supplied version, its `Hash` the
`EthHashFromCid` of the sub-call's own cid, its `ParentHash` the
`EthGetTransactionHashByCid` of `m`, its `From` and `To` the translated addresses of the
sub-call, its `Type` the sub-call's method number and its `Value` the decimal string of
the sub-call's value. -/
theorem record_fields (env : Env) (version : Int) (tipSet : TipSet) (force : Bool)
    (sched : List Nat) :
    ∀ tx ∈ (Run env version tipSet force sched).internalTxs,
      ∃ parentTs messages, env.ChainGetTipSet tipSet.Parents = .ok parentTs ∧
        env.ChainGetMessagesInTipset parentTs.Key = .ok messages ∧
      ∃ m ∈ messages, ∃ invocs, env.StateReplay m.Cid = .ok invocs ∧
      ∃ sub ∈ invocs.ExecutionTrace.Subcalls, ∃ parentHash hash frm toAddr,
        env.EthGetTransactionHashByCid m.Cid = .ok parentHash ∧
        env.EthHashFromCid (env.MessageCid sub.Msg) = .ok hash ∧
        env.EthAddressFromFilecoinAddress sub.Msg.From = .ok frm ∧
        env.EthAddressFromFilecoinAddress sub.Msg.To = .ok toAddr ∧
        tx.Height = parentTs.Height ∧ tx.Version = version ∧
        tx.Hash = hash.String ∧ tx.ParentHash = parentHash.String ∧
        tx.From = frm.String ∧ tx.To = toAddr.String ∧
        tx.Typ = sub.Msg.Method ∧ tx.Value = toString sub.Msg.Value := by
  intro tx htx
  have key : ∀ (p : TipSet) (log : List Event), env.ChainGetTipSet tipSet.Parents = .ok p →
      tx ∈ (extract env version p sched log).internalTxs →
      ∃ parentTs messages, env.ChainGetTipSet tipSet.Parents = .ok parentTs ∧
        env.ChainGetMessagesInTipset parentTs.Key = .ok messages ∧
      ∃ m ∈ messages, ∃ invocs, env.StateReplay m.Cid = .ok invocs ∧
      ∃ sub ∈ invocs.ExecutionTrace.Subcalls, ∃ parentHash hash frm toAddr,
        env.EthGetTransactionHashByCid m.Cid = .ok parentHash ∧
        env.EthHashFromCid (env.MessageCid sub.Msg) = .ok hash ∧
        env.EthAddressFromFilecoinAddress sub.Msg.From = .ok frm ∧
        env.EthAddressFromFilecoinAddress sub.Msg.To = .ok toAddr ∧
        tx.Height = parentTs.Height ∧ tx.Version = version ∧
        tx.Hash = hash.String ∧ tx.ParentHash = parentHash.String ∧
        tx.From = frm.String ∧ tx.To = toAddr.String ∧
        tx.Typ = sub.Msg.Method ∧ tx.Value = toString sub.Msg.Value := by
    intro p log hp hmem
    rcases extract_built env version p sched log tx hmem with
      ⟨messages, hm, m, hmm, parentHash, hph, t, ht, evs, hb⟩
    rcases mem_subcallsOf ht with ⟨invocs, hrep, htin⟩
    rcases buildTx_ok hb with ⟨_, frm, toAddr, hash, hfrom, hto, hhash, rfl⟩
    exact ⟨p, messages, hp, hm, m, hmm, invocs, hrep, t, htin, parentHash, hash, frm, toAddr,
      hph, hhash, hfrom, hto, rfl, rfl, rfl, rfl, rfl, rfl, rfl, rfl⟩
  rcases run_cases env version tipSet force sched with
    ⟨_, hr⟩ | ⟨e, hr⟩ | ⟨p, e, _, hr⟩ | ⟨p, _, hr⟩ | ⟨p, _, hp, _, hr⟩ | ⟨p, _, hp, _, _, hr⟩
  · rw [hr] at htx; simp at htx
  · rw [hr] at htx; simp at htx
  · rw [hr] at htx; simp at htx
  · rw [hr] at htx; simp at htx
  · rw [hr] at htx
    exact key p _ hp htx
  · rw [hr] at htx
    exact key p _ hp htx

/-- C1: on a run that reaches the goroutines (non-zero height, parent found, no
idempotent skip, messages fetched) and in which every collaborator call succeeds, under
every schedule of the goroutines: every message was replayed, and with `N` the total
number of immediate sub-calls of the traces and `D` the number of distinct sub-call
identifiers, `D ≤ N`, `Run` returns nil, exactly `D` records are built, every batch
handed to the store holds exactly `D` records, and when `D` is not zero the store
receives exactly one batch, at the parent height and the supplied version. -/
theorem one_record_per_identifier (env : Env) (version : Int) (tipSet parentTs : TipSet)
    (force : Bool) (sched : List Nat) (messages : List ApiMessage)
    (h0 : tipSet.Height ≠ 0) (hp : env.ChainGetTipSet tipSet.Parents = .ok parentTs)
    (hs : force = true ∨ env.Existed parentTs.Height version = .ok false)
    (hm : env.ChainGetMessagesInTipset parentTs.Key = .ok messages)
    (hok : ∀ ev ∈ (Run env version tipSet force sched).log, ev.failure = none) :
    (∀ m ∈ messages, ∃ invocs, env.StateReplay m.Cid = .ok invocs) ∧
    (subcallIds env messages).dedup.length ≤ (subcallIds env messages).length ∧
    (Run env version tipSet force sched).ret = none ∧
    (Run env version tipSet force sched).internalTxs.length =
      (subcallIds env messages).dedup.length ∧
    (∀ h v txs err, Event.delOldVersionAndWriteMany h v txs err ∈
        (Run env version tipSet force sched).log →
      txs.length = (subcallIds env messages).dedup.length) ∧
    ((subcallIds env messages).dedup.length ≠ 0 →
      (Run env version tipSet force sched).log.filter Event.isWrite =
        [.delOldVersionAndWriteMany parentTs.Height version
          (Run env version tipSet force sched).internalTxs none]) := by
  have hrun := run_reach env version tipSet parentTs force sched messages h0 hp hs hm
  rw [hrun] at hok ⊢
  have hpre := preamble_facts tipSet parentTs version force
  have hobs := observations_preamble tipSet parentTs version force
  rcases joined env parentTs.Height version sched _ messages (fun ev h => (hpre ev h).1) _ rfl
    with ⟨⟨evs, hl1, hl2⟩, hiff, _, _⟩
  have hclean := joined_clean env parentTs.Height version sched _ messages hobs _ rfl
  have hrep := joined_replayed env parentTs.Height version sched _ messages
    (fun ev h => (hpre ev h).1)
  generalize wait env parentTs.Height version sched
    (spawn (preamble tipSet parentTs version force) messages) = g at *
  have hnw : ∀ ev ∈ g.log, ev.isWrite = false := by
    intro ev hev
    rw [hl1] at hev
    rcases List.mem_append.1 hev with hev | hev
    · exact (hpre ev hev).2.2
    · exact (isUnit_facts (hl2 ev hev)).1
  have hfil : g.log.filter Event.isWrite = [] := by
    rw [List.filter_eq_nil_iff]
    intro ev hev
    simp [hnw ev hev]
  have hle := List.Sublist.length_le (List.dedup_sublist (subcallIds env messages))
  rcases persist_cases env parentTs.Height version g with
    ⟨e, hge, hpe⟩ | ⟨hge, hnil, hpe⟩ | ⟨hge, hne, hpe⟩
  · exfalso
    rw [hpe] at hok
    have : g.err ≠ none := by simp [hge]
    rcases hiff.1 this with ⟨ev, hev, hf⟩
    exact hf (hok ev hev)
  · rw [hpe]
    have hlen := (hclean hge).2.2.2.2
    refine ⟨hrep hge, hle, rfl, hlen, ?_, ?_⟩
    · intro h v txs err hmem
      have := hnw _ hmem
      simp [Event.isWrite] at this
    · intro hD
      rw [← hlen, hnil] at hD
      simp at hD
  · rw [hpe] at hok ⊢
    have hlen := (hclean hge).2.2.2.2
    have hwrite : env.DelOldVersionAndWriteMany parentTs.Height version g.internalTxs = none := by
      have := hok _ (List.mem_append_right _ (List.mem_singleton.2 rfl))
      cases hw : env.DelOldVersionAndWriteMany parentTs.Height version g.internalTxs with
      | none => rfl
      | some e => rw [hw] at this; simp [Event.failure] at this
    refine ⟨hrep hge, hle, by simp [hwrite], hlen, ?_, ?_⟩
    · intro h v txs err hmem
      rcases List.mem_append.1 hmem with hmem | hmem
      · have := hnw _ hmem
        simp [Event.isWrite] at this
      · simp only [List.mem_singleton, Event.delOldVersionAndWriteMany.injEq] at hmem
        rw [hmem.2.2.1]
        exact hlen
    · intro _
      simp [List.filter_append, hfil, hwrite, Event.isWrite]

theorem one_record_per_identifier_witness :
    (subcallIds exEnv [⟨"A"⟩, ⟨"B"⟩]).length = 4 ∧
    (subcallIds exEnv [⟨"A"⟩, ⟨"B"⟩]).dedup.length = 3 ∧
    (∀ m ∈ [(⟨"A"⟩ : ApiMessage), ⟨"B"⟩], ∃ invocs, exEnv.StateReplay m.Cid = .ok invocs) ∧
    (subcallIds exEnv [⟨"A"⟩, ⟨"B"⟩]).dedup.length ≤ (subcallIds exEnv [⟨"A"⟩, ⟨"B"⟩]).length ∧
    (Run exEnv 7 exTipSet true [1, 0, 0, 1, 1, 0]).ret = none ∧
    (Run exEnv 7 exTipSet true [1, 0, 0, 1, 1, 0]).internalTxs.length =
      (subcallIds exEnv [⟨"A"⟩, ⟨"B"⟩]).dedup.length ∧
    (∀ h v txs err, Event.delOldVersionAndWriteMany h v txs err ∈
        (Run exEnv 7 exTipSet true [1, 0, 0, 1, 1, 0]).log →
      txs.length = (subcallIds exEnv [⟨"A"⟩, ⟨"B"⟩]).dedup.length) ∧
    ((subcallIds exEnv [⟨"A"⟩, ⟨"B"⟩]).dedup.length ≠ 0 →
      (Run exEnv 7 exTipSet true [1, 0, 0, 1, 1, 0]).log.filter Event.isWrite =
        [.delOldVersionAndWriteMany 99 7
          (Run exEnv 7 exTipSet true [1, 0, 0, 1, 1, 0]).internalTxs none]) :=
  ⟨by decide, by decide,
    one_record_per_identifier exEnv 7 exTipSet { Height := 99, Parents := [], Key := ["p"] }
      true [1, 0, 0, 1, 1, 0] [⟨"A"⟩, ⟨"B"⟩] (by decide) rfl (Or.inl rfl) rfl (by decide)⟩

/-- C2, counterexample: the parent tipset holds no message, the store holds a record
under (99, 7) from an earlier run; the run with `force` true succeeds and computes no
record, it makes no write, and the store still holds the old record under (99, 7):
the persisted set is not the (empty) set computed by the run. -/
theorem empty_run_keeps_old_records :
    (Run emptyEnv 7 exTipSet true []).ret = none ∧
    (Run emptyEnv 7 exTipSet true []).internalTxs = [] ∧
    storeAfter oldStore (Run emptyEnv 7 exTipSet true []).log 99 7 = [oldRecord] ∧
    storeAfter oldStore (Run emptyEnv 7 exTipSet true []).log 99 7 ≠
      (Run emptyEnv 7 exTipSet true []).internalTxs := by
  decide

/-- C2, amended: over a store whose `ReplaceVersion` replaces the contents of a
(height, version) key, for every prior content and every run with `force` true of
non-zero height whose parent lookup succeeds and which returns nil: when the run
computed at least one record, the store afterwards is the prior store with the contents
of (parent height, version) replaced by exactly the records computed (no union with the
prior contents, other keys untouched); when the run computed no record the store is
left exactly as it was. -/
theorem replace_on_write (env : Env) (version : Int) (tipSet parentTs : TipSet)
    (sched : List Nat) (st : Store)
    (h0 : tipSet.Height ≠ 0) (hp : env.ChainGetTipSet tipSet.Parents = .ok parentTs)
    (hret : (Run env version tipSet true sched).ret = none) :
    ((Run env version tipSet true sched).internalTxs ≠ [] →
      storeAfter st (Run env version tipSet true sched).log =
        ReplaceVersion st parentTs.Height version
          (Run env version tipSet true sched).internalTxs ∧
      storeAfter st (Run env version tipSet true sched).log parentTs.Height version =
        (Run env version tipSet true sched).internalTxs) ∧
    ((Run env version tipSet true sched).internalTxs = [] →
      storeAfter st (Run env version tipSet true sched).log = st) := by
  have hrun : Run env version tipSet true sched =
      extract env version parentTs sched [.chainGetTipSet tipSet.Parents none] := by
    simp [Run, h0, hp]
  rw [hrun] at hret ⊢
  rcases extract_cases env version parentTs sched [.chainGetTipSet tipSet.Parents none] with
    ⟨e, he⟩ | ⟨messages, hm, he⟩
  · rw [he] at hret
    simp at hret
  · rw [he] at hret ⊢
    rcases wait_log env parentTs.Height version sched
      (spawn ([.chainGetTipSet tipSet.Parents none] ++
        [.chainGetMessagesInTipset parentTs.Key none]) messages) with ⟨evs, hl1, hl2⟩
    generalize wait env parentTs.Height version sched
      (spawn ([.chainGetTipSet tipSet.Parents none] ++
        [.chainGetMessagesInTipset parentTs.Key none]) messages) = g at *
    have hnw : ∀ ev ∈ g.log, ev.isWrite = false := by
      intro ev hev
      rw [hl1] at hev
      rcases List.mem_append.1 hev with hev | hev
      · simp [spawn] at hev
        rcases hev with rfl | rfl <;> rfl
      · exact (isUnit_facts (hl2 ev hev)).1
    rcases persist_cases env parentTs.Height version g with
      ⟨e, hge, hpe⟩ | ⟨hge, hnil, hpe⟩ | ⟨hge, hne, hpe⟩
    · rw [hpe] at hret
      simp at hret
    · rw [hpe]
      exact ⟨fun h => absurd hnil h, fun _ => storeAfter_no_write g.log hnw st⟩
    · rw [hpe] at hret ⊢
      have hw : env.DelOldVersionAndWriteMany parentTs.Height version g.internalTxs = none := by
        cases hw : env.DelOldVersionAndWriteMany parentTs.Height version g.internalTxs with
        | none => rfl
        | some e => simp [hw] at hret
      have hst : storeAfter st (g.log ++
          [.delOldVersionAndWriteMany parentTs.Height version g.internalTxs
            (env.DelOldVersionAndWriteMany parentTs.Height version g.internalTxs)]) =
          ReplaceVersion st parentTs.Height version g.internalTxs := by
        rw [storeAfter_append, storeAfter_no_write g.log hnw st, hw]
        rfl
      refine ⟨fun _ => ⟨hst, ?_⟩, fun h => absurd h hne⟩
      show storeAfter st _ parentTs.Height version = g.internalTxs
      rw [hst]
      simp [ReplaceVersion]

theorem replace_on_write_witness :
    exTipSet.Height ≠ 0 ∧
    (Run exEnv 7 exTipSet true [0, 1]).ret = none ∧
    ((Run exEnv 7 exTipSet true [0, 1]).internalTxs ≠ [] →
      storeAfter oldStore (Run exEnv 7 exTipSet true [0, 1]).log =
        ReplaceVersion oldStore 99 7 (Run exEnv 7 exTipSet true [0, 1]).internalTxs ∧
      storeAfter oldStore (Run exEnv 7 exTipSet true [0, 1]).log 99 7 =
        (Run exEnv 7 exTipSet true [0, 1]).internalTxs) ∧
    ((Run exEnv 7 exTipSet true [0, 1]).internalTxs = [] →
      storeAfter oldStore (Run exEnv 7 exTipSet true [0, 1]).log = oldStore) :=
  ⟨by decide, by decide,
    replace_on_write exEnv 7 exTipSet { Height := 99, Parents := [], Key := ["p"] } [0, 1]
      oldStore (by decide) rfl (by decide)⟩

/-- C10: first observer wins.  On a run that reaches the goroutines and returns nil,
under every schedule: a `LoadOrStore` call finds its key (and the sub-call is skipped)
exactly when an earlier call of the log had the same key, so for every sub-call
identifier of the traces exactly one call, the first one for that identifier, stored the
key; the records of `internalTxs` are, up to order, one record per storing call, built
from the sub-message of that call with the transaction hash of the message of the
goroutine that made the call as `ParentHash`; and when the schedule runs the goroutines
one after the other in some order, the storing call for an identifier is made by the
first goroutine of that order whose trace holds the identifier. -/
theorem first_observer_wins (env : Env) (version : Int) (tipSet parentTs : TipSet)
    (force : Bool) (sched : List Nat) (messages : List ApiMessage)
    (h0 : tipSet.Height ≠ 0) (hp : env.ChainGetTipSet tipSet.Parents = .ok parentTs)
    (hs : force = true ∨ env.Existed parentTs.Height version = .ok false)
    (hm : env.ChainGetMessagesInTipset parentTs.Key = .ok messages)
    (hret : (Run env version tipSet force sched).ret = none) :
    (∀ pre o post, observations (Run env version tipSet force sched).log = pre ++ o :: post →
      (o.2.2 = true ↔ ∃ o' ∈ pre, env.MessageCid o'.2.1 = env.MessageCid o.2.1)) ∧
    ((winners (Run env version tipSet force sched).log).map
      (fun w => env.MessageCid w.2)).Nodup ∧
    (∀ k, k ∈ subcallIds env messages ↔
      k ∈ (winners (Run env version tipSet force sched).log).map
        (fun w => env.MessageCid w.2)) ∧
    (Run env version tipSet force sched).internalTxs.Perm
      ((winners (Run env version tipSet force sched).log).filterMap
        (recordOf env parentTs.Height version messages)) ∧
    (∀ w ∈ winners (Run env version tipSet force sched).log,
      ∃ m parentHash hash tx, messages[w.1]? = some m ∧
        (∃ t ∈ subcallsOf env m.Cid, t.Msg = w.2) ∧
        env.EthGetTransactionHashByCid m.Cid = .ok parentHash ∧
        env.EthHashFromCid (env.MessageCid w.2) = .ok hash ∧
        recordOf env parentTs.Height version messages w = some tx ∧
        tx.ParentHash = parentHash.String ∧ tx.Hash = hash.String) ∧
    (∀ order, sched = seqSchedule env messages order →
      FirstIn env messages (order ++ List.range messages.length)
        (Run env version tipSet force sched).log) := by
  have hrun := run_reach env version tipSet parentTs force sched messages h0 hp hs hm
  rw [hrun] at hret ⊢
  have hobs0 := observations_preamble tipSet parentTs version force
  have herr := persist_err _ _ _ _ hret
  have hclean := joined_clean env parentTs.Height version sched _ messages hobs0 _ rfl herr
  have hinv := wait_allInv env parentTs.Height version sched _ messages hobs0
  have hseq : ∀ order, sched = seqSchedule env messages order →
      FirstIn env messages (order ++ List.range messages.length)
        (wait env parentTs.Height version sched
          (spawn (preamble tipSet parentTs version force) messages)).log := by
    intro order ho
    subst ho
    exact wait_sequential env parentTs.Height version messages _ hobs0 order herr
  have hobs := persist_observations env parentTs.Height version
    (wait env parentTs.Height version sched
      (spawn (preamble tipSet parentTs version force) messages))
  have htx := persist_internalTxs env parentTs.Height version
    (wait env parentTs.Height version sched
      (spawn (preamble tipSet parentTs version force) messages))
  generalize wait env parentTs.Height version sched
    (spawn (preamble tipSet parentTs version force) messages) = g at *
  have hwin : winners (persist env parentTs.Height version g).log = winners g.log := by
    unfold winners
    rw [hobs]
  rcases hclean with ⟨hperm, hall, hnd, hkeys, _⟩
  rw [hobs, hwin, htx]
  refine ⟨hinv.obs.first, hnd, hkeys, hperm, ?_, ?_⟩
  · intro w hw
    rcases hinv.obs.owner _ (mem_winners hw) with ⟨m, hmw, ⟨parentHash, hph⟩, t, ht, hto⟩
    have hsome := hall w hw
    cases hb : buildTx env parentTs.Height version parentHash w.2 with
    | mk evs res =>
      cases res with
      | error e => simp [recordOf, hmw, hph, hb] at hsome
      | ok tx =>
        have hrec : recordOf env parentTs.Height version messages w = some tx := by
          simp [recordOf, hmw, hph, hb]
        rcases buildTx_ok hb with ⟨_, frm, toAddr, hash, _, _, hhash, rfl⟩
        exact ⟨m, parentHash, hash, _, hmw, ⟨t, ht, hto⟩, hph, hhash, hrec, rfl, rfl⟩
  · intro order ho
    have := hseq order ho
    unfold FirstIn at this ⊢
    rw [hwin]
    exact this

theorem first_observer_wins_witness :
    exSeqRun.ret = none ∧
    winners exSeqRun.log = [(1, exSub 2), (1, exSub 3), (0, exSub 1)] ∧
    exSeqRun.internalTxs.map (fun tx => (tx.Hash, tx.ParentHash)) =
      [("0xs2", "0xB"), ("0xs3", "0xB"), ("0xs1", "0xA")] ∧
    (∀ pre o post, observations exSeqRun.log = pre ++ o :: post →
      (o.2.2 = true ↔ ∃ o' ∈ pre, exEnv.MessageCid o'.2.1 = exEnv.MessageCid o.2.1)) ∧
    ((winners exSeqRun.log).map (fun w => exEnv.MessageCid w.2)).Nodup ∧
    (∀ k, k ∈ subcallIds exEnv exMessages ↔
      k ∈ (winners exSeqRun.log).map (fun w => exEnv.MessageCid w.2)) ∧
    exSeqRun.internalTxs.Perm
      ((winners exSeqRun.log).filterMap (recordOf exEnv exParent.Height 7 exMessages)) ∧
    (∀ w ∈ winners exSeqRun.log,
      ∃ m parentHash hash tx, exMessages[w.1]? = some m ∧
        (∃ t ∈ subcallsOf exEnv m.Cid, t.Msg = w.2) ∧
        exEnv.EthGetTransactionHashByCid m.Cid = .ok parentHash ∧
        exEnv.EthHashFromCid (exEnv.MessageCid w.2) = .ok hash ∧
        recordOf exEnv exParent.Height 7 exMessages w = some tx ∧
        tx.ParentHash = parentHash.String ∧ tx.Hash = hash.String) ∧
    (∀ order, seqSchedule exEnv exMessages [1, 0] = seqSchedule exEnv exMessages order →
      FirstIn exEnv exMessages (order ++ List.range exMessages.length) exSeqRun.log) :=
  ⟨by decide, by decide, by decide,
    first_observer_wins exEnv 7 exTipSet exParent true (seqSchedule exEnv exMessages [1, 0])
      exMessages (by decide) rfl (Or.inl rfl) rfl (by decide)⟩

theorem record_fields_witness :
    exRecord ∈ (Run exEnv 7 exTipSet true [1, 0, 1]).internalTxs ∧
    ∃ parentTs messages, exEnv.ChainGetTipSet exTipSet.Parents = .ok parentTs ∧
      exEnv.ChainGetMessagesInTipset parentTs.Key = .ok messages ∧
    ∃ m ∈ messages, ∃ invocs, exEnv.StateReplay m.Cid = .ok invocs ∧
    ∃ sub ∈ invocs.ExecutionTrace.Subcalls, ∃ parentHash hash frm toAddr,
      exEnv.EthGetTransactionHashByCid m.Cid = .ok parentHash ∧
      exEnv.EthHashFromCid (exEnv.MessageCid sub.Msg) = .ok hash ∧
      exEnv.EthAddressFromFilecoinAddress sub.Msg.From = .ok frm ∧
      exEnv.EthAddressFromFilecoinAddress sub.Msg.To = .ok toAddr ∧
      exRecord.Height = parentTs.Height ∧ exRecord.Version = 7 ∧
      exRecord.Hash = hash.String ∧ exRecord.ParentHash = parentHash.String ∧
      exRecord.From = frm.String ∧ exRecord.To = toAddr.String ∧
      exRecord.Typ = sub.Msg.Method ∧ exRecord.Value = toString sub.Msg.Value :=
  ⟨by decide, record_fields exEnv 7 exTipSet true [1, 0, 1] exRecord (by decide)⟩

end Evmtask
